import Mathlib

/-!
The stmpfs block buffer, inode tree and entry points

A shallow embedding of `src/stmpfs/inode.cpp`, `src/stmpfs/stmpfs.cpp`,
`src/stmpfs/pathname.cpp` and `src/fuse/fuse_ops.cpp`.

Conventions of the embedding.

* `size_t`, `uint64_t` and non-negative `off_t` values are natural numbers.  The
  64-bit sum `offset + length` of `inode_t::write` can wrap only when `length`
  is at least `2^63`, and no buffer of that many bytes can be passed to it; the
  sum `offset + length` of `inode_t::read`, whose `length` is only an upper
  bound on what is copied, is taken modulo `2^64`; the `(int)` casts of the
  entry points are embedded explicitly (`int_cast`).
* A `char[BLOCK_SIZE]` block is a function from byte index to byte; every copy
  checks that it stays inside the block.
* Indexing `data[i]` with `i` past the end of the block vector is undefined
  behaviour in the source; the embedding returns `none` there.  The index
  expression is evaluated before `memcpy` is called, so this holds also when
  the copy has zero bytes.
* A `std::string` holds bytes: the bytes of a name or of a C string literal are
  its UTF-8 encoding.
* `new char[BLOCK_SIZE]` returns a block of unspecified content: every operation
  that allocates takes `fresh : Nat → Block`, the content of the block appended
  at a given position of the block vector.
-/

namespace Stmpfs

/-! ## Blocks -/

/-- The macro `BLOCK_SIZE` of `inode.h`. -/
def BLOCK_SIZE : Nat := 1024

abbrev Byte := UInt8

/-- One `char[BLOCK_SIZE]` block. -/
abbrev Block := Nat → Byte

/-- The call `memcpy(dst, data[idx] + pos, n)`: the `n` bytes copied out of
block `idx`, or `none` when `data[idx]` is past the end of the vector, whatever
`n` is, or when bytes are read past the end of the block. -/
def load (data : List Block) (idx pos n : Nat) : Option (List Byte) :=
  match data[idx]? with
  | none => none
  | some blk =>
    if n = 0 then some []
    else if pos + n ≤ BLOCK_SIZE then some ((List.range n).map (fun k => blk (pos + k)))
    else none

/-- The call `memcpy(data[idx] + pos, src, n)`: the block vector after the
copy, or `none` when `data[idx]` is past the end of the vector, whatever `n`
is, or when bytes are written past the end of the block or read past the end
of `src`. -/
def store (data : List Block) (idx pos : Nat) (src : List Byte) (n : Nat) :
    Option (List Block) :=
  match data[idx]? with
  | none => none
  | some blk =>
    if n = 0 then some data
    else if pos + n ≤ BLOCK_SIZE ∧ n ≤ src.length then
      some (data.set idx (fun j => if pos ≤ j ∧ j < pos + n then src.getD (j - pos) 0 else blk j))
    else none

/-- The "full" loop of `read_buffer`: `k` more iterations, the loop variable
being `i`; `acc` is the output written so far and `read_offset` its length. -/
def read_buffer_full (data : List Block) (orphaned_skipped_blocks : Nat) :
    Nat → Nat → List Byte → Nat → Option (List Byte × Nat)
  | 0, _, acc, read_offset => some (acc, read_offset)
  | k + 1, i, acc, read_offset =>
    match load data (orphaned_skipped_blocks + i) 0 BLOCK_SIZE with
    | none => none
    | some bytes =>
      read_buffer_full data orphaned_skipped_blocks k (i + 1) (acc ++ bytes)
        (read_offset + BLOCK_SIZE)

/-- The function `read_buffer` of `inode.cpp`: the bytes stored into `buffer`
(from its start) and the returned `read_offset`. -/
def read_buffer (length offset : Nat) (data : List Block) : Option (List Byte × Nat) :=
  let orphaned_skipped_read := offset % BLOCK_SIZE
  let orphaned_skipped_blocks := offset / BLOCK_SIZE
  let orphaned_read := min (BLOCK_SIZE - orphaned_skipped_read) length
  let rest_read_length := length - orphaned_read
  let full_read_count := rest_read_length / BLOCK_SIZE
  let orphaned_tail := rest_read_length % BLOCK_SIZE
  -- head
  match load data orphaned_skipped_blocks orphaned_skipped_read orphaned_read with
  | none => none
  | some head =>
    -- full
    match read_buffer_full data orphaned_skipped_blocks full_read_count 1 head orphaned_read with
    | none => none
    | some (acc, read_offset) =>
      -- tail
      if orphaned_tail ≠ 0 then
        match load data (orphaned_skipped_blocks + full_read_count + 1) 0 orphaned_tail with
        | none => none
        | some tail => some (acc ++ tail, read_offset + orphaned_tail)
      else some (acc, read_offset)

/-- The "full" loop of `write_buffer`: `k` more iterations, the loop variable
being `i`.  Each iteration first appends a new block to the vector. -/
def write_buffer_full (fresh : Nat → Block) (buffer : List Byte)
    (orphaned_skipped_blocks : Nat) :
    Nat → Nat → List Block → Nat → Option (List Block × Nat)
  | 0, _, data, write_offset => some (data, write_offset)
  | k + 1, i, data, write_offset =>
    match store (data ++ [fresh data.length]) (orphaned_skipped_blocks + i) 0
        (buffer.drop write_offset) BLOCK_SIZE with
    | none => none
    | some data1 =>
      write_buffer_full fresh buffer orphaned_skipped_blocks k (i + 1) data1
        (write_offset + BLOCK_SIZE)

/-- The function `write_buffer` of `inode.cpp`: the block vector afterwards and
the returned `write_offset`. -/
def write_buffer (fresh : Nat → Block) (buffer : List Byte) (length offset : Nat)
    (data : List Block) : Option (List Block × Nat) :=
  let orphaned_skipped_write := offset % BLOCK_SIZE
  let orphaned_skipped_blocks := offset / BLOCK_SIZE
  let orphaned_write := min (BLOCK_SIZE - orphaned_skipped_write) length
  let rest_write_length := length - orphaned_write
  let full_write_count := rest_write_length / BLOCK_SIZE
  let orphaned_tail := rest_write_length % BLOCK_SIZE
  -- head
  match store data orphaned_skipped_blocks orphaned_skipped_write buffer orphaned_write with
  | none => none
  | some data1 =>
    -- full
    match write_buffer_full fresh buffer orphaned_skipped_blocks full_write_count 1 data1
        orphaned_write with
    | none => none
    | some (data2, write_offset) =>
      -- tail
      if orphaned_tail ≠ 0 then
        match store (data2 ++ [fresh data2.length])
            (orphaned_skipped_blocks + full_write_count + 1) 0
            (buffer.drop write_offset) orphaned_tail with
        | none => none
        | some data3 => some (data3, write_offset + orphaned_tail)
      else some (data2, write_offset)

/-- The allocation loop of `fill_buffer` and of the growing branch of
`inode_t::truncate`: `k` blocks are appended. -/
def emplace_back_loop (fresh : Nat → Block) : Nat → List Block → List Block
  | 0, data => data
  | k + 1, data => emplace_back_loop fresh k (data ++ [fresh data.length])

/-- The function `fill_buffer` of `inode.cpp`: the block vector afterwards and
the returned `length`. -/
def fill_buffer (fresh : Nat → Block) (length : Nat) (data : List Block) : List Block × Nat :=
  let alloc_blk_count := length / BLOCK_SIZE + (if length % BLOCK_SIZE = 0 then 0 else 1)
  (emplace_back_loop fresh alloc_blk_count data, length)

/-- The shrinking loop of `inode_t::truncate`: `k` times `pop_back`. -/
def pop_back_loop : Nat → List Block → List Block
  | 0, data => data
  | k + 1, data => pop_back_loop k data.dropLast

/-! ## Inodes -/

structure timespec where
  tv_sec : Int := 0
  tv_nsec : Int := 0
deriving DecidableEq, Repr

/-- The fields of `struct stat` the file system uses. -/
structure stat where
  st_dev : Nat := 0
  st_mode : Nat := 0
  st_nlink : Nat := 0
  st_uid : Nat := 0
  st_gid : Nat := 0
  st_size : Int := 0
  st_atim : timespec := {}
  st_mtim : timespec := {}
  st_ctim : timespec := {}
deriving DecidableEq, Repr

/-- The struct `inode_t::dentry_t`; the pointer `inode` is embedded as the
inode it points to. -/
structure dentry_t (I : Type) where
  if_constructed_by_inode : Bool
  inode : I

/-- The class `inode_t`.  The `std::map`s `dentry` and `xattr` are association
lists kept in ascending key order. -/
inductive inode_t where
  | mk (data : List Block) (cur_data_size : Nat)
      (dentry : List (String × dentry_t inode_t))
      (fs_stat : stat) (xattr : List (String × List Byte)) : inode_t

namespace inode_t

def data : inode_t → List Block
  | mk d _ _ _ _ => d

def cur_data_size : inode_t → Nat
  | mk _ c _ _ _ => c

def dentry : inode_t → List (String × dentry_t inode_t)
  | mk _ _ d _ _ => d

def fs_stat : inode_t → stat
  | mk _ _ _ s _ => s

def xattr : inode_t → List (String × List Byte)
  | mk _ _ _ _ x => x

/-- The default-constructed `inode_t`. -/
def new : inode_t := mk [] 0 [] {} []

def set_fs_stat (inode : inode_t) (s : stat) : inode_t :=
  mk inode.data inode.cur_data_size inode.dentry s inode.xattr

def set_dentry (inode : inode_t) (d : List (String × dentry_t inode_t)) : inode_t :=
  mk inode.data inode.cur_data_size d inode.fs_stat inode.xattr

/-- The method `inode_t::read`: the returned count and the bytes stored into
`buffer`.  The sum `offset + length` is a 64-bit sum. -/
def read (inode : inode_t) (length offset : Nat) : Option (Nat × List Byte) :=
  if inode.cur_data_size = 0 then some (0, [])
  else if offset > inode.cur_data_size then some (0, [])
  else
    let length :=
      if (offset + length) % 2 ^ 64 > inode.cur_data_size then inode.cur_data_size - offset
      else length
    match read_buffer length offset inode.data with
    | none => none
    | some (bytes, read_offset) => some (read_offset, bytes)

/-- The method `inode_t::write`: the returned count and the inode afterwards. -/
def write (fresh : Nat → Block) (inode : inode_t) (buffer : List Byte) (length offset : Nat) :
    Option (Nat × inode_t) :=
  let filled : inode_t :=
    if offset + length > inode.cur_data_size then
      mk (fill_buffer fresh (offset + length - inode.cur_data_size) inode.data).1
        (length + offset) inode.dentry
        { inode.fs_stat with st_size := ((length + offset : Nat) : Int) } inode.xattr
    else inode
  match write_buffer fresh buffer length offset filled.data with
  | none => none
  | some (data1, _) =>
    some (length, mk data1 filled.cur_data_size filled.dentry filled.fs_stat filled.xattr)

/-- The method `inode_t::truncate`. -/
def truncate (fresh : Nat → Block) (inode : inode_t) (size : Nat) : inode_t :=
  let alloc_count := size / BLOCK_SIZE + (if size % BLOCK_SIZE = 0 then 0 else 1)
  let cur_blk_count := inode.data.length
  let data1 :=
    if alloc_count < cur_blk_count then pop_back_loop (cur_blk_count - alloc_count) inode.data
    else if alloc_count > cur_blk_count then
      emplace_back_loop fresh (alloc_count - cur_blk_count) inode.data
    else inode.data
  mk data1 size inode.dentry inode.fs_stat inode.xattr

end inode_t

/-- Logical byte `i` of a block vector: byte `i mod BLOCK_SIZE` of block
`i div BLOCK_SIZE`, when that block exists. -/
def logical_byte (data : List Block) (i : Nat) : Option Byte :=
  (data[i / BLOCK_SIZE]?).map (fun blk => blk (i % BLOCK_SIZE))

/-! ## The `std::map` of directory entries and of extended attributes -/

/-- The call `m.find(name)`: the mapped value, or `none` for `m.end()`. -/
def map_find {β : Type} (name : String) : List (String × β) → Option β
  | [] => none
  | (k, v) :: rest => if k = name then some v else map_find name rest

/-- The call `m.erase(it)` for `it = m.find(name)`: keys are unique in a
`std::map`, the entry of key `name` goes. -/
def map_erase {β : Type} (name : String) (m : List (String × β)) : List (String × β) :=
  m.filter (fun e => decide (e.1 ≠ name))

/-- The comparison `operator<` of `std::string`, on the character lists:
lexicographic, a proper prefix being smaller.  The source compares the bytes;
UTF-8 keeps the order of the characters, so the two orders are the same. -/
def str_lt : List Char → List Char → Bool
  | _, [] => false
  | [], _ :: _ => true
  | x :: xs, y :: ys =>
    if x.toNat < y.toNat then true
    else if y.toNat < x.toNat then false
    else str_lt xs ys

/-- The key order of the `std::map<std::string, _>`. -/
def key_lt (a b : String) : Bool := str_lt a.toList b.toList

/-- The call `m.emplace(name, v)`: inserted at its place in key order, unless
the key is already there. -/
def map_emplace {β : Type} (name : String) (v : β) : List (String × β) → List (String × β)
  | [] => [(name, v)]
  | (k, w) :: rest =>
    if key_lt name k then (name, v) :: (k, w) :: rest
    else if k = name then (k, w) :: rest
    else (k, w) :: map_emplace name v rest

/-- A mutation, through the pointer `m.find(name)->second`, of the mapped
value. -/
def map_update {β : Type} (name : String) (f : β → β) : List (String × β) → List (String × β)
  | [] => []
  | (k, v) :: rest => if k = name then (k, f v) :: rest else (k, v) :: map_update name f rest

/-- The invariant of a `std::map`: keys in strictly ascending order. -/
def map_sorted {β : Type} (m : List (String × β)) : Prop :=
  (m.map Prod.fst).Pairwise (fun a b => key_lt a b = true)

namespace inode_t

/-- The method `inode_t::find_in_dentry`; `none` is the thrown
`STMPFS_ERROR_NO_SUCH_FILE_OR_DIRECTORY`. -/
def find_in_dentry (name : String) (inode : inode_t) : Option inode_t :=
  (map_find name inode.dentry).map (fun e => e.inode)

/-- The method `inode_t::add_dentry`.  Deleting the replaced child frees
memory only; the directory afterwards is the same with or without it. -/
def add_dentry (name : String) (child : inode_t) (if_alloc_by_inode : Bool) (self : inode_t) :
    inode_t :=
  self.set_dentry (map_emplace name ⟨if_alloc_by_inode, child⟩ (map_erase name self.dentry))

/-- The method `inode_t::emplace_new_dentry`: the new child takes the
template's `fs_stat`, `dentry` and a copy of each data block; its
`cur_data_size` and `xattr` keep the values of a default-constructed inode. -/
def emplace_new_dentry (name : String) (inode : inode_t) (self : inode_t) : inode_t :=
  self.set_dentry
    (map_emplace name ⟨true, mk inode.data 0 inode.dentry inode.fs_stat []⟩
      (map_erase name self.dentry))

/-- The method `inode_t::del_dentry`; `none` is the thrown
`STMPFS_ERROR_NO_SUCH_FILE_OR_DIRECTORY`.  `protect_child` decides only whether
the removed child is freed. -/
def del_dentry (name : String) (_protect_child : Bool) (self : inode_t) : Option inode_t :=
  match map_find name self.dentry with
  | none => none
  | some _ => some (self.set_dentry (map_erase name self.dentry))

end inode_t

/-! ## Path resolution -/

/-- The function `pathname_to_inode` of `stmpfs.cpp`, on the component vector
of the parsed path; `none` is the exception of `find_in_dentry`. -/
def pathname_to_inode : List String → inode_t → Option inode_t
  | [], cur_dir => some cur_dir
  | path :: rest, cur_dir =>
    match cur_dir.find_in_dentry path with
    | none => none
    | some next => pathname_to_inode rest next

/-- A mutation through the reference `pathname_to_inode(vpath, root)`: the
tree in which the inode reached by `vpath` is replaced by its image under `f`
(the tree itself when `vpath` reaches nothing). -/
def modify_at : List String → (inode_t → inode_t) → inode_t → inode_t
  | [], f, cur_dir => f cur_dir
  | path :: rest, f, cur_dir =>
    cur_dir.set_dentry
      (map_update path (fun e => ⟨e.if_constructed_by_inode, modify_at rest f e.inode⟩)
        cur_dir.dentry)

/-- The loop of the path parser: `cur` is the component being read. -/
def split_components : List Char → List Char → List String
  | [], cur => [String.mk cur]
  | c :: rest, cur =>
    if c = '/' then String.mk cur :: split_components rest []
    else split_components rest (cur ++ [c])

/-- Modelled from the spec: the constructor of `stmpfs_pathname_t`, declared in
`pathname_t.h`, whose body is not among the sources.  Spec 4.1: `/` gives the
empty sequence; one leading and one trailing `/` are stripped; the rest is
split on `/`. -/
def stmpfs_pathname_t (pathname : String) : List String :=
  if pathname = "/" then []
  else
    let s1 := match pathname.toList with
      | '/' :: rest => rest
      | l => l
    let s2 := if s1.getLast? = some '/' then s1.dropLast else s1
    split_components s2 []

/-- The bytes that a `std::string` or a C string holds for the text `s`,
without the terminating NUL: the UTF-8 encoding of its characters. -/
def c_str (s : String) : List Byte := s.toList.flatMap String.utf8EncodeChar

/-! ## Entry points

Every entry point takes `vpath`, the component vector that
`stmpfs_pathname_t vpath(path)` holds, the value `now` of `current_time()`, and
the tree under `filesystem_root`; it returns the `int` result and the tree
afterwards.  The result `none` stands for undefined behaviour: `back()` on an
empty component vector, or a copy outside the allocated blocks. -/

def ENOENT : Int := 2

def S_IFDIR : Nat := 0o040000
def S_IFREG : Nat := 0o100000
def S_IFLNK : Nat := 0o120000

/-- The cast `(int)` of a `size_t`: the low 32 bits, read as two's
complement. -/
def int_cast (n : Nat) : Int := ((n + 2 ^ 31) % 2 ^ 32 : Nat) - 2 ^ 31

def set_atim (now : timespec) (inode : inode_t) : inode_t :=
  inode.set_fs_stat { inode.fs_stat with st_atim := now }

def set_ctim (now : timespec) (inode : inode_t) : inode_t :=
  inode.set_fs_stat { inode.fs_stat with st_ctim := now }

/-- The entry point `do_getattr`: the result and the content of `*stbuf`
afterwards. -/
def do_getattr (vpath : List String) (stbuf : stat) (root : inode_t) : Int × stat :=
  match pathname_to_inode vpath root with
  | none => (-ENOENT, stbuf)
  | some inode => (0, inode.fs_stat)

/-- The inode `new_inode` that `do_create` fills in. -/
def create_template (mode : Nat) (cur_time : timespec) : inode_t :=
  inode_t.mk [] 0 []
    { st_mode := mode, st_nlink := 1, st_atim := cur_time, st_ctim := cur_time,
      st_mtim := cur_time } []

/-- The entry point `do_create`. -/
def do_create (vpath : List String) (mode : Nat) (now : timespec) (root : inode_t) :
    Option (Int × inode_t) :=
  match vpath.getLast? with
  | none => none
  | some tag_name =>
    match pathname_to_inode vpath.dropLast root with
    | none => some (-ENOENT, root)
    | some _ =>
      some (0, modify_at vpath.dropLast
        (inode_t.emplace_new_dentry tag_name (create_template mode now)) root)

/-- The entry point `do_read`: the result, the bytes stored into `buffer`, and
the tree afterwards. -/
def do_read (vpath : List String) (size offset : Nat) (now : timespec) (root : inode_t) :
    Option (Int × List Byte × inode_t) :=
  match pathname_to_inode vpath root with
  | none => some (-ENOENT, [], root)
  | some inode =>
    match (set_atim now inode).read size offset with
    | none => none
    | some (n, bytes) => some (int_cast n, bytes, modify_at vpath (set_atim now) root)

/-- The entry point `do_write`. -/
def do_write (fresh : Nat → Block) (vpath : List String) (buffer : List Byte)
    (size offset : Nat) (now : timespec) (root : inode_t) : Option (Int × inode_t) :=
  match pathname_to_inode vpath root with
  | none => some (-ENOENT, root)
  | some inode =>
    match (set_ctim now inode).write fresh buffer size offset with
    | none => none
    | some (n, inode1) => some (int_cast n, modify_at vpath (fun _ => inode1) root)

/-- The entry point `do_rename`.  The pointer `inode` found under the source
parent is the object linked under the destination parent, so the `st_ctim`
stored through it last is the one of the linked inode.  When the destination
parent lies inside the moved subtree, the new link is made inside a subtree
that is no longer reachable from the root: the tree under the root is the one
left by the removal. -/
def do_rename (vpath_src vpath_dest : List String) (now : timespec) (root : inode_t) :
    Option (Int × inode_t) :=
  match vpath_src.getLast?, vpath_dest.getLast? with
  | some src_name, some dest_name =>
    match pathname_to_inode vpath_src.dropLast root with
    | none => some (-ENOENT, root)
    | some src_parent_inode =>
      match pathname_to_inode vpath_dest.dropLast root with
      | none => some (-ENOENT, root)
      | some _ =>
        match src_parent_inode.find_in_dentry src_name with
        | none => some (-ENOENT, root)
        | some inode =>
          match src_parent_inode.del_dentry src_name true with
          | none => some (-ENOENT, root)
          | some src_parent_after =>
            some (0, modify_at vpath_dest.dropLast
              (inode_t.add_dentry dest_name (set_ctim now inode) true)
              (modify_at vpath_src.dropLast (fun _ => src_parent_after) root))
  | _, _ => none

/-- The inode `new_inode` of `do_symlink` before `new_inode.write`. -/
def symlink_template (cur_time : timespec) : inode_t :=
  inode_t.mk [] 0 []
    { st_mode := S_IFLNK ||| 0o755, st_nlink := 1, st_atim := cur_time, st_ctim := cur_time,
      st_mtim := cur_time } []

/-- The entry point `do_symlink(path, linkname)`, the function installed in
the `symlink` slot of `fuse_operations`; `vpath` is the parsed first argument,
`linkname` the bytes of the second, of length `strlen(linkname)`. -/
def do_symlink (fresh : Nat → Block) (vpath : List String) (linkname : List Byte)
    (now : timespec) (root : inode_t) : Option (Int × inode_t) :=
  match vpath.getLast? with
  | none => none
  | some tag_name =>
    match pathname_to_inode vpath.dropLast root with
    | none => some (-ENOENT, root)
    | some _ =>
      match (symlink_template now).write fresh linkname linkname.length 0 with
      | none => none
      | some (_, new_inode) =>
        some (0, modify_at vpath.dropLast (inode_t.emplace_new_dentry tag_name new_inode) root)

/-- The entry point `do_readlink`: the result, the bytes stored into `buffer`,
and the tree afterwards. -/
def do_readlink (vpath : List String) (size : Nat) (now : timespec) (root : inode_t) :
    Option (Int × List Byte × inode_t) :=
  match pathname_to_inode vpath root with
  | none => some (-ENOENT, [], root)
  | some inode =>
    match (set_atim now inode).read size 0 with
    | none => none
    | some (_, bytes) => some (0, bytes, modify_at vpath (set_atim now) root)

/-- The state of an inode apart from its directory entries. -/
def inode_t.own (inode : inode_t) : List Block × Nat × stat × List (String × List Byte) :=
  (inode.data, inode.cur_data_size, inode.fs_stat, inode.xattr)

/-- The root inode made at start-up: a directory of mode `S_IFDIR | 0755`. -/
def empty_root (now : timespec) : inode_t :=
  inode_t.mk [] 0 []
    { st_mode := S_IFDIR ||| 0o755, st_atim := now, st_ctim := now, st_mtim := now } []

/-- The removal of the entry `name` from a directory, the effect of a
`del_dentry` that does not throw. -/
def erase_entry (name : String) (n : inode_t) : inode_t :=
  n.set_dentry (map_erase name n.dentry)

/-- The tree after a successful `do_rename`, in closed form. -/
def after_rename (sp dp : List String) (sn dn : String) (now : timespec) (node root : inode_t) :
    inode_t :=
  modify_at dp (inode_t.add_dentry dn (set_ctim now node) true)
    (modify_at sp (erase_entry sn) root)

/-! ## Entry points: directories, unlink, extended attributes -/

def EBUSY : Int := 16
def EEXIST : Int := 17
def ENOTDIR : Int := 20
def EISDIR : Int := 21
def ERANGE : Int := 34
def ENOTEMPTY : Int := 39
def ENODATA : Int := 61

def S_IFMT : Nat := 0o170000
def S_IFBLK : Nat := 0o060000

/-- The flags of `<sys/xattr.h>`. -/
def XATTR_CREATE : Int := 1

def XATTR_REPLACE : Int := 2

/-- The inode `new_inode` that `do_mkdir` fills in. -/
def mkdir_template (mode : Nat) (cur_time : timespec) : inode_t :=
  inode_t.mk [] 0 []
    { st_mode := mode ||| S_IFDIR, st_atim := cur_time, st_ctim := cur_time,
      st_mtim := cur_time } []

/-- The entry point `do_mkdir`. -/
def do_mkdir (vpath : List String) (mode : Nat) (now : timespec) (root : inode_t) :
    Option (Int × inode_t) :=
  match vpath.getLast? with
  | none => none
  | some tag_name =>
    match pathname_to_inode vpath.dropLast root with
    | none => some (-ENOENT, root)
    | some _ =>
      some (0, modify_at vpath.dropLast
        (inode_t.emplace_new_dentry tag_name (mkdir_template mode now)) root)

/-- The inode `new_inode` that `do_mknod` fills in. -/
def mknod_template (mode device : Nat) (cur_time : timespec) : inode_t :=
  inode_t.mk [] 0 []
    { st_dev := device, st_mode := mode, st_nlink := 1, st_atim := cur_time,
      st_ctim := cur_time, st_mtim := cur_time } []

/-- The entry point `do_mknod`. -/
def do_mknod (vpath : List String) (mode device : Nat) (now : timespec) (root : inode_t) :
    Option (Int × inode_t) :=
  match vpath.getLast? with
  | none => none
  | some tag_name =>
    match pathname_to_inode vpath.dropLast root with
    | none => some (-ENOENT, root)
    | some _ =>
      some (0, modify_at vpath.dropLast
        (inode_t.emplace_new_dentry tag_name (mknod_template mode device now)) root)

/-- The entry point `do_unlink`; an empty component vector is answered before
`back()` is called. -/
def do_unlink (vpath : List String) (root : inode_t) : Int × inode_t :=
  match vpath.getLast? with
  | none => (-EISDIR, root)
  | some tag_name =>
    match pathname_to_inode vpath.dropLast root with
    | none => (-ENOENT, root)
    | some inode =>
      match inode.del_dentry tag_name false with
      | none => (-ENOENT, root)
      | some inode_after => (0, modify_at vpath.dropLast (fun _ => inode_after) root)

/-- The entry point `do_rmdir`; an empty component vector is answered before
`back()` is called. -/
def do_rmdir (vpath : List String) (root : inode_t) : Int × inode_t :=
  match vpath.getLast? with
  | none => (-EBUSY, root)
  | some tag_name =>
    match pathname_to_inode vpath.dropLast root with
    | none => (-ENOENT, root)
    | some inode =>
      match inode.find_in_dentry tag_name with
      | none => (-ENOENT, root)
      | some target_inode =>
        if target_inode.fs_stat.st_mode &&& S_IFDIR = 0 then (-ENOTDIR, root)
        else if ¬ (target_inode.dentry.isEmpty = true) then (-ENOTEMPTY, root)
        else
          match inode.del_dentry tag_name false with
          | none => (-ENOENT, root)
          | some inode_after => (0, modify_at vpath.dropLast (fun _ => inode_after) root)

/-- The entry point `do_readdir`: the result, the names passed to `filler` in
order, and the tree afterwards.  `.` and `..` are passed before the path is
resolved. -/
def do_readdir (vpath : List String) (now : timespec) (root : inode_t) :
    Int × List String × inode_t :=
  match pathname_to_inode vpath root with
  | none => (-ENOENT, [".", ".."], root)
  | some inode =>
    (0, [".", ".."] ++ (set_atim now inode).dentry.map Prod.fst,
      modify_at vpath (set_atim now) root)

/-- The statement `m[name] = v` on a `std::map`. -/
def map_assign {β : Type} (name : String) (v : β) (m : List (String × β)) : List (String × β) :=
  match map_find name m with
  | some _ => map_update name (fun _ => v) m
  | none => map_emplace name v m

def inode_t.set_xattr (inode : inode_t) (x : List (String × List Byte)) : inode_t :=
  inode_t.mk inode.data inode.cur_data_size inode.dentry inode.fs_stat x

/-- The function `inode_setxattr`: `buff` is made of `value[0 .. size-1]`;
`none` when `value` holds fewer than `size` bytes. -/
def inode_setxattr (inode : inode_t) (name : String) (value : List Byte) (size : Nat) :
    Option inode_t :=
  if size ≤ value.length then
    some (inode.set_xattr (map_assign name (value.take size) inode.xattr))
  else none

/-- The entry point `do_setxattr`. -/
def do_setxattr (vpath : List String) (name : String) (value : List Byte) (size : Nat)
    (flag : Int) (root : inode_t) : Option (Int × inode_t) :=
  match pathname_to_inode vpath root with
  | none => some (-ENOENT, root)
  | some inode =>
    if flag = XATTR_CREATE then
      match map_find name inode.xattr with
      | some _ => some (-EEXIST, root)
      | none =>
        match inode_setxattr inode name value size with
        | none => none
        | some inode1 => some (0, modify_at vpath (fun _ => inode1) root)
    else if flag = XATTR_REPLACE then
      match map_find name inode.xattr with
      | none => some (-ENODATA, root)
      | some _ =>
        match inode_setxattr inode name value size with
        | none => none
        | some inode1 => some (0, modify_at vpath (fun _ => inode1) root)
    else
      match inode_setxattr inode name value size with
      | none => none
      | some inode1 => some (0, modify_at vpath (fun _ => inode1) root)

/-- The entry point `do_getxattr`: the result and the bytes stored into
`value`; `value_null` says that the pointer `value` is `nullptr`.  `none` when
bytes are stored through a null pointer. -/
def do_getxattr (vpath : List String) (name : String) (value_null : Bool) (size : Nat)
    (root : inode_t) : Option (Int × List Byte) :=
  match pathname_to_inode vpath root with
  | none => some (-ENOENT, [])
  | some inode =>
    match map_find name inode.xattr with
    | none => some (-ENODATA, [])
    | some second =>
      if size = 0 ∧ value_null = true then some (int_cast second.length, [])
      else if size < second.length then some (-ERANGE, [])
      else if value_null = true ∧ second ≠ [] then none
      else some (int_cast second.length, second)

/-- The entry point `do_removexattr`. -/
def do_removexattr (vpath : List String) (name : String) (root : inode_t) : Int × inode_t :=
  match pathname_to_inode vpath root with
  | none => (-ENOENT, root)
  | some inode =>
    match map_find name inode.xattr with
    | none => (-ENODATA, root)
    | some _ => (0, modify_at vpath (fun n => n.set_xattr (map_erase name n.xattr)) root)

/-- The walk of the path resolver in the words of the spec: starting at the
root, every component is present as a child name at its level. -/
inductive Reaches : List String → inode_t → inode_t → Prop
  | nil (n : inode_t) : Reaches [] n n
  | cons (c : String) (cs : List String) (n m : inode_t) (e : dentry_t inode_t) :
      map_find c n.dentry = some e → Reaches cs e.inode m → Reaches (c :: cs) n m

/-- The `std::map` invariant over a whole tree: in every inode reached from
the root the keys of the children map ascend strictly. -/
def tree_sorted (root : inode_t) : Prop :=
  ∀ q n, pathname_to_inode q root = some n → map_sorted n.dentry

/-! ## Entry points: attributes of the inode, sizes, listxattr, statfs -/

/-- The entry point `do_chmod`. -/
def do_chmod (vpath : List String) (mode : Nat) (root : inode_t) : Int × inode_t :=
  match pathname_to_inode vpath root with
  | none => (-ENOENT, root)
  | some _ =>
    (0, modify_at vpath (fun inode => inode.set_fs_stat { inode.fs_stat with st_mode := mode })
      root)

/-- The entry point `do_chown`. -/
def do_chown (vpath : List String) (uid gid : Nat) (root : inode_t) : Int × inode_t :=
  match pathname_to_inode vpath root with
  | none => (-ENOENT, root)
  | some _ =>
    (0, modify_at vpath
      (fun inode => inode.set_fs_stat { inode.fs_stat with st_uid := uid, st_gid := gid }) root)

/-- The entry point `do_open`, also installed in the `opendir` slot. -/
def do_open (vpath : List String) (now : timespec) (root : inode_t) : Int × inode_t :=
  match pathname_to_inode vpath root with
  | none => (-ENOENT, root)
  | some _ => (0, modify_at vpath (set_atim now) root)

/-- The entry point `do_utimens`; `tv0` and `tv1` are `tv[0]` and `tv[1]`. -/
def do_utimens (vpath : List String) (tv0 tv1 : timespec) (root : inode_t) : Int × inode_t :=
  match pathname_to_inode vpath root with
  | none => (-ENOENT, root)
  | some _ =>
    (0, modify_at vpath
      (fun inode => inode.set_fs_stat { inode.fs_stat with st_atim := tv0, st_mtim := tv1 })
      root)

/-- The entry point `do_truncate`, for a non-negative `size`. -/
def do_truncate (fresh : Nat → Block) (vpath : List String) (size : Nat) (root : inode_t) :
    Int × inode_t :=
  match pathname_to_inode vpath root with
  | none => (-ENOENT, root)
  | some _ =>
    (0, modify_at vpath
      (fun inode =>
        (inode.set_fs_stat { inode.fs_stat with st_size := (size : Int) }).truncate fresh size)
      root)

/-- The entry point `do_fallocate`, for non-negative `offset` and `length`. -/
def do_fallocate (fresh : Nat → Block) (vpath : List String) (mode offset length : Nat)
    (now : timespec) (root : inode_t) : Int × inode_t :=
  match pathname_to_inode vpath root with
  | none => (-ENOENT, root)
  | some _ =>
    (0, modify_at vpath
      (fun inode =>
        (inode.set_fs_stat
          { inode.fs_stat with
            st_mode := mode ||| S_IFREG, st_nlink := 1, st_ctim := now,
            st_size := ((offset + length : Nat) : Int) }).truncate fresh (offset + length))
      root)

/-- The copy loop of `copy_to_list`: `k` more rounds, the loop variable being
`i`; `list` is the caller's buffer and `base` the offset of the pointer passed
in.  `none` when a byte is stored past the end of the buffer. -/
def copy_to_list_loop (str : List Byte) (base : Nat) : Nat → Nat → List Byte → Option (List Byte)
  | 0, _, list => some list
  | k + 1, i, list =>
    if base + i < list.length then
      copy_to_list_loop str base k (i + 1) (list.set (base + i) (str.getD i 0))
    else none

/-- The function `copy_to_list` of `fuse_ops.cpp`, called with the pointer
`list + base`: the buffer afterwards and the returned count. -/
def copy_to_list (list : List Byte) (base copy_len : Nat) (str : List Byte) :
    Option (List Byte × Nat) :=
  let actual_len := min copy_len str.length
  match copy_to_list_loop str base actual_len 0 list with
  | none => none
  | some list1 =>
    if base + actual_len < list1.length then some (list1.set (base + actual_len) 0, actual_len + 1)
    else none

/-- The `while` loop of `do_listxattr`; `itr` is what lies from `xattr_itr` to
the end of the map.  `none` when the end iterator is dereferenced or a byte is
stored outside the buffer. -/
def listxattr_while (list_actual_size : Nat) :
    List (String × List Byte) → Nat → List Byte → Option (List Byte)
  | [], write_off, list => if write_off < list_actual_size then none else some list
  | (first, _) :: itr, write_off, list =>
    if write_off < list_actual_size then
      match copy_to_list list write_off (list_actual_size - write_off) (c_str first) with
      | none => none
      | some (list1, n) => listxattr_while list_actual_size itr (write_off + n) list1
    else some list

/-- The entry point `do_listxattr`: the result and the buffer afterwards.  The
buffer `list` is `none` for `nullptr`, else the bytes it points to. -/
def do_listxattr (vpath : List String) (list : Option (List Byte)) (list_size : Nat)
    (root : inode_t) : Option (Int × Option (List Byte)) :=
  match pathname_to_inode vpath root with
  | none => some (-ENOENT, list)
  | some inode =>
    let list_actual_size :=
      inode.xattr.foldl (fun acc i => acc + ((c_str i.1).length + 1)) 0
    if list_size = 0 ∧ list = none then some (int_cast list_actual_size, list)
    else if list_size < list_actual_size then some (-ERANGE, list)
    else
      match list with
      | none => if 0 < list_actual_size then none else some (int_cast list_actual_size, none)
      | some buf =>
        match listxattr_while list_actual_size inode.xattr 0 buf with
        | none => none
        | some buf1 => some (int_cast list_actual_size, some buf1)

mutual
/-- The method `inode_t::count_inode`. -/
def count_inode : inode_t → Nat
  | inode_t.mk _ _ dentry _ _ => count_inode_loop dentry 0 + 1
/-- The loop of `inode_t::count_inode` over the children map, `count` being
the sum so far. -/
def count_inode_loop : List (String × dentry_t inode_t) → Nat → Nat
  | [], count => count
  | (_, i) :: rest, count => count_inode_loop rest (count + count_inode i.inode)
end

/-- The fields of `struct statvfs` that `do_statfs` sets. -/
structure statvfs where
  f_bsize : Nat := 0
  f_frsize : Nat := 0
  f_blocks : Nat := 0
  f_bfree : Nat := 0
  f_bavail : Nat := 0
  f_files : Nat := 0
  f_ffree : Nat := 0
  f_fsid : Nat := 0
  f_namemax : Nat := 0
deriving DecidableEq, Repr

/-- The entry point `do_statfs`: the result and `*statvfs` afterwards;
`totalram` and `freeram` are the two fields read from `sysinfo`, with
`freeram ≤ totalram`. -/
def do_statfs (totalram freeram : Nat) (root : inode_t) : Int × statvfs :=
  (0,
    { f_bsize := 4096, f_frsize := 4096, f_blocks := totalram / 4096,
      f_bfree := (totalram - freeram) / 4096, f_bavail := (totalram - freeram) / 4096,
      f_files := count_inode root, f_ffree := 4096, f_fsid := 1, f_namemax := 128 })

/-! ## The path parser of `pathname.cpp` -/

/-- The expression `*pathname.end()`: the end iterator of a `std::string`
points at the terminating NUL that the string keeps behind its last
character. -/
def deref_end (_pathname : List Char) : Char := Char.ofNat 0

/-- The constructor `pathname_t::pathname_t` of `pathname.cpp`: the component
vector `my_pathname`. -/
def pathname_t (pathname : String) : List String :=
  if pathname = "/" then []
  else
    let s1 := match pathname.toList with
      | [] => []
      | c :: rest => if c = '/' then rest else c :: rest
    let s2 := if ¬ (s1.isEmpty = true) ∧ deref_end s1 = '/' then s1.dropLast else s1
    split_components s2 []

/-- The components joined with `/` between them. -/
def join_components (cs : List String) : String :=
  String.mk (List.intercalate ['/'] (cs.map String.toList))

/-! ## The entry points as steps of the file system -/

/-- One call of an entry point that can change the tree, with its arguments
after the path has been parsed. -/
inductive fs_call where
  | mkdir (vpath : List String) (mode : Nat)
  | chmod (vpath : List String) (mode : Nat)
  | chown (vpath : List String) (uid gid : Nat)
  | create (vpath : List String) (mode : Nat)
  | open_ (vpath : List String)
  | read (vpath : List String) (size offset : Nat)
  | write (vpath : List String) (buffer : List Byte) (size offset : Nat)
  | utimens (vpath : List String) (tv0 tv1 : timespec)
  | unlink (vpath : List String)
  | rmdir (vpath : List String)
  | mknod (vpath : List String) (mode device : Nat)
  | rename (vpath_src vpath_dest : List String)
  | symlink (vpath : List String) (linkname : List Byte)
  | readlink (vpath : List String) (size : Nat)
  | truncate (vpath : List String) (size : Nat)
  | fallocate (vpath : List String) (mode offset length : Nat)
  | setxattr (vpath : List String) (name : String) (value : List Byte) (size : Nat) (flag : Int)
  | removexattr (vpath : List String) (name : String)
  | readdir (vpath : List String)

/-- The tree after one call, `none` when the call has undefined behaviour.
The entry points left out (`do_getattr`, `do_getxattr`, `do_listxattr`,
`do_statfs`, `do_flush`, `do_release`, `do_fsync`, `do_releasedir`,
`do_fsyncdir`) store nothing in the tree. -/
def run_call (fresh : Nat → Block) (now : timespec) : fs_call → inode_t → Option inode_t
  | fs_call.mkdir vpath mode, root => (do_mkdir vpath mode now root).map Prod.snd
  | fs_call.chmod vpath mode, root => some (do_chmod vpath mode root).2
  | fs_call.chown vpath uid gid, root => some (do_chown vpath uid gid root).2
  | fs_call.create vpath mode, root => (do_create vpath mode now root).map Prod.snd
  | fs_call.open_ vpath, root => some (do_open vpath now root).2
  | fs_call.read vpath size offset, root =>
    (do_read vpath size offset now root).map (fun r => r.2.2)
  | fs_call.write vpath buffer size offset, root =>
    (do_write fresh vpath buffer size offset now root).map Prod.snd
  | fs_call.utimens vpath tv0 tv1, root => some (do_utimens vpath tv0 tv1 root).2
  | fs_call.unlink vpath, root => some (do_unlink vpath root).2
  | fs_call.rmdir vpath, root => some (do_rmdir vpath root).2
  | fs_call.mknod vpath mode device, root => (do_mknod vpath mode device now root).map Prod.snd
  | fs_call.rename vpath_src vpath_dest, root =>
    (do_rename vpath_src vpath_dest now root).map Prod.snd
  | fs_call.symlink vpath linkname, root =>
    (do_symlink fresh vpath linkname now root).map Prod.snd
  | fs_call.readlink vpath size, root => (do_readlink vpath size now root).map (fun r => r.2.2)
  | fs_call.truncate vpath size, root => some (do_truncate fresh vpath size root).2
  | fs_call.fallocate vpath mode offset length, root =>
    some (do_fallocate fresh vpath mode offset length now root).2
  | fs_call.setxattr vpath name value size flag, root =>
    (do_setxattr vpath name value size flag root).map Prod.snd
  | fs_call.removexattr vpath name, root => some (do_removexattr vpath name root).2
  | fs_call.readdir vpath, root => some (do_readdir vpath now root).2.2

/-- The states of the file system: the root made at start-up, and every tree
left by a call of an entry point on a state. -/
inductive Reachable : inode_t → Prop
  | start (now : timespec) : Reachable (empty_root now)
  | step (fresh : Nat → Block) (now : timespec) (call : fs_call) (root root' : inode_t) :
      Reachable root → run_call fresh now call root = some root' → Reachable root'

/-- A property of single inodes that holds at every inode of a tree. -/
def tree_all (p : inode_t → Prop) (root : inode_t) : Prop :=
  ∀ q n, pathname_to_inode q root = some n → p n

/-- The two sizes of an inode agree, or the inode has no logical content. -/
def sizes_agree (n : inode_t) : Prop :=
  n.fs_stat.st_size = (n.cur_data_size : Int) ∨ n.cur_data_size = 0

mutual
/-- The paths of the inodes in the subtree of an inode: the empty path for the
inode itself and, below each child name, the paths of the subtree of that
child. -/
def subtree_paths : inode_t → List (List String)
  | inode_t.mk _ _ dentry _ _ => [] :: subtree_paths_loop dentry
/-- The paths below the entries of a children map. -/
def subtree_paths_loop : List (String × dentry_t inode_t) → List (List String)
  | [] => []
  | (name, i) :: rest =>
    (subtree_paths i.inode).map (fun q => name :: q) ++ subtree_paths_loop rest
end

/-- The length that `listxattr` has to report: the sum over the names of an
attribute map of the length of the name in bytes plus one. -/
def listxattr_total (xattr : List (String × List Byte)) : Nat :=
  (xattr.map (fun i => i.1.utf8ByteSize + 1)).sum

/-- The name list of an attribute map: each name followed by one NUL byte, in
the order of the map. -/
def listxattr_image (xattr : List (String × List Byte)) : List Byte :=
  (xattr.map (fun i => c_str i.1 ++ [0])).flatten

/-! ## Sequences of inode operations and the block indices of a transfer -/

/-- One call of `inode_t::write`, with all of `buffer` at `offset`, or of
`inode_t::truncate`. -/
inductive inode_call where
  | write (buffer : List Byte) (offset : Nat)
  | truncate (size : Nat)

/-- The inode after one call, `none` when the call has undefined behaviour. -/
def run_inode_call (fresh : Nat → Block) : inode_call → inode_t → Option inode_t
  | inode_call.write buffer offset, inode =>
    (inode.write fresh buffer buffer.length offset).map Prod.snd
  | inode_call.truncate size, inode => some (inode.truncate fresh size)

/-- The inode after a sequence of calls, the first call of the list first. -/
def run_inode_calls (fresh : Nat → Block) : List inode_call → inode_t → Option inode_t
  | [], inode => some inode
  | call :: rest, inode => (run_inode_call fresh call inode).bind (run_inode_calls fresh rest)

/-- The stores of `write_buffer`: for each `memcpy` into `data[i]`, in order,
the index `i` and the number of blocks of `data` at that moment; `blocks` is
the number of blocks on entry, and each round of the full loop and the tail
append one block before they store. -/
def write_buffer_stores (length offset blocks : Nat) : List (Nat × Nat) :=
  let orphaned_skipped_write := offset % BLOCK_SIZE
  let orphaned_skipped_blocks := offset / BLOCK_SIZE
  let orphaned_write := min (BLOCK_SIZE - orphaned_skipped_write) length
  let rest_write_length := length - orphaned_write
  let full_write_count := rest_write_length / BLOCK_SIZE
  let orphaned_tail := rest_write_length % BLOCK_SIZE
  [(orphaned_skipped_blocks, blocks)] ++
    (List.range full_write_count).map
      (fun j => (orphaned_skipped_blocks + (j + 1), blocks + (j + 1))) ++
    (if orphaned_tail ≠ 0 then
      [(orphaned_skipped_blocks + full_write_count + 1, blocks + full_write_count + 1)]
    else [])

/-- The stores of `write_buffer` inside `inode_t::write`, which first lets
`fill_buffer` append blocks when the file grows. -/
def inode_t.write_stores (fresh : Nat → Block) (inode : inode_t) (length offset : Nat) :
    List (Nat × Nat) :=
  write_buffer_stores length offset
    (if offset + length > inode.cur_data_size then
      (fill_buffer fresh (offset + length - inode.cur_data_size) inode.data).1.length
    else inode.data.length)

/-! ## Concrete trees and runs -/

/-- A directory inode with the given entries. -/
def dir_inode (entries : List (String × dentry_t inode_t)) : inode_t :=
  inode_t.mk [] 0 entries { st_mode := S_IFDIR ||| 0o755 } []

/-- The tree `/a/b/b` of directories. -/
def tree_a_b_b : inode_t :=
  dir_inode [("a", ⟨true, dir_inode [("b", ⟨true, dir_inode [("b", ⟨true, dir_inode []⟩)]⟩)]⟩)]

/-- The tree `/a/x` of directories. -/
def tree_a_x : inode_t :=
  dir_inode [("a", ⟨true, dir_inode [("x", ⟨true, dir_inode []⟩)]⟩)]

/-- The tree holding the one regular file `/a`. -/
def tree_file_a : inode_t :=
  dir_inode [("a", ⟨true, create_template 0o100644 {}⟩)]

/-- The run `symlink("/target", "/link")` on the empty file system, with the
arguments in the order of the `symlink` slot of `fuse_operations`: first the
target string, then the path of the link. -/
def symlink_run : Option (Int × inode_t) :=
  do_symlink (fun _ _ => 0) (stmpfs_pathname_t "/target") (c_str "/link") {} (empty_root {})

/-- The tree after `mkdir /b` and then `mkdir /a` on the empty file system. -/
def tree_mkdir_b_a : inode_t :=
  inode_t.emplace_new_dentry "a" (mkdir_template 0o755 {})
    (inode_t.emplace_new_dentry "b" (mkdir_template 0o755 {}) (empty_root {}))

/-- The tree holding the regular file `/a` with the attribute `user.k` of
value `1, 2, 3`. -/
def tree_file_a_k : inode_t :=
  dir_inode [("a", ⟨true, (create_template 0o100644 {}).set_xattr [("user.k", [1, 2, 3])]⟩)]

/-- The tree holding the regular file `/a` with the attributes `user.k1` and
`user.k2`. -/
def tree_file_a_k1_k2 : inode_t :=
  dir_inode [("a", ⟨true,
    (create_template 0o100644 {}).set_xattr [("user.k1", [1]), ("user.k2", [2])]⟩)]

/-- A regular file holding the five bytes `hello` in one block. -/
def file_hello : inode_t :=
  inode_t.mk [fun j => (c_str "hello").getD j 0] 5 []
    { st_mode := S_IFREG ||| 0o644, st_nlink := 1, st_size := 5 } []

/-- The tree after `symlink` with first argument `/t` and second argument
`/l` on the empty file system (the empty tree if the call has no result). -/
def tree_symlink_t : inode_t :=
  ((do_symlink (fun _ _ => 0) ["t"] (c_str "/l") {} (empty_root {})).map Prod.snd).getD
    (empty_root {})

/-- The tree after `mkdir` on the path `/.` on the empty file system. -/
def tree_dot : inode_t :=
  inode_t.emplace_new_dentry "." (mkdir_template 0o755 {}) (empty_root {})

/-! ## Closed forms used in the proofs -/

/-- Total form of `logical_byte`: byte `i`, or `0` when the block is missing. -/
def byteD (data : List Block) (i : Nat) : Byte :=
  (data.getD (i / BLOCK_SIZE) (fun _ => 0)) (i % BLOCK_SIZE)

/-- The block vector `data` of original content, extended to `len` blocks by
fresh ones, in which the first `n` bytes of `buffer` overlay the byte range
starting at `offset`. -/
def written (buffer : List Byte) (offset n : Nat) (data : List Block) (fresh : Nat → Block)
    (len : Nat) : List Block :=
  (List.range len).map (fun idx => fun j =>
    if idx < data.length ∧ j < BLOCK_SIZE ∧ offset ≤ idx * BLOCK_SIZE + j ∧
        idx * BLOCK_SIZE + j < offset + n then
      buffer.getD (idx * BLOCK_SIZE + j - offset) 0
    else (data.getD idx (fresh idx)) j)

/-- The inode after a `write` of all of `buffer` at `offset`, in closed form. -/
def after_write (fresh : Nat → Block) (inode : inode_t) (buffer : List Byte) (offset : Nat) :
    inode_t :=
  let data0 := if offset + buffer.length > inode.cur_data_size then
      (fill_buffer fresh (offset + buffer.length - inode.cur_data_size) inode.data).1
    else inode.data
  inode_t.mk
    (written buffer offset buffer.length data0 fresh
      (data0.length +
        (buffer.length - min (BLOCK_SIZE - offset % BLOCK_SIZE) buffer.length) / BLOCK_SIZE +
        (if (buffer.length - min (BLOCK_SIZE - offset % BLOCK_SIZE) buffer.length) % BLOCK_SIZE ≠ 0
          then 1 else 0)))
    (max inode.cur_data_size (offset + buffer.length)) inode.dentry
    (if offset + buffer.length > inode.cur_data_size then
      { inode.fs_stat with st_size := ((buffer.length + offset : Nat) : Int) }
     else inode.fs_stat)
    inode.xattr

/-- The buffer `list` in which the bytes `seg` overlay the positions from
`base` on. -/
def overlay (list : List Byte) (base : Nat) (seg : List Byte) : List Byte :=
  list.take base ++ seg ++ list.drop (base + seg.length)

/-! ## Block buffer: lemmas -/

theorem length_written (b : List Byte) (o n : Nat) (data : List Block) (fresh : Nat → Block)
    (len : Nat) : (written b o n data fresh len).length = len := by
  simp [written]

theorem written_zero (b : List Byte) (o : Nat) (data : List Block) (fresh : Nat → Block) :
    written b o 0 data fresh data.length = data := by
  apply List.ext_getElem
  · simp [written]
  · intro i h1 h2
    funext j
    simp [written, h2]

theorem written_snoc (b : List Byte) (o n : Nat) (data : List Block) (fresh : Nat → Block)
    (len : Nat) (h : data.length ≤ len) :
    written b o n data fresh len ++ [fresh len] = written b o n data fresh (len + 1) := by
  simp only [written, List.range_succ, List.map_append, List.map_cons, List.map_nil]
  congr 1
  have h1 : ¬ len < data.length := by omega
  congr 1
  funext j
  simp [h1, List.getElem?_eq_none h]

theorem store_written (b : List Byte) (o n m : Nat) (data : List Block) (fresh : Nat → Block)
    (len idx pos : Nat) (hidx : idx < data.length) (hlen : data.length ≤ len)
    (hpos : idx * BLOCK_SIZE + pos = o + n) (hm : pos + m ≤ BLOCK_SIZE)
    (hb : n + m ≤ b.length) :
    store (written b o n data fresh len) idx pos (b.drop n) m =
      some (written b o (n + m) data fresh len) := by
  unfold store
  have hil : idx < len := by omega
  have hbound : idx < (written b o n data fresh len).length := by
    rw [length_written]; exact hil
  have hget : (written b o n data fresh len)[idx]? =
      some ((written b o n data fresh len).get ⟨idx, hbound⟩) :=
    List.getElem?_eq_getElem hbound
  rw [hget]
  simp only
  by_cases hm0 : m = 0
  · simp [hm0]
  · rw [if_neg hm0]
    have hdl : m ≤ (List.drop n b).length := by simp; omega
    rw [if_pos ⟨hm, hdl⟩]
    congr 1
    apply List.ext_getElem
    · simp [written]
    · intro i h1 h2
      have hi : i < len := by simpa [written] using h2
      rw [List.getElem_set]
      funext j
      by_cases hii : idx = i
      · subst hii
        simp only [if_true, written, List.get_eq_getElem, List.getElem_map, List.getElem_range]
        by_cases hj : pos ≤ j ∧ j < pos + m
        · rw [if_pos hj, if_pos ⟨hidx, by omega, by omega, by omega⟩]
          rw [List.getD_eq_getElem?_getD, List.getD_eq_getElem?_getD, List.getElem?_drop]
          congr 2
          omega
        · rw [if_neg hj]
          by_cases hc : idx < data.length ∧ j < BLOCK_SIZE ∧ o ≤ idx * BLOCK_SIZE + j ∧ idx * BLOCK_SIZE + j < o + n
          · rw [if_pos hc, if_pos ⟨hc.1, hc.2.1, hc.2.2.1, by omega⟩]
          · rw [if_neg hc, if_neg]
            intro hc2
            apply hc
            refine ⟨hc2.1, hc2.2.1, hc2.2.2.1, ?_⟩
            by_contra hlt
            apply hj
            omega
      · simp only [if_neg hii, written, List.getElem_map, List.getElem_range]
        have hB : BLOCK_SIZE = 1024 := rfl
        by_cases hc : i < data.length ∧ j < BLOCK_SIZE ∧ o ≤ i * BLOCK_SIZE + j ∧ i * BLOCK_SIZE + j < o + n
        · rw [if_pos hc, if_pos ⟨hc.1, hc.2.1, hc.2.2.1, by omega⟩]
        · rw [if_neg hc, if_neg]
          intro hc2
          apply hc
          refine ⟨hc2.1, hc2.2.1, hc2.2.2.1, ?_⟩
          simp only [hB] at hc2 hpos hm ⊢
          omega

theorem write_buffer_full_written (b : List Byte) (o : Nat) (data : List Block)
    (fresh : Nat → Block) (sb : Nat) :
    ∀ (k i n len : Nat), (k = 0 ∨ (sb + i) * BLOCK_SIZE = o + n) → data.length ≤ len →
      sb + i + k ≤ data.length → n + k * BLOCK_SIZE ≤ b.length →
      write_buffer_full fresh b sb k i (written b o n data fresh len) n =
        some (written b o (n + k * BLOCK_SIZE) data fresh (len + k), n + k * BLOCK_SIZE) := by
  intro k
  induction k with
  | zero => intro i n len _ _ _ _; simp [write_buffer_full]
  | succ k ih =>
    intro i n len h1 h2 h3 h4
    have h1 : (sb + i) * BLOCK_SIZE = o + n := by
      rcases h1 with h | h
      · omega
      · exact h
    rw [write_buffer_full, length_written, written_snoc b o n data fresh len h2,
      store_written b o n BLOCK_SIZE data fresh (len + 1) (sb + i) 0 (by omega) (by omega)
        (by omega) (by omega) (by simp only [BLOCK_SIZE] at *; omega)]
    simp only
    rw [ih (i + 1) (n + BLOCK_SIZE) (len + 1) (Or.inr (by simp only [BLOCK_SIZE] at *; omega))
      (by omega) (by omega) (by simp only [BLOCK_SIZE] at *; omega)]
    congr 2
    · congr 1
      · simp only [BLOCK_SIZE]; omega
      · omega
    · simp only [BLOCK_SIZE]; omega

/-- Closed form of `write_buffer` when the written range lies inside the
allocated blocks. -/
theorem write_buffer_eq (fresh : Nat → Block) (b : List Byte) (length offset : Nat)
    (data : List Block) (hin : offset + length ≤ data.length * BLOCK_SIZE)
    (hlen : 1 ≤ length) (hb : length ≤ b.length) :
    write_buffer fresh b length offset data =
      some (written b offset length data fresh
        (data.length + (length - min (BLOCK_SIZE - offset % BLOCK_SIZE) length) / BLOCK_SIZE +
          (if (length - min (BLOCK_SIZE - offset % BLOCK_SIZE) length) % BLOCK_SIZE ≠ 0
            then 1 else 0)), length) := by
  unfold write_buffer
  simp only
  have h0 := store_written b offset 0 (min (BLOCK_SIZE - offset % BLOCK_SIZE) length) data fresh
    data.length (offset / BLOCK_SIZE) (offset % BLOCK_SIZE)
    (by simp only [BLOCK_SIZE] at *; omega) (le_refl _)
    (by simp only [BLOCK_SIZE] at *; omega) (by simp only [BLOCK_SIZE] at *; omega) (by omega)
  rw [written_zero, List.drop_zero, Nat.zero_add] at h0
  rw [h0]
  simp only
  have h1 := write_buffer_full_written b offset data fresh (offset / BLOCK_SIZE)
    ((length - min (BLOCK_SIZE - offset % BLOCK_SIZE) length) / BLOCK_SIZE) 1
    (min (BLOCK_SIZE - offset % BLOCK_SIZE) length) data.length
    (by simp only [BLOCK_SIZE] at *; omega) (le_refl _)
    (by simp only [BLOCK_SIZE] at *; omega) (by simp only [BLOCK_SIZE] at *; omega)
  rw [h1]
  simp only
  by_cases ht : (length - min (BLOCK_SIZE - offset % BLOCK_SIZE) length) % BLOCK_SIZE ≠ 0
  · rw [if_pos ht, if_pos ht, length_written, written_snoc _ _ _ _ _ _ (Nat.le_add_right _ _)]
    have h2 := store_written b offset
      (min (BLOCK_SIZE - offset % BLOCK_SIZE) length +
        (length - min (BLOCK_SIZE - offset % BLOCK_SIZE) length) / BLOCK_SIZE * BLOCK_SIZE)
      ((length - min (BLOCK_SIZE - offset % BLOCK_SIZE) length) % BLOCK_SIZE) data fresh
      (data.length + (length - min (BLOCK_SIZE - offset % BLOCK_SIZE) length) / BLOCK_SIZE + 1)
      (offset / BLOCK_SIZE + (length - min (BLOCK_SIZE - offset % BLOCK_SIZE) length) / BLOCK_SIZE
        + 1) 0
      (by simp only [BLOCK_SIZE] at *; omega) (by simp only [BLOCK_SIZE] at *; omega)
      (by simp only [BLOCK_SIZE] at *; omega) (by simp only [BLOCK_SIZE] at *; omega)
      (by simp only [BLOCK_SIZE] at *; omega)
    rw [h2]
    simp only
    congr 2
    · congr 1
      simp only [BLOCK_SIZE] at *; omega
    · simp only [BLOCK_SIZE] at *; omega
  · rw [if_neg ht, if_neg ht]
    congr 2
    · congr 1
      simp only [BLOCK_SIZE] at *; omega
    · simp only [BLOCK_SIZE] at *; omega

theorem logical_byte_written (b : List Byte) (o n : Nat) (data : List Block)
    (fresh : Nat → Block) (len p : Nat) (hlen : data.length ≤ len)
    (hp : p / BLOCK_SIZE < data.length) :
    logical_byte (written b o n data fresh len) p =
      if o ≤ p ∧ p < o + n then some (b.getD (p - o) 0) else logical_byte data p := by
  have hB : BLOCK_SIZE = 1024 := rfl
  have hpl : p / BLOCK_SIZE < len := by omega
  have hdm : p / BLOCK_SIZE * BLOCK_SIZE + p % BLOCK_SIZE = p := by
    rw [Nat.mul_comm]; exact Nat.div_add_mod p BLOCK_SIZE
  have hmod : p % BLOCK_SIZE < BLOCK_SIZE := Nat.mod_lt _ (by rw [hB]; omega)
  unfold logical_byte written
  rw [List.getElem?_map, List.getElem?_range hpl]
  simp only [Option.map_some', hdm]
  by_cases hc : o ≤ p ∧ p < o + n
  · rw [if_pos hc, if_pos ⟨hp, hmod, hc.1, hc.2⟩]
  · rw [if_neg hc, if_neg (fun h => hc ⟨h.2.2.1, h.2.2.2⟩)]
    rw [List.getD_eq_getElem?_getD, List.getElem?_eq_getElem hp]
    simp

theorem emplace_back_loop_eq (fresh : Nat → Block) :
    ∀ (k : Nat) (data : List Block),
      emplace_back_loop fresh k data =
        data ++ (List.range k).map (fun i => fresh (data.length + i)) := by
  intro k
  induction k with
  | zero => intro data; simp [emplace_back_loop]
  | succ k ih =>
    intro data
    rw [emplace_back_loop, ih, List.range_succ_eq_map]
    simp [Nat.add_assoc, Nat.add_comm 1, Function.comp_def]

theorem pop_back_loop_eq : ∀ (k : Nat) (data : List Block),
    pop_back_loop k data = data.take (data.length - k) := by
  intro k
  induction k with
  | zero => intro data; simp [pop_back_loop]
  | succ k ih =>
    intro data
    rw [pop_back_loop, ih, List.dropLast_eq_take, List.take_take]
    simp only [List.length_take]
    congr 1
    omega

theorem logical_byte_append (data extra : List Block) (p : Nat)
    (hp : p / BLOCK_SIZE < data.length) :
    logical_byte (data ++ extra) p = logical_byte data p := by
  unfold logical_byte
  rw [List.getElem?_append_left hp]

theorem logical_byte_isSome (data : List Block) (p : Nat) (hp : p / BLOCK_SIZE < data.length) :
    logical_byte data p = some (byteD data p) := by
  unfold logical_byte byteD
  rw [List.getD_eq_getElem?_getD, List.getElem?_eq_getElem hp]
  simp

theorem load_eq (data : List Block) (idx pos n : Nat)
    (h : idx < data.length ∧ pos + n ≤ BLOCK_SIZE) :
    load data idx pos n =
      some ((List.range n).map (fun k => byteD data (idx * BLOCK_SIZE + pos + k))) := by
  obtain ⟨h1, h2⟩ := h
  unfold load
  rw [List.getElem?_eq_getElem h1]
  simp only
  by_cases hn : n = 0
  · simp [hn]
  · have hx : True := trivial
    · rw [if_neg hn, if_pos h2]
      congr 1
      apply List.map_congr_left
      intro k hk
      have hk : k < n := List.mem_range.mp hk
      unfold byteD
      have h3 : (idx * BLOCK_SIZE + pos + k) / BLOCK_SIZE = idx := by
        simp only [BLOCK_SIZE] at *; omega
      have h4 : (idx * BLOCK_SIZE + pos + k) % BLOCK_SIZE = pos + k := by
        simp only [BLOCK_SIZE] at *; omega
      rw [h3, h4, List.getD_eq_getElem?_getD, List.getElem?_eq_getElem h1]
      simp

theorem range_map_add (f : Nat → Byte) (a b : Nat) :
    (List.range (a + b)).map f = (List.range a).map f ++ (List.range b).map (fun k => f (a + k)) := by
  rw [List.range_add, List.map_append, List.map_map]
  rfl

theorem read_buffer_full_eq (data : List Block) (sb : Nat) :
    ∀ (k i : Nat) (acc : List Byte) (ro : Nat), (k = 0 ∨ sb + i + k ≤ data.length) →
      read_buffer_full data sb k i acc ro =
        some (acc ++ (List.range (k * BLOCK_SIZE)).map
          (fun j => byteD data ((sb + i) * BLOCK_SIZE + j)), ro + k * BLOCK_SIZE) := by
  intro k
  induction k with
  | zero => intro i acc ro _; simp [read_buffer_full]
  | succ k ih =>
    intro i acc ro h
    have h : sb + i + (k + 1) ≤ data.length := by
      rcases h with h | h
      · omega
      · exact h
    rw [read_buffer_full, load_eq data (sb + i) 0 BLOCK_SIZE ⟨by omega, by omega⟩]
    simp only
    rw [ih (i + 1) _ _ (Or.inr (by omega))]
    have e1 : (k + 1) * BLOCK_SIZE = BLOCK_SIZE + k * BLOCK_SIZE := by
      simp only [BLOCK_SIZE]; omega
    have f1 : (fun j => byteD data ((sb + i) * BLOCK_SIZE + 0 + j)) =
        (fun j => byteD data ((sb + i) * BLOCK_SIZE + j)) := by
      funext j; simp
    have f2 : (fun j => byteD data ((sb + (i + 1)) * BLOCK_SIZE + j)) =
        (fun j => byteD data ((sb + i) * BLOCK_SIZE + (BLOCK_SIZE + j))) := by
      funext j
      have : (sb + (i + 1)) * BLOCK_SIZE + j = (sb + i) * BLOCK_SIZE + (BLOCK_SIZE + j) := by
        simp only [BLOCK_SIZE]; omega
      rw [this]
    have e2 : ro + BLOCK_SIZE + k * BLOCK_SIZE = ro + (BLOCK_SIZE + k * BLOCK_SIZE) := by omega
    rw [e1, range_map_add, f1, f2, e2, List.append_assoc]

/-- Closed form of `read_buffer` when the range read lies inside the allocated
blocks and the block of the first byte exists. -/
theorem read_buffer_eq (length offset : Nat) (data : List Block)
    (hin : offset + length ≤ data.length * BLOCK_SIZE)
    (hidx : offset / BLOCK_SIZE < data.length) :
    read_buffer length offset data =
      some ((List.range length).map (fun k => byteD data (offset + k)), length) := by
  unfold read_buffer
  simp only
  rw [load_eq data (offset / BLOCK_SIZE) (offset % BLOCK_SIZE)
    (min (BLOCK_SIZE - offset % BLOCK_SIZE) length)
    ⟨hidx, by simp only [BLOCK_SIZE] at *; omega⟩]
  simp only
  rw [read_buffer_full_eq data (offset / BLOCK_SIZE)
    ((length - min (BLOCK_SIZE - offset % BLOCK_SIZE) length) / BLOCK_SIZE) 1 _ _
    (by simp only [BLOCK_SIZE] at *; omega)]
  simp only
  have hhead : ∀ k, offset / BLOCK_SIZE * BLOCK_SIZE + offset % BLOCK_SIZE + k = offset + k := by
    intro k; simp only [BLOCK_SIZE]; omega
  simp only [hhead]
  by_cases ht : (length - min (BLOCK_SIZE - offset % BLOCK_SIZE) length) % BLOCK_SIZE ≠ 0
  · rw [if_pos ht, load_eq data _ 0 _ ⟨by simp only [BLOCK_SIZE] at *; omega,
      by simp only [BLOCK_SIZE] at *; omega⟩]
    simp only
    have hsplit : length = min (BLOCK_SIZE - offset % BLOCK_SIZE) length +
        ((length - min (BLOCK_SIZE - offset % BLOCK_SIZE) length) / BLOCK_SIZE * BLOCK_SIZE +
          (length - min (BLOCK_SIZE - offset % BLOCK_SIZE) length) % BLOCK_SIZE) := by
      simp only [BLOCK_SIZE] at *; omega
    congr 2
    · conv_rhs => rw [hsplit, range_map_add, range_map_add]
      rw [List.append_assoc]
      congr 1
      congr 1
      · apply List.map_congr_left
        intro j _
        congr 1
        simp only [BLOCK_SIZE] at *; omega
      · apply List.map_congr_left
        intro j _
        congr 1
        simp only [BLOCK_SIZE] at *; omega
    · simp only [BLOCK_SIZE] at *; omega
  · rw [if_neg ht]
    have hsplit : length = min (BLOCK_SIZE - offset % BLOCK_SIZE) length +
        ((length - min (BLOCK_SIZE - offset % BLOCK_SIZE) length) / BLOCK_SIZE * BLOCK_SIZE) := by
      simp only [BLOCK_SIZE] at *; omega
    congr 2
    · conv_rhs => rw [hsplit, range_map_add]
      congr 1
      by_cases hk : (length - min (BLOCK_SIZE - offset % BLOCK_SIZE) length) / BLOCK_SIZE = 0
      · simp [hk]
      · apply List.map_congr_left
        intro j _
        congr 1
        simp only [BLOCK_SIZE] at *; omega
    · simp only [BLOCK_SIZE] at *; omega

theorem byteD_written (b : List Byte) (o n : Nat) (data : List Block)
    (fresh : Nat → Block) (len p : Nat) (hlen : data.length ≤ len)
    (hp : p / BLOCK_SIZE < data.length) :
    byteD (written b o n data fresh len) p =
      if o ≤ p ∧ p < o + n then b.getD (p - o) 0 else byteD data p := by
  have h1 := logical_byte_written b o n data fresh len p hlen hp
  rw [logical_byte_isSome _ _ (by rw [length_written]; omega), logical_byte_isSome _ _ hp] at h1
  by_cases hc : o ≤ p ∧ p < o + n
  · rw [if_pos hc] at h1 ⊢; exact Option.some.inj h1
  · rw [if_neg hc] at h1 ⊢; exact Option.some.inj h1

theorem fill_buffer_length (fresh : Nat → Block) (length : Nat) (data : List Block) :
    (fill_buffer fresh length data).1.length =
      data.length + (length / BLOCK_SIZE + (if length % BLOCK_SIZE = 0 then 0 else 1)) := by
  simp [fill_buffer, emplace_back_loop_eq]

theorem fill_buffer_prefix (fresh : Nat → Block) (length : Nat) (data : List Block) :
    ∃ extra, (fill_buffer fresh length data).1 = data ++ extra := by
  simp only [fill_buffer, emplace_back_loop_eq]
  exact ⟨_, rfl⟩

theorem fill_buffer_covers (fresh : Nat → Block) (data : List Block) (c offset length : Nat)
    (hinv : c ≤ data.length * BLOCK_SIZE) :
    offset + length ≤ (fill_buffer fresh (offset + length - c) data).1.length * BLOCK_SIZE := by
  rw [fill_buffer_length]
  simp only [BLOCK_SIZE] at *
  split <;> omega

theorem write_eq (fresh : Nat → Block) (inode : inode_t) (buffer : List Byte) (offset : Nat)
    (hinv : inode.cur_data_size ≤ inode.data.length * BLOCK_SIZE) (hn : 1 ≤ buffer.length) :
    inode.write fresh buffer buffer.length offset =
      some (buffer.length, after_write fresh inode buffer offset) := by
  obtain ⟨d, c, de, s, x⟩ := inode
  simp only [inode_t.data, inode_t.cur_data_size] at hinv
  unfold inode_t.write after_write
  simp only [inode_t.data, inode_t.cur_data_size, inode_t.dentry, inode_t.fs_stat,
    inode_t.xattr]
  by_cases hg : offset + buffer.length > c
  · simp only [if_pos hg]
    rw [write_buffer_eq fresh buffer buffer.length offset _
      (fill_buffer_covers fresh d c offset buffer.length hinv) hn (le_refl _)]
    simp only
    have : buffer.length + offset = max c (offset + buffer.length) := by omega
    rw [this]
  · simp only [if_neg hg]
    rw [write_buffer_eq fresh buffer buffer.length offset _ (by omega) hn (le_refl _)]
    simp only
    have : c = max c (offset + buffer.length) := by omega
    rw [← this]

@[simp] theorem inode_t.data_mk (d : List Block) (c : Nat) (de : List (String × dentry_t inode_t))
    (s : stat) (x : List (String × List Byte)) : (inode_t.mk d c de s x).data = d := rfl

@[simp] theorem inode_t.cur_data_size_mk (d : List Block) (c : Nat)
    (de : List (String × dentry_t inode_t)) (s : stat) (x : List (String × List Byte)) :
    (inode_t.mk d c de s x).cur_data_size = c := rfl

@[simp] theorem inode_t.dentry_mk (d : List Block) (c : Nat)
    (de : List (String × dentry_t inode_t)) (s : stat) (x : List (String × List Byte)) :
    (inode_t.mk d c de s x).dentry = de := rfl

@[simp] theorem inode_t.fs_stat_mk (d : List Block) (c : Nat)
    (de : List (String × dentry_t inode_t)) (s : stat) (x : List (String × List Byte)) :
    (inode_t.mk d c de s x).fs_stat = s := rfl

@[simp] theorem inode_t.xattr_mk (d : List Block) (c : Nat)
    (de : List (String × dentry_t inode_t)) (s : stat) (x : List (String × List Byte)) :
    (inode_t.mk d c de s x).xattr = x := rfl

/-- Closed form of `inode_t::read` on an inode whose logical size is covered by
its blocks, when the 64-bit sum `offset + length` does not wrap past the size
and the block of the first byte exists whenever the guards are passed. -/
theorem read_eq (inode : inode_t) (length offset : Nat)
    (hinv : inode.cur_data_size ≤ inode.data.length * BLOCK_SIZE)
    (hw : offset + length ≤ inode.cur_data_size ∨ offset + length < 2 ^ 64)
    (hidx : inode.cur_data_size = 0 ∨ inode.cur_data_size < offset ∨
      offset / BLOCK_SIZE < inode.data.length) :
    inode.read length offset =
      some ((if inode.cur_data_size = 0 ∨ inode.cur_data_size ≤ offset then 0
              else min length (inode.cur_data_size - offset)),
        (List.range (if inode.cur_data_size = 0 ∨ inode.cur_data_size ≤ offset then 0
              else min length (inode.cur_data_size - offset))).map
          (fun k => byteD inode.data (offset + k))) := by
  obtain ⟨d, c, de, s, x⟩ := inode
  simp only [inode_t.data_mk, inode_t.cur_data_size_mk] at hinv hw hidx ⊢
  unfold inode_t.read
  simp only [inode_t.data_mk, inode_t.cur_data_size_mk]
  by_cases h0 : c = 0
  · simp [h0]
  · rw [if_neg h0]
    by_cases h1 : offset > c
    · rw [if_pos h1, if_pos (Or.inr (by omega))]
      simp
    · rw [if_neg h1]
      have hix : offset / BLOCK_SIZE < d.length := by
        rcases hidx with h | h | h
        · exact absurd h h0
        · exact absurd h h1
        · exact h
      have hmod : (offset + length) % 2 ^ 64 > c ↔ offset + length > c := by
        rcases hw with h | h
        · have := Nat.mod_le (offset + length) (2 ^ 64)
          constructor
          · intro h9; omega
          · intro h9; omega
        · rw [Nat.mod_eq_of_lt h]
      simp only [hmod]
      by_cases h2 : offset + length > c
      · rw [if_pos h2, read_buffer_eq _ _ _ (by omega) hix]
        by_cases h3 : c ≤ offset
        · have : c - offset = 0 := by omega
          rw [if_pos (Or.inr h3), this]
        · rw [if_neg (by intro h; rcases h with h | h <;> omega)]
          have : min length (c - offset) = c - offset := by omega
          rw [this]
      · rw [if_neg h2, read_buffer_eq _ _ _ (by omega) hix]
        by_cases h3 : c ≤ offset
        · have : length = 0 := by omega
          rw [if_pos (Or.inr h3), this]
        · rw [if_neg (by intro h; rcases h with h | h <;> omega)]
          have : min length (c - offset) = length := by omega
          rw [this]

theorem load_none (data : List Block) (idx pos n : Nat) (h : data.length ≤ idx) :
    load data idx pos n = none := by
  unfold load
  rw [List.getElem?_eq_none h]

theorem read_buffer_head_none (length offset : Nat) (data : List Block)
    (h : data.length ≤ offset / BLOCK_SIZE) : read_buffer length offset data = none := by
  unfold read_buffer
  simp only
  rw [load_none _ _ _ _ h]

theorem read_buffer_full_none (data : List Block) (sb k i : Nat) (acc : List Byte) (ro : Nat)
    (hk : 1 ≤ k) (h : data.length ≤ sb + i) : read_buffer_full data sb k i acc ro = none := by
  obtain ⟨k, rfl⟩ : ∃ j, k = j + 1 := ⟨k - 1, by omega⟩
  rw [read_buffer_full, load_none _ _ _ _ h]

theorem read_buffer_second_none (length offset : Nat) (data : List Block)
    (h1 : BLOCK_SIZE ≤ length - min (BLOCK_SIZE - offset % BLOCK_SIZE) length)
    (h2 : data.length ≤ offset / BLOCK_SIZE + 1) : read_buffer length offset data = none := by
  unfold read_buffer
  simp only
  cases load data (offset / BLOCK_SIZE) (offset % BLOCK_SIZE)
      (min (BLOCK_SIZE - offset % BLOCK_SIZE) length) with
  | none => rfl
  | some head =>
    simp only
    rw [read_buffer_full_none _ _ _ _ _ _
      (by simp only [BLOCK_SIZE] at *; omega) h2]

/-- A read that passes the guards of `inode_t::read` with an offset whose block
does not exist has no defined result. -/
theorem read_head_none (inode : inode_t) (length offset : Nat)
    (h0 : inode.cur_data_size ≠ 0) (h1 : offset ≤ inode.cur_data_size)
    (h : inode.data.length ≤ offset / BLOCK_SIZE) : inode.read length offset = none := by
  unfold inode_t.read
  rw [if_neg h0, if_neg (by omega)]
  simp only
  rw [read_buffer_head_none _ _ _ h]

/-- A read whose 64-bit sum `offset + length` wraps to a value not above the
size keeps its length; when that length reaches a second block that does not
exist the read has no defined result. -/
theorem read_wrap_none (inode : inode_t) (length offset : Nat)
    (h0 : inode.cur_data_size ≠ 0) (h1 : offset ≤ inode.cur_data_size)
    (hw : (offset + length) % 2 ^ 64 ≤ inode.cur_data_size)
    (hbig : BLOCK_SIZE ≤ length - min (BLOCK_SIZE - offset % BLOCK_SIZE) length)
    (hlen : inode.data.length ≤ offset / BLOCK_SIZE + 1) : inode.read length offset = none := by
  unfold inode_t.read
  rw [if_neg h0, if_neg (by omega)]
  simp only
  rw [if_neg (by omega), read_buffer_second_none _ _ _ hbig hlen]

theorem after_write_size (fresh : Nat → Block) (inode : inode_t) (buffer : List Byte)
    (offset : Nat) :
    (after_write fresh inode buffer offset).cur_data_size =
      max inode.cur_data_size (offset + buffer.length) := rfl

theorem after_write_length (fresh : Nat → Block) (inode : inode_t) (buffer : List Byte)
    (offset : Nat) :
    (after_write fresh inode buffer offset).data.length =
      (if offset + buffer.length > inode.cur_data_size then
        inode.data.length + ((offset + buffer.length - inode.cur_data_size) / BLOCK_SIZE +
          (if (offset + buffer.length - inode.cur_data_size) % BLOCK_SIZE = 0 then 0 else 1))
       else inode.data.length) +
      (buffer.length - min (BLOCK_SIZE - offset % BLOCK_SIZE) buffer.length) / BLOCK_SIZE +
      (if (buffer.length - min (BLOCK_SIZE - offset % BLOCK_SIZE) buffer.length) % BLOCK_SIZE ≠ 0
        then 1 else 0) := by
  obtain ⟨d, c, de, s, x⟩ := inode
  simp only [after_write, inode_t.data_mk, inode_t.cur_data_size_mk, length_written]
  by_cases hg : offset + buffer.length > c
  · simp only [if_pos hg, fill_buffer_length]
  · simp only [if_neg hg]

theorem after_write_covered (fresh : Nat → Block) (inode : inode_t) (buffer : List Byte)
    (offset : Nat) (hinv : inode.cur_data_size ≤ inode.data.length * BLOCK_SIZE) :
    (after_write fresh inode buffer offset).cur_data_size ≤
      (after_write fresh inode buffer offset).data.length * BLOCK_SIZE := by
  obtain ⟨d, c, de, s, x⟩ := inode
  simp only [after_write, inode_t.data_mk, inode_t.cur_data_size_mk, length_written] at hinv ⊢
  by_cases hg : offset + buffer.length > c
  · simp only [if_pos hg]
    have := fill_buffer_covers fresh d c offset buffer.length hinv
    have h2 : max c (offset + buffer.length) = offset + buffer.length := by
      omega
    rw [h2]
    refine le_trans this (Nat.mul_le_mul_right _ ?_)
    rw [Nat.add_assoc]; exact Nat.le_add_right _ _
  · simp only [if_neg hg]
    have h2 : max c (offset + buffer.length) = c := by
      omega
    rw [h2]
    refine le_trans hinv (Nat.mul_le_mul_right _ ?_)
    rw [Nat.add_assoc]; exact Nat.le_add_right _ _

/-- Every logical byte of a block covered before the write: the overlaid
buffer byte inside the written range, the old byte elsewhere. -/
theorem after_write_byteD (fresh : Nat → Block) (inode : inode_t) (buffer : List Byte)
    (offset p : Nat)
    (hp : p / BLOCK_SIZE < inode.data.length ∨
      (offset ≤ p ∧ p < offset + buffer.length ∧
        inode.cur_data_size ≤ inode.data.length * BLOCK_SIZE)) :
    byteD (after_write fresh inode buffer offset).data p =
      if offset ≤ p ∧ p < offset + buffer.length then buffer.getD (p - offset) 0
      else byteD inode.data p := by
  obtain ⟨d, c, de, s, x⟩ := inode
  simp only [after_write, inode_t.data_mk, inode_t.cur_data_size_mk] at hp ⊢
  by_cases hg : offset + buffer.length > c
  · simp only [if_pos hg]
    obtain ⟨extra, he⟩ := fill_buffer_prefix fresh
      (offset + buffer.length - c) d
    have hcov : p / BLOCK_SIZE <
        (fill_buffer fresh (offset + buffer.length - c) d).1.length := by
      rcases hp with hp | ⟨hp0, hp, hinv⟩
      · rw [he, List.length_append]; omega
      · have := fill_buffer_covers fresh d c offset buffer.length hinv
        simp only [BLOCK_SIZE] at *
        omega
    rw [byteD_written _ _ _ _ _ _ _ (by rw [Nat.add_assoc]; exact Nat.le_add_right _ _) hcov]
    by_cases hc : offset ≤ p ∧ p < offset + buffer.length
    · rw [if_pos hc, if_pos hc]
    · rw [if_neg hc, if_neg hc]
      have hp' : p / BLOCK_SIZE < d.length := by
        rcases hp with hp | ⟨hp0, hp, hinv⟩
        · exact hp
        · exact absurd ⟨hp0, hp⟩ hc
      have h1 := logical_byte_append d extra p hp'
      rw [← he, logical_byte_isSome _ _ hcov, logical_byte_isSome _ _ hp'] at h1
      exact Option.some.inj h1
  · simp only [if_neg hg]
    have hp' : p / BLOCK_SIZE < d.length := by
      rcases hp with hp | ⟨hp0, hp, hinv⟩
      · exact hp
      · simp only [BLOCK_SIZE] at *; omega
    rw [byteD_written _ _ _ _ _ _ _ (by rw [Nat.add_assoc]; exact Nat.le_add_right _ _) hp']

theorem range_map_getD (l : List Byte) :
    (List.range l.length).map (fun k => l.getD k 0) = l := by
  apply List.ext_getElem
  · simp
  · intro i h1 h2
    simp [List.getD_eq_getElem?_getD, List.getElem?_eq_getElem h2]

/-- C1: on an inode whose logical size is covered by its blocks, writing a
buffer of `n ≥ 1` bytes at any offset succeeds and returns `n`, and reading
`n` bytes back at the same offset returns `n` and exactly the bytes of the
buffer, whatever the split into head, full blocks and tail. -/
theorem write_then_read_roundtrip (fresh : Nat → Block) (inode : inode_t) (buf : List Byte)
    (offset : Nat) (hinv : inode.cur_data_size ≤ inode.data.length * BLOCK_SIZE)
    (hn : 1 ≤ buf.length) :
    ∃ inode', inode.write fresh buf buf.length offset = some (buf.length, inode') ∧
      inode'.read buf.length offset = some (buf.length, buf) := by
  refine ⟨after_write fresh inode buf offset, write_eq fresh inode buf offset hinv hn, ?_⟩
  have hcov := after_write_covered fresh inode buf offset hinv
  have hsz := after_write_size fresh inode buf offset
  rw [read_eq _ _ _ hcov (Or.inl (by rw [hsz]; omega))
    (Or.inr (Or.inr (by rw [hsz] at hcov; simp only [BLOCK_SIZE] at *; omega))),
    after_write_size]
  have hcount : (if max inode.cur_data_size (offset + buf.length) = 0 ∨
      max inode.cur_data_size (offset + buf.length) ≤ offset then 0
      else min buf.length (max inode.cur_data_size (offset + buf.length) - offset)) =
      buf.length := by
    rw [if_neg (by intro h; rcases h with h | h <;> omega)]
    omega
  rw [hcount]
  congr 2
  conv_rhs => rw [← range_map_getD buf]
  apply List.map_congr_left
  intro k hk
  have hk : k < buf.length := List.mem_range.mp hk
  rw [after_write_byteD fresh inode buf offset (offset + k)
    (Or.inr ⟨by omega, by omega, hinv⟩), if_pos ⟨by omega, by omega⟩]
  congr 1
  omega

/-- On an inode whose logical size is covered by its blocks, when
`offset + len` is below `2^64` and the offset is not the size of a file that
fills its blocks exactly, `read` returns the number of bytes it copied; that
number is 0 (nothing is copied) when the size is 0 or `offset ≥ size`, and
`min len (size - offset)` otherwise; the bytes copied are the logical bytes
`offset, offset + 1, ...` of the block vector. -/
theorem read_logical_bytes_of (inode : inode_t) (len offset : Nat)
    (hinv : inode.cur_data_size ≤ inode.data.length * BLOCK_SIZE)
    (hsum : offset + len < 2 ^ 64)
    (hend : inode.cur_data_size = 0 ∨ offset ≠ inode.cur_data_size ∨
      inode.cur_data_size < inode.data.length * BLOCK_SIZE) :
    ∃ out, inode.read len offset = some (out.length, out) ∧
      out.length = (if inode.cur_data_size = 0 ∨ inode.cur_data_size ≤ offset then 0
        else min len (inode.cur_data_size - offset)) ∧
      out.map some = (List.range out.length).map (fun k => logical_byte inode.data (offset + k)) := by
  refine ⟨(List.range (if inode.cur_data_size = 0 ∨ inode.cur_data_size ≤ offset then 0
      else min len (inode.cur_data_size - offset))).map (fun k => byteD inode.data (offset + k)),
    ?_, ?_, ?_⟩
  · rw [read_eq inode len offset hinv (Or.inr hsum)
      (by
        rcases hend with h | h | h
        · exact Or.inl h
        · by_cases h1 : inode.cur_data_size < offset
          · exact Or.inr (Or.inl h1)
          · exact Or.inr (Or.inr (by simp only [BLOCK_SIZE] at *; omega))
        · by_cases h1 : inode.cur_data_size < offset
          · exact Or.inr (Or.inl h1)
          · exact Or.inr (Or.inr (by simp only [BLOCK_SIZE] at *; omega)))]
    simp
  · simp
  · rw [List.length_map, List.length_range, List.map_map]
    apply List.map_congr_left
    intro k hk
    have hk := List.mem_range.mp hk
    have hlt : offset + k < inode.cur_data_size := by
      by_cases hc : inode.cur_data_size = 0 ∨ inode.cur_data_size ≤ offset
      · rw [if_pos hc] at hk; omega
      · rw [if_neg hc] at hk; omega
    rw [Function.comp_apply, logical_byte_isSome]
    simp only [BLOCK_SIZE] at *
    omega

/-- C4, as stated, fails on an inode whose size is not covered by its blocks
(the state left by `clear()`, which empties the block vector and keeps
`cur_data_size`): the write stores into a block that does not exist and
returns nothing. -/
theorem write_uncovered_state_faults :
    ¬ ∃ inode', (inode_t.mk [] 2048 [] {} []).write (fun _ _ => 0) [65] 1 0 = some (1, inode') := by
  rintro ⟨inode', h⟩
  simp [inode_t.write, write_buffer, store, BLOCK_SIZE] at h

/-- C4, amended: on an inode whose logical size is covered by its blocks, a
write of `len ≥ 1` bytes returns `len`; afterwards the size is
`max old (offset + len)`; when the file grew `stat.size` is the new size; when
it did not, size and stat are unchanged. -/
theorem write_returns_len_and_sets_size (fresh : Nat → Block) (inode : inode_t)
    (buf : List Byte) (offset : Nat)
    (hinv : inode.cur_data_size ≤ inode.data.length * BLOCK_SIZE) (hn : 1 ≤ buf.length) :
    ∃ inode', inode.write fresh buf buf.length offset = some (buf.length, inode') ∧
      inode'.cur_data_size = max inode.cur_data_size (offset + buf.length) ∧
      (inode.cur_data_size < offset + buf.length →
        inode'.fs_stat.st_size = ((offset + buf.length : Nat) : Int) ∧
        inode'.fs_stat.st_size = (inode'.cur_data_size : Int)) ∧
      (offset + buf.length ≤ inode.cur_data_size →
        inode'.cur_data_size = inode.cur_data_size ∧ inode'.fs_stat = inode.fs_stat) := by
  refine ⟨after_write fresh inode buf offset, write_eq fresh inode buf offset hinv hn, rfl, ?_, ?_⟩
  · intro hg
    obtain ⟨d, c, de, s, x⟩ := inode
    simp only [inode_t.cur_data_size_mk] at hg
    simp only [after_write, inode_t.fs_stat_mk, inode_t.cur_data_size_mk, if_pos hg]
    constructor
    · rw [Nat.add_comm]
    · congr 1; omega
  · intro hg
    obtain ⟨d, c, de, s, x⟩ := inode
    simp only [inode_t.cur_data_size_mk] at hg
    simp only [after_write, inode_t.fs_stat_mk, inode_t.cur_data_size_mk,
      if_neg (show ¬ offset + buf.length > c by omega)]
    exact ⟨by omega, trivial⟩

/-- C5: on an inode whose logical size is covered by its blocks, a write of
`len ≥ 1` bytes leaves every logical byte below the old size and outside
`[offset, offset + len)` as it was: the byte itself, and what a one-byte read
at that position returns. -/
theorem write_preserves_bytes_outside_range (fresh : Nat → Block) (inode : inode_t)
    (buf : List Byte) (offset i : Nat)
    (hinv : inode.cur_data_size ≤ inode.data.length * BLOCK_SIZE) (hn : 1 ≤ buf.length)
    (hi : i < inode.cur_data_size) (hout : i < offset ∨ offset + buf.length ≤ i) :
    ∃ inode', inode.write fresh buf buf.length offset = some (buf.length, inode') ∧
      logical_byte inode'.data i = logical_byte inode.data i ∧
      inode'.read 1 i = inode.read 1 i ∧
      inode.read 1 i = some (1, [byteD inode.data i]) := by
  have hblk : i / BLOCK_SIZE < inode.data.length := by
    simp only [BLOCK_SIZE] at *; omega
  have hcov := after_write_covered fresh inode buf offset hinv
  have hsize := after_write_size fresh inode buf offset
  have hbyte : byteD (after_write fresh inode buf offset).data i = byteD inode.data i := by
    rw [after_write_byteD fresh inode buf offset i (Or.inl hblk), if_neg (by omega)]
  have hblk' : i / BLOCK_SIZE < (after_write fresh inode buf offset).data.length := by
    simp only [BLOCK_SIZE] at *; omega
  refine ⟨after_write fresh inode buf offset, write_eq fresh inode buf offset hinv hn, ?_, ?_, ?_⟩
  · rw [logical_byte_isSome _ _ hblk', logical_byte_isSome _ _ hblk, hbyte]
  · rw [read_eq _ _ _ hcov (Or.inl (by rw [hsize]; omega)) (Or.inr (Or.inr hblk')),
      read_eq _ _ _ hinv (Or.inl (by omega)) (Or.inr (Or.inr hblk)), hsize,
      if_neg (by intro h; rcases h with h | h <;> omega),
      if_neg (by intro h; rcases h with h | h <;> omega)]
    have e1 : min 1 (max inode.cur_data_size (offset + buf.length) - i) = 1 := by omega
    have e2 : min 1 (inode.cur_data_size - i) = 1 := by omega
    rw [e1, e2]
    simp [List.range_succ, hbyte]
  · rw [read_eq _ _ _ hinv (Or.inl (by omega)) (Or.inr (Or.inr hblk)),
      if_neg (by intro h; rcases h with h | h <;> omega)]
    have e2 : min 1 (inode.cur_data_size - i) = 1 := by omega
    rw [e2]
    rfl

/-- C6: after `truncate(new_size)` the block count is
`ceil(new_size / BLOCK_SIZE)`, the size is `new_size`, and the block vector is
the old one cut to that many leading blocks, followed by newly allocated
blocks when it was shorter. -/
theorem truncate_block_count_and_prefix (fresh : Nat → Block) (inode : inode_t)
    (new_size : Nat) :
    (inode.truncate fresh new_size).data.length = (new_size + BLOCK_SIZE - 1) / BLOCK_SIZE ∧
    (inode.truncate fresh 0).data.length = 0 ∧
    (inode.truncate fresh new_size).cur_data_size = new_size ∧
    (inode.truncate fresh new_size).data =
      inode.data.take ((new_size + BLOCK_SIZE - 1) / BLOCK_SIZE) ++
        (List.range ((new_size + BLOCK_SIZE - 1) / BLOCK_SIZE - inode.data.length)).map
          (fun i => fresh (inode.data.length + i)) := by
  obtain ⟨d, c, de, s, x⟩ := inode
  have hk : new_size / BLOCK_SIZE + (if new_size % BLOCK_SIZE = 0 then 0 else 1) =
      (new_size + BLOCK_SIZE - 1) / BLOCK_SIZE := by
    simp only [BLOCK_SIZE]
    split <;> omega
  have h0 : new_size = 0 → (new_size + BLOCK_SIZE - 1) / BLOCK_SIZE = 0 := by
    intro h; subst h; simp [BLOCK_SIZE]
  generalize (new_size + BLOCK_SIZE - 1) / BLOCK_SIZE = k at hk h0 ⊢
  have hdata : (inode_t.truncate fresh (inode_t.mk d c de s x) new_size).data =
      d.take k ++ (List.range (k - d.length)).map (fun i => fresh (d.length + i)) := by
    simp only [inode_t.truncate, inode_t.data_mk, hk]
    by_cases h1 : k < d.length
    · rw [if_pos h1, pop_back_loop_eq]
      have e1 : k - d.length = 0 := by omega
      have e2 : d.length - (d.length - k) = k := by omega
      rw [e1, e2]
      simp
    · rw [if_neg h1]
      by_cases h2 : k > d.length
      · rw [if_pos h2, emplace_back_loop_eq, List.take_of_length_le (by omega)]
      · rw [if_neg h2]
        have e1 : k - d.length = 0 := by omega
        rw [e1, List.take_of_length_le (by omega)]
        simp
  refine ⟨?_, ?_, rfl, hdata⟩
  · rw [hdata]
    simp only [List.length_append, List.length_take, List.length_map, List.length_range]
    omega
  · simp [inode_t.truncate, pop_back_loop_eq, BLOCK_SIZE]

/-- Witness for C1. -/
theorem write_then_read_roundtrip_witness :
    (inode_t.mk [fun _ => 0] 10 [] {} []).cur_data_size ≤
        (inode_t.mk [fun _ => 0] 10 [] {} []).data.length * BLOCK_SIZE ∧
      1 ≤ [(72 : Byte), 105].length ∧
      ∃ inode', (inode_t.mk [fun _ => 0] 10 [] {} []).write (fun _ _ => 0) [72, 105]
          [(72 : Byte), 105].length 1023 = some ([(72 : Byte), 105].length, inode') ∧
        inode'.read [(72 : Byte), 105].length 1023 = some ([(72 : Byte), 105].length, [72, 105]) :=
  ⟨by decide, by decide,
    write_then_read_roundtrip (fun _ _ => 0) (inode_t.mk [fun _ => 0] 10 [] {} []) [72, 105] 1023
      (by decide) (by decide)⟩

/-! ## Maps: lemmas -/

theorem str_lt_irrefl : ∀ a : List Char, str_lt a a = false := by
  intro a
  induction a with
  | nil => rfl
  | cons x xs ih => simp [str_lt, ih]

theorem str_lt_asymm : ∀ a b : List Char, str_lt a b = true → str_lt b a = false := by
  intro a
  induction a with
  | nil => intro b _; cases b <;> rfl
  | cons x xs ih =>
    intro b h
    cases b with
    | nil => simp [str_lt] at h
    | cons y ys =>
      simp only [str_lt] at h ⊢
      by_cases h1 : x.toNat < y.toNat
      · have h2 : ¬ y.toNat < x.toNat := by omega
        simp [h1, h2]
      · by_cases h2 : y.toNat < x.toNat
        · simp [h1, h2] at h
        · simp only [h1, h2, if_false] at h ⊢
          exact ih ys h

theorem key_lt_irrefl (a : String) : key_lt a a = false := str_lt_irrefl _

theorem key_lt_asymm (a b : String) (h : key_lt a b = true) : key_lt b a = false :=
  str_lt_asymm _ _ h

section MapLemmas

variable {β : Type}

theorem map_find_cons (x k : String) (v : β) (rest : List (String × β)) :
    map_find x ((k, v) :: rest) = if k = x then some v else map_find x rest := rfl

theorem map_erase_cons (name k : String) (v : β) (rest : List (String × β)) :
    map_erase name ((k, v) :: rest) =
      if k = name then map_erase name rest else (k, v) :: map_erase name rest := by
  by_cases h : k = name <;> simp [map_erase, List.filter_cons, h]

theorem map_emplace_cons (name k : String) (v w : β) (rest : List (String × β)) :
    map_emplace name v ((k, w) :: rest) =
      if key_lt name k then (name, v) :: (k, w) :: rest
      else if k = name then (k, w) :: rest
      else (k, w) :: map_emplace name v rest := rfl

theorem map_update_cons (name k : String) (f : β → β) (w : β) (rest : List (String × β)) :
    map_update name f ((k, w) :: rest) =
      if k = name then (k, f w) :: rest else (k, w) :: map_update name f rest := rfl

theorem map_find_erase_self (name : String) (m : List (String × β)) :
    map_find name (map_erase name m) = none := by
  induction m with
  | nil => rfl
  | cons e rest ih =>
    obtain ⟨k, v⟩ := e
    rw [map_erase_cons]
    by_cases h : k = name
    · rw [if_pos h]; exact ih
    · rw [if_neg h, map_find_cons, if_neg h]; exact ih

theorem map_find_erase_ne (x name : String) (m : List (String × β)) (hx : x ≠ name) :
    map_find x (map_erase name m) = map_find x m := by
  induction m with
  | nil => rfl
  | cons e rest ih =>
    obtain ⟨k, v⟩ := e
    rw [map_erase_cons, map_find_cons]
    by_cases h : k = name
    · rw [if_pos h, if_neg (by rw [h]; exact fun h' => hx h'.symm)]; exact ih
    · rw [if_neg h, map_find_cons, ih]

theorem map_erase_of_not_found (name : String) (m : List (String × β))
    (h : map_find name m = none) : map_erase name m = m := by
  induction m with
  | nil => rfl
  | cons e rest ih =>
    obtain ⟨k, v⟩ := e
    rw [map_find_cons] at h
    by_cases hk : k = name
    · rw [if_pos hk] at h; exact Option.noConfusion h
    · rw [if_neg hk] at h
      rw [map_erase_cons, if_neg hk, ih h]

theorem map_find_emplace_self (name : String) (v : β) (m : List (String × β))
    (h : map_find name m = none) : map_find name (map_emplace name v m) = some v := by
  induction m with
  | nil => simp [map_emplace, map_find]
  | cons e rest ih =>
    obtain ⟨k, w⟩ := e
    rw [map_find_cons] at h
    by_cases hk : k = name
    · rw [if_pos hk] at h; exact Option.noConfusion h
    · rw [if_neg hk] at h
      rw [map_emplace_cons]
      by_cases hlt : key_lt name k = true
      · rw [if_pos hlt, map_find_cons, if_pos rfl]
      · rw [if_neg hlt, if_neg hk, map_find_cons, if_neg hk, ih h]

theorem map_find_emplace_ne (x name : String) (v : β) (m : List (String × β)) (hx : x ≠ name) :
    map_find x (map_emplace name v m) = map_find x m := by
  have hx' : ¬ name = x := fun h => hx h.symm
  induction m with
  | nil => rw [map_emplace, map_find_cons, if_neg hx']
  | cons e rest ih =>
    obtain ⟨k, w⟩ := e
    rw [map_emplace_cons]
    by_cases hlt : key_lt name k = true
    · rw [if_pos hlt, map_find_cons, if_neg hx']
    · rw [if_neg hlt]
      by_cases hk : k = name
      · rw [if_pos hk]
      · rw [if_neg hk, map_find_cons, map_find_cons, ih]

theorem map_find_update_self (name : String) (f : β → β) (m : List (String × β)) :
    map_find name (map_update name f m) = (map_find name m).map f := by
  induction m with
  | nil => rfl
  | cons e rest ih =>
    obtain ⟨k, w⟩ := e
    rw [map_update_cons, map_find_cons]
    by_cases hk : k = name
    · rw [if_pos hk, if_pos hk, map_find_cons, if_pos hk]; rfl
    · rw [if_neg hk, if_neg hk, map_find_cons, if_neg hk, ih]

theorem map_find_update_ne (x name : String) (f : β → β) (m : List (String × β))
    (hx : x ≠ name) : map_find x (map_update name f m) = map_find x m := by
  induction m with
  | nil => rfl
  | cons e rest ih =>
    obtain ⟨k, w⟩ := e
    rw [map_update_cons, map_find_cons]
    by_cases hk : k = name
    · have hkx : ¬ k = x := by rw [hk]; exact fun h' => hx h'.symm
      rw [if_pos hk, map_find_cons, if_neg hkx, if_neg hkx]
    · rw [if_neg hk, map_find_cons, ih]

theorem map_update_update (name : String) (f g : β → β) (m : List (String × β)) :
    map_update name g (map_update name f m) = map_update name (g ∘ f) m := by
  induction m with
  | nil => rfl
  | cons e rest ih =>
    obtain ⟨k, w⟩ := e
    rw [map_update_cons, map_update_cons]
    by_cases hk : k = name
    · rw [if_pos hk, if_pos hk, map_update_cons, if_pos hk]; rfl
    · rw [if_neg hk, if_neg hk, map_update_cons, if_neg hk, ih]

theorem map_update_congr (name : String) (f g : β → β) (m : List (String × β))
    (h : ∀ v, map_find name m = some v → f v = g v) :
    map_update name f m = map_update name g m := by
  induction m with
  | nil => rfl
  | cons e rest ih =>
    obtain ⟨k, w⟩ := e
    rw [map_update_cons, map_update_cons]
    by_cases hk : k = name
    · rw [if_pos hk, if_pos hk, h w (by rw [map_find_cons, if_pos hk])]
    · rw [if_neg hk, if_neg hk,
        ih (fun v hv => h v (by rw [map_find_cons, if_neg hk]; exact hv))]

theorem map_update_id (name : String) (f : β → β) (m : List (String × β))
    (h : ∀ v, map_find name m = some v → f v = v) : map_update name f m = m := by
  induction m with
  | nil => rfl
  | cons e rest ih =>
    obtain ⟨k, w⟩ := e
    rw [map_update_cons]
    by_cases hk : k = name
    · rw [if_pos hk, h w (by rw [map_find_cons, if_pos hk])]
    · rw [if_neg hk, ih (fun v hv => h v (by rw [map_find_cons, if_neg hk]; exact hv))]

theorem map_erase_emplace (name : String) (v : β) (m : List (String × β))
    (h : map_find name m = none) : map_erase name (map_emplace name v m) = m := by
  induction m with
  | nil => rw [map_emplace, map_erase_cons, if_pos rfl]; rfl
  | cons e rest ih =>
    obtain ⟨k, w⟩ := e
    rw [map_find_cons] at h
    by_cases hk : k = name
    · rw [if_pos hk] at h; exact Option.noConfusion h
    · rw [if_neg hk] at h
      rw [map_emplace_cons]
      by_cases hlt : key_lt name k = true
      · rw [if_pos hlt, map_erase_cons, if_pos rfl, map_erase_cons, if_neg hk,
          map_erase_of_not_found name rest h]
      · rw [if_neg hlt, if_neg hk, map_erase_cons, if_neg hk, ih h]

theorem map_find_mem_keys (name : String) (m : List (String × β)) (v : β)
    (h : map_find name m = some v) : name ∈ m.map Prod.fst := by
  induction m with
  | nil => simp [map_find] at h
  | cons e rest ih =>
    obtain ⟨k, w⟩ := e
    rw [map_find_cons] at h
    by_cases hk : k = name
    · simp [hk]
    · rw [if_neg hk] at h
      simp [ih h]

theorem map_find_none_of_not_mem (name : String) (m : List (String × β))
    (h : name ∉ m.map Prod.fst) : map_find name m = none := by
  cases hf : map_find name m with
  | none => rfl
  | some v => exact absurd (map_find_mem_keys name m v hf) h

/-- In a sorted map, erasing a present key and emplacing it again overwrites
the mapped value in place. -/
theorem map_emplace_erase_sorted (name : String) (v : β) (m : List (String × β))
    (hs : map_sorted m) (w : β) (h : map_find name m = some w) :
    map_emplace name v (map_erase name m) = map_update name (fun _ => v) m := by
  induction m with
  | nil => simp [map_find] at h
  | cons e rest ih =>
    obtain ⟨k, w'⟩ := e
    simp only [map_sorted, List.map_cons, List.pairwise_cons] at hs
    obtain ⟨hhead, htail⟩ := hs
    by_cases hk : k = name
    · subst hk
      have hnot : k ∉ rest.map Prod.fst := by
        intro hmem
        have := hhead k hmem
        rw [key_lt_irrefl] at this
        exact Bool.noConfusion this
      rw [map_erase_cons, if_pos rfl,
        map_erase_of_not_found k rest (map_find_none_of_not_mem k rest hnot),
        map_update_cons, if_pos rfl]
      cases rest with
      | nil => rfl
      | cons e2 rest2 =>
        obtain ⟨k2, w2⟩ := e2
        have hlt : key_lt k k2 = true := hhead k2 (by simp)
        rw [map_emplace_cons, if_pos hlt]
    · rw [map_find_cons, if_neg hk] at h
      have hmem := map_find_mem_keys name rest w h
      have hlt : key_lt k name = true := hhead name hmem
      have hnlt : ¬ key_lt name k = true := by
        rw [key_lt_asymm k name hlt]; exact Bool.noConfusion
      rw [map_erase_cons, if_neg hk, map_emplace_cons, if_neg hnlt, if_neg hk, map_update_cons,
        if_neg hk, ih htail h]

end MapLemmas

/-! ## Inode tree: lemmas -/

theorem inode_t.dentry_set_dentry (n : inode_t) (d : List (String × dentry_t inode_t)) :
    (n.set_dentry d).dentry = d := rfl

theorem inode_t.own_set_dentry (n : inode_t) (d : List (String × dentry_t inode_t)) :
    (n.set_dentry d).own = n.own := rfl

theorem inode_t.set_dentry_self (n : inode_t) : n.set_dentry n.dentry = n := by
  cases n; rfl

theorem inode_t.set_dentry_set_dentry (n : inode_t) (d d' : List (String × dentry_t inode_t)) :
    (n.set_dentry d).set_dentry d' = n.set_dentry d' := rfl

theorem inode_t.find_set_dentry (x : String) (n : inode_t)
    (d : List (String × dentry_t inode_t)) :
    (n.set_dentry d).find_in_dentry x = (map_find x d).map (fun e => e.inode) := rfl

theorem pathname_to_inode_cons (c : String) (r : List String) (n : inode_t) :
    pathname_to_inode (c :: r) n = (n.find_in_dentry c).bind (pathname_to_inode r) := by
  rw [pathname_to_inode]
  cases n.find_in_dentry c <;> rfl

theorem modify_at_cons (c : String) (r : List String) (f : inode_t → inode_t) (n : inode_t) :
    modify_at (c :: r) f n =
      n.set_dentry (map_update c
        (fun e => ⟨e.if_constructed_by_inode, modify_at r f e.inode⟩) n.dentry) := rfl

theorem find_modify_at_cons_self (c : String) (r : List String) (f : inode_t → inode_t)
    (n : inode_t) :
    (modify_at (c :: r) f n).find_in_dentry c = (n.find_in_dentry c).map (modify_at r f) := by
  rw [modify_at_cons, inode_t.find_set_dentry, map_find_update_self, inode_t.find_in_dentry]
  cases map_find c n.dentry <;> rfl

theorem find_modify_at_cons_ne (h c : String) (r : List String) (f : inode_t → inode_t)
    (n : inode_t) (hne : h ≠ c) :
    (modify_at (c :: r) f n).find_in_dentry h = n.find_in_dentry h := by
  rw [modify_at_cons, inode_t.find_set_dentry, map_find_update_ne _ _ _ _ hne,
    inode_t.find_in_dentry]

theorem own_modify_at_cons (c : String) (r : List String) (f : inode_t → inode_t)
    (n : inode_t) : (modify_at (c :: r) f n).own = n.own := rfl

theorem pathname_to_inode_append (p q : List String) :
    ∀ root : inode_t,
      pathname_to_inode (p ++ q) root = (pathname_to_inode p root).bind (pathname_to_inode q) := by
  induction p with
  | nil => intro root; rfl
  | cons c r ih =>
    intro root
    rw [List.cons_append, pathname_to_inode_cons, pathname_to_inode_cons]
    cases root.find_in_dentry c with
    | none => rfl
    | some child => exact ih child

/-- Resolution at or below a modified inode. -/
theorem pathname_to_inode_modify_at_append (p r : List String) (f : inode_t → inode_t) :
    ∀ root : inode_t,
      pathname_to_inode (p ++ r) (modify_at p f root) =
        (pathname_to_inode p root).bind (fun n => pathname_to_inode r (f n)) := by
  induction p with
  | nil => intro root; rfl
  | cons c p' ih =>
    intro root
    rw [List.cons_append, pathname_to_inode_cons, pathname_to_inode_cons,
      find_modify_at_cons_self]
    cases root.find_in_dentry c with
    | none => rfl
    | some child => exact ih child

theorem pathname_to_inode_modify_at_self (p : List String) (f : inode_t → inode_t)
    (root : inode_t) :
    pathname_to_inode p (modify_at p f root) = (pathname_to_inode p root).map f := by
  have := pathname_to_inode_modify_at_append p [] f root
  rw [List.append_nil] at this
  rw [this]
  cases pathname_to_inode p root <;> rfl

theorem modify_at_append (p q : List String) (f : inode_t → inode_t) :
    ∀ root : inode_t, modify_at (p ++ q) f root = modify_at p (modify_at q f) root := by
  induction p with
  | nil => intro root; rfl
  | cons c p' ih =>
    intro root
    rw [List.cons_append, modify_at_cons, modify_at_cons]
    congr 1
    apply map_update_congr
    intro v _
    rw [ih]

theorem modify_at_modify_at (p : List String) (f g : inode_t → inode_t) :
    ∀ root : inode_t, modify_at p g (modify_at p f root) = modify_at p (g ∘ f) root := by
  induction p with
  | nil => intro root; rfl
  | cons c p' ih =>
    intro root
    rw [modify_at_cons, modify_at_cons, modify_at_cons, inode_t.dentry_set_dentry,
      inode_t.set_dentry_set_dentry, map_update_update]
    congr 1
    apply map_update_congr
    intro v _
    simp only [Function.comp_apply]
    rw [ih]

theorem modify_at_congr (p : List String) (f g : inode_t → inode_t) :
    ∀ root : inode_t, (∀ n, pathname_to_inode p root = some n → f n = g n) →
      modify_at p f root = modify_at p g root := by
  induction p with
  | nil => intro root h; exact h root rfl
  | cons c p' ih =>
    intro root h
    rw [modify_at_cons, modify_at_cons]
    congr 1
    apply map_update_congr
    intro v hv
    rw [ih v.inode]
    intro n hn
    apply h
    rw [pathname_to_inode_cons, inode_t.find_in_dentry, hv]
    exact hn

theorem modify_at_id (p : List String) (f : inode_t → inode_t) :
    ∀ root : inode_t, (∀ n, pathname_to_inode p root = some n → f n = n) →
      modify_at p f root = root := by
  induction p with
  | nil => intro root h; exact h root rfl
  | cons c p' ih =>
    intro root h
    rw [modify_at_cons]
    conv_rhs => rw [← inode_t.set_dentry_self root]
    congr 1
    apply map_update_id
    intro v hv
    rw [ih v.inode]
    intro n hn
    apply h
    rw [pathname_to_inode_cons, inode_t.find_in_dentry, hv]
    exact hn

/-- A modification that touches only the entry `x` of the inode at `p` and
keeps that inode's own state leaves the own state of every inode reached by a
path that does not pass through `p/x`; such a path resolves afterwards exactly
when it did before. -/
theorem own_pathname_to_inode_modify_at (x : String) (f : inode_t → inode_t)
    (hf1 : ∀ n h, h ≠ x → (f n).find_in_dentry h = n.find_in_dentry h)
    (hf2 : ∀ n, (f n).own = n.own) (p : List String) :
    ∀ (q : List String) (root : inode_t), ¬ (p ++ [x]) <+: q →
      (pathname_to_inode q (modify_at p f root)).map inode_t.own =
        (pathname_to_inode q root).map inode_t.own := by
  induction p with
  | nil =>
    intro q root hq
    cases q with
    | nil => simp [pathname_to_inode, modify_at, hf2]
    | cons h t =>
      have hne : h ≠ x := by
        intro he
        apply hq
        rw [he]
        exact List.prefix_iff_eq_append.mpr (by simp)
      rw [modify_at, pathname_to_inode_cons, pathname_to_inode_cons, hf1 root h hne]
  | cons c p' ih =>
    intro q root hq
    cases q with
    | nil =>
      simp only [pathname_to_inode, Option.map_some']
      rw [own_modify_at_cons]
    | cons h t =>
      rw [pathname_to_inode_cons, pathname_to_inode_cons]
      by_cases hc : h = c
      · subst hc
        rw [find_modify_at_cons_self]
        cases root.find_in_dentry h with
        | none => rfl
        | some child =>
          simp only [Option.map_some', Option.some_bind]
          apply ih
          intro hp
          apply hq
          rw [List.cons_append]
          exact (List.cons_prefix_cons).mpr ⟨rfl, hp⟩
      · rw [find_modify_at_cons_ne h c p' f root hc]

/-- A modification at `p` that touches only the entry `x` of the inode there
leaves the inode reached by every path that neither passes through `p/x` nor
is `p` or an ancestor of `p`, the whole subtree included. -/
theorem pathname_to_inode_modify_at_entry (x : String) (f : inode_t → inode_t)
    (hf1 : ∀ n h, h ≠ x → (f n).find_in_dentry h = n.find_in_dentry h) (p : List String) :
    ∀ (q : List String) (root : inode_t), ¬ (p ++ [x]) <+: q → ¬ q <+: p →
      pathname_to_inode q (modify_at p f root) = pathname_to_inode q root := by
  induction p with
  | nil =>
    intro q root hq hqp
    cases q with
    | nil => exact absurd (List.prefix_refl _) hqp
    | cons h t =>
      have hne : h ≠ x := by
        intro he
        apply hq
        rw [he]
        exact List.prefix_iff_eq_append.mpr (by simp)
      rw [modify_at, pathname_to_inode_cons, pathname_to_inode_cons, hf1 root h hne]
  | cons c p' ih =>
    intro q root hq hqp
    cases q with
    | nil => exact absurd List.nil_prefix hqp
    | cons h t =>
      rw [pathname_to_inode_cons, pathname_to_inode_cons]
      by_cases hc : h = c
      · subst hc
        rw [find_modify_at_cons_self]
        cases root.find_in_dentry h with
        | none => rfl
        | some child =>
          simp only [Option.map_some', Option.some_bind]
          apply ih
          · intro hp
            apply hq
            rw [List.cons_append]
            exact (List.cons_prefix_cons).mpr ⟨rfl, hp⟩
          · intro hp
            exact hqp ((List.cons_prefix_cons).mpr ⟨rfl, hp⟩)
      · rw [find_modify_at_cons_ne h c p' f root hc]

theorem isSome_pathname_to_inode_modify_at (x : String) (f : inode_t → inode_t)
    (hf1 : ∀ n h, h ≠ x → (f n).find_in_dentry h = n.find_in_dentry h)
    (hf2 : ∀ n, (f n).own = n.own) (p q : List String) (root : inode_t)
    (hq : ¬ (p ++ [x]) <+: q) :
    (pathname_to_inode q (modify_at p f root)).isSome = (pathname_to_inode q root).isSome := by
  have := own_pathname_to_inode_modify_at x f hf1 hf2 p q root hq
  cases h1 : pathname_to_inode q (modify_at p f root) <;>
    cases h2 : pathname_to_inode q root <;> simp_all

/-- A modification that can only remove entries makes no path resolve that
did not resolve before. -/
theorem pathname_to_inode_modify_at_none (f : inode_t → inode_t)
    (hf : ∀ n h, (f n).find_in_dentry h = none ∨ (f n).find_in_dentry h = n.find_in_dentry h)
    (p : List String) :
    ∀ (q : List String) (root : inode_t), pathname_to_inode q root = none →
      pathname_to_inode q (modify_at p f root) = none := by
  induction p with
  | nil =>
    intro q root hq
    cases q with
    | nil => simp [pathname_to_inode] at hq
    | cons h t =>
      rw [modify_at, pathname_to_inode_cons]
      rcases hf root h with h1 | h1
      · rw [h1]; rfl
      · rw [h1, ← pathname_to_inode_cons]; exact hq
  | cons c p' ih =>
    intro q root hq
    cases q with
    | nil => simp [pathname_to_inode] at hq
    | cons h t =>
      rw [pathname_to_inode_cons] at hq ⊢
      by_cases hc : h = c
      · subst hc
        rw [find_modify_at_cons_self]
        cases hfind : root.find_in_dentry h with
        | none => rfl
        | some child =>
          rw [hfind] at hq
          simp only [Option.map_some', Option.some_bind] at hq ⊢
          exact ih t child hq
      · rw [find_modify_at_cons_ne h c p' f root hc]
        exact hq

/-! Properties of the two directory mutations of `do_rename`. -/

theorem find_add_dentry_self (name : String) (child : inode_t) (b : Bool) (n : inode_t) :
    (inode_t.add_dentry name child b n).find_in_dentry name = some child := by
  rw [inode_t.add_dentry, inode_t.find_set_dentry,
    map_find_emplace_self _ _ _ (map_find_erase_self name n.dentry)]
  rfl

theorem find_add_dentry_ne (name : String) (child : inode_t) (b : Bool) (n : inode_t)
    (h : String) (hne : h ≠ name) :
    (inode_t.add_dentry name child b n).find_in_dentry h = n.find_in_dentry h := by
  rw [inode_t.add_dentry, inode_t.find_set_dentry, map_find_emplace_ne _ _ _ _ hne,
    map_find_erase_ne _ _ _ hne, inode_t.find_in_dentry]

theorem find_erase_self (name : String) (n : inode_t) :
    (n.set_dentry (map_erase name n.dentry)).find_in_dentry name = none := by
  rw [inode_t.find_set_dentry, map_find_erase_self]
  rfl

theorem find_erase_ne (name : String) (n : inode_t) (h : String) (hne : h ≠ name) :
    (n.set_dentry (map_erase name n.dentry)).find_in_dentry h = n.find_in_dentry h := by
  rw [inode_t.find_set_dentry, map_find_erase_ne _ _ _ hne, inode_t.find_in_dentry]

theorem find_emplace_new_dentry_self (name : String) (tmpl n : inode_t) :
    (inode_t.emplace_new_dentry name tmpl n).find_in_dentry name =
      some (inode_t.mk tmpl.data 0 tmpl.dentry tmpl.fs_stat []) := by
  rw [inode_t.emplace_new_dentry, inode_t.find_set_dentry,
    map_find_emplace_self _ _ _ (map_find_erase_self name n.dentry)]
  rfl

/-! ## Entry points: create, write, getattr, read -/

theorem int_cast_of_lt (n : Nat) (h : n < 2 ^ 31) : int_cast n = (n : Int) := by
  unfold int_cast
  have h1 : (n + 2 ^ 31) % 2 ^ 32 = n + 2 ^ 31 := Nat.mod_eq_of_lt (by omega)
  rw [h1]
  push_cast
  ring

theorem getLast?_concat' (pp : List String) (name : String) :
    (pp ++ [name]).getLast? = some name := by simp

theorem dropLast_concat' (pp : List String) (name : String) :
    (pp ++ [name]).dropLast = pp := by simp

theorem set_atim_data (now : timespec) (n : inode_t) : (set_atim now n).data = n.data := by
  cases n; rfl

theorem set_atim_cur_data_size (now : timespec) (n : inode_t) :
    (set_atim now n).cur_data_size = n.cur_data_size := by
  cases n; rfl

theorem set_ctim_data (now : timespec) (n : inode_t) : (set_ctim now n).data = n.data := by
  cases n; rfl

theorem set_ctim_cur_data_size (now : timespec) (n : inode_t) :
    (set_ctim now n).cur_data_size = n.cur_data_size := by
  cases n; rfl

theorem range_map_drop_take (buf : List Byte) (off k : Nat) (h : off + k ≤ buf.length) :
    (List.range k).map (fun j => buf.getD (off + j) 0) = (buf.drop off).take k := by
  apply List.ext_getElem
  · simp; omega
  · intro i h1 h2
    simp only [List.length_map, List.length_range] at h1
    simp [List.getD_eq_getElem?_getD, List.getElem?_eq_getElem (show off + i < buf.length by omega)]

/-- When the parent of `f` resolves, `do_create(f, mode)` returns 0; a
following `do_write` of a buffer of `n` bytes (`1 ≤ n`, `n` in the range of
`int`) at offset 0 returns `n`; `do_getattr(f)` then returns 0 with
`st_size == n`; and `do_read(f, out, k, off)` with `off + k ≤ n` returns `k`
and stores bytes `off .. off+k-1` of the buffer, except that for
`off = n = BLOCK_SIZE` it evaluates `data[1]` of the one block the file has. -/
theorem create_write_getattr_read_of (fresh : Nat → Block) (root P : inode_t)
    (pp : List String) (name : String) (mode : Nat) (now1 now2 now3 : timespec)
    (buf : List Byte) (k off : Nat) (stbuf : stat)
    (hparent : pathname_to_inode pp root = some P)
    (hn : 1 ≤ buf.length) (hint : buf.length < 2 ^ 31) (hk : off + k ≤ buf.length) :
    ∃ r1 r2 r3,
      do_create (pp ++ [name]) mode now1 root = some (0, r1) ∧
      do_write fresh (pp ++ [name]) buf buf.length 0 now2 r1 = some ((buf.length : Int), r2) ∧
      do_getattr (pp ++ [name]) stbuf r2 =
        (0, { (set_ctim now2 (create_template mode now1)).fs_stat with
              st_size := (buf.length : Int) }) ∧
      (do_getattr (pp ++ [name]) stbuf r2).2.st_size = (buf.length : Int) ∧
      pathname_to_inode (pp ++ [name]) r2 =
        some (after_write fresh (set_ctim now2 (create_template mode now1)) buf 0) ∧
      do_read (pp ++ [name]) k off now3 r2 =
        if off = buf.length ∧ buf.length = BLOCK_SIZE then none
        else some ((k : Int), (buf.drop off).take k, r3) := by
  -- create
  have hcreate : do_create (pp ++ [name]) mode now1 root =
      some (0, modify_at pp (inode_t.emplace_new_dentry name (create_template mode now1)) root) := by
    unfold do_create
    rw [getLast?_concat', dropLast_concat', hparent]
  have hres1 : pathname_to_inode (pp ++ [name])
      (modify_at pp (inode_t.emplace_new_dentry name (create_template mode now1)) root) =
      some (create_template mode now1) := by
    rw [pathname_to_inode_modify_at_append, hparent]
    simp only [Option.some_bind]
    rw [pathname_to_inode_cons, find_emplace_new_dentry_self]
    rfl
  -- write
  have hinv0 : (set_ctim now2 (create_template mode now1)).cur_data_size ≤
      (set_ctim now2 (create_template mode now1)).data.length * BLOCK_SIZE := by
    simp [set_ctim_cur_data_size, set_ctim_data, create_template]
  have hwrite := write_eq fresh (set_ctim now2 (create_template mode now1)) buf 0 hinv0 hn
  refine ⟨modify_at pp (inode_t.emplace_new_dentry name (create_template mode now1)) root,
    modify_at (pp ++ [name])
      (fun _ => after_write fresh (set_ctim now2 (create_template mode now1)) buf 0)
      (modify_at pp (inode_t.emplace_new_dentry name (create_template mode now1)) root),
    modify_at (pp ++ [name]) (set_atim now3) (modify_at (pp ++ [name])
      (fun _ => after_write fresh (set_ctim now2 (create_template mode now1)) buf 0)
      (modify_at pp (inode_t.emplace_new_dentry name (create_template mode now1)) root)),
    hcreate, ?_, ?_, ?_, ?_, ?_⟩
  · unfold do_write
    rw [hres1]
    simp only
    rw [hwrite]
    simp only
    rw [int_cast_of_lt _ hint]
  · unfold do_getattr
    rw [pathname_to_inode_modify_at_self, hres1]
    simp only [Option.map_some']
    have hpos : 0 < buf.length := hn
    simp [after_write, set_ctim, create_template, inode_t.set_fs_stat, hpos]
  · unfold do_getattr
    rw [pathname_to_inode_modify_at_self, hres1]
    simp only [Option.map_some']
    have hpos : 0 < buf.length := hn
    simp [after_write, set_ctim, create_template, inode_t.set_fs_stat, hpos]
  · rw [pathname_to_inode_modify_at_self, hres1]
    rfl
  · unfold do_read
    rw [pathname_to_inode_modify_at_self, hres1]
    simp only [Option.map_some']
    have hcov := after_write_covered fresh (set_ctim now2 (create_template mode now1)) buf 0 hinv0
    have hsz := after_write_size fresh (set_ctim now2 (create_template mode now1)) buf 0
    have hsz0 : (set_ctim now2 (create_template mode now1)).cur_data_size = 0 := rfl
    rw [hsz0] at hsz
    have hlen := after_write_length fresh (set_ctim now2 (create_template mode now1)) buf 0
    have hlen0 : (set_ctim now2 (create_template mode now1)).data.length = 0 := rfl
    rw [hsz0, hlen0] at hlen
    by_cases hend : off = buf.length ∧ buf.length = BLOCK_SIZE
    · rw [if_pos hend, read_head_none _ _ _
        (by rw [set_atim_cur_data_size, hsz]; omega)
        (by rw [set_atim_cur_data_size, hsz]; omega)
        (by
          rw [set_atim_data, hlen]
          obtain ⟨h1, h2⟩ := hend
          rw [h1, h2]
          decide)]
    rw [if_neg hend]
    have hblk : off / BLOCK_SIZE <
        (after_write fresh (set_ctim now2 (create_template mode now1)) buf 0).data.length := by
      simp only [BLOCK_SIZE] at *
      split_ifs at hlen <;> omega
    rw [read_eq _ _ _ (by rw [set_atim_cur_data_size, set_atim_data]; exact hcov)
        (Or.inr (by omega)) (Or.inr (Or.inr (by rw [set_atim_data]; exact hblk))),
      set_atim_cur_data_size, set_atim_data, hsz]
    have hcount : (if max 0 (0 + buf.length) = 0 ∨ max 0 (0 + buf.length) ≤ off then 0
        else min k (max 0 (0 + buf.length) - off)) = k := by
      by_cases hc : max 0 (0 + buf.length) = 0 ∨ max 0 (0 + buf.length) ≤ off
      · rw [if_pos hc]; omega
      · rw [if_neg hc]; omega
    rw [hcount]
    simp only
    rw [int_cast_of_lt _ (by omega)]
    congr 3
    rw [← range_map_drop_take buf off k hk]
    apply List.map_congr_left
    intro j hj
    have hj := List.mem_range.mp hj
    rw [after_write_byteD fresh _ buf 0 (off + j) (Or.inr ⟨by omega, by omega, hinv0⟩),
      if_pos ⟨by omega, by omega⟩]
    rfl

/-! ## Entry points: rename -/

theorem pathname_to_inode_singleton (x : String) (n : inode_t) :
    pathname_to_inode [x] n = n.find_in_dentry x := by
  rw [pathname_to_inode_cons]
  cases n.find_in_dentry x <;> rfl

theorem not_concat_prefix_self (p : List String) (x : String) : ¬ (p ++ [x]) <+: p := by
  intro h
  have := h.length_le
  simp at this

theorem concat_prefix_concat (p q : List String) (x y : String)
    (h : (p ++ [x]) <+: (q ++ [y])) : (p = q ∧ x = y) ∨ (p ++ [x]) <+: q := by
  rcases List.prefix_concat_iff.mp h with h1 | h1
  · left
    have := List.append_inj' h1 rfl
    exact ⟨this.1, by simpa using this.2⟩
  · right; exact h1

theorem erase_entry_find_ne (name : String) (n : inode_t) (h : String) (hne : h ≠ name) :
    (erase_entry name n).find_in_dentry h = n.find_in_dentry h :=
  find_erase_ne name n h hne

theorem erase_entry_find_self (name : String) (n : inode_t) :
    (erase_entry name n).find_in_dentry name = none :=
  find_erase_self name n

theorem erase_entry_find_or (name : String) (n : inode_t) (h : String) :
    (erase_entry name n).find_in_dentry h = none ∨
      (erase_entry name n).find_in_dentry h = n.find_in_dentry h := by
  by_cases hne : h = name
  · left; rw [hne]; exact erase_entry_find_self name n
  · right; exact erase_entry_find_ne name n h hne

theorem del_dentry_eq (name : String) (b : Bool) (n child : inode_t)
    (h : n.find_in_dentry name = some child) :
    n.del_dentry name b = some (erase_entry name n) := by
  unfold inode_t.del_dentry
  unfold inode_t.find_in_dentry at h
  cases hf : map_find name n.dentry with
  | none => rw [hf] at h; exact Option.noConfusion h
  | some e => rfl

theorem do_rename_eq (root P D node : inode_t) (sp dp : List String) (sn dn : String)
    (now : timespec) (hP : pathname_to_inode sp root = some P)
    (hnode : P.find_in_dentry sn = some node) (hD : pathname_to_inode dp root = some D) :
    do_rename (sp ++ [sn]) (dp ++ [dn]) now root =
      some (0, after_rename sp dp sn dn now node root) := by
  unfold do_rename
  rw [getLast?_concat', getLast?_concat', dropLast_concat', dropLast_concat']
  simp only
  rw [hP]
  simp only
  rw [hD]
  simp only
  rw [hnode]
  simp only
  rw [del_dentry_eq sn true P node hnode]
  simp only
  unfold after_rename
  congr 3
  apply modify_at_congr
  intro n hn
  rw [hP] at hn
  rw [← Option.some.inj hn]

theorem do_rename_enoent_parent (root : inode_t) (sp dp : List String) (sn dn : String)
    (now : timespec) (hP : pathname_to_inode sp root = none) :
    do_rename (sp ++ [sn]) (dp ++ [dn]) now root = some (-ENOENT, root) := by
  unfold do_rename
  rw [getLast?_concat', getLast?_concat', dropLast_concat', dropLast_concat']
  simp only
  rw [hP]

/-- C9, amended (the destination is neither the source nor an ancestor of the
source): `do_rename(src, dst)` returns 0; afterwards `do_getattr(src)` returns
`-ENOENT` and no path under `src` resolves; `dst` resolves to the inode
formerly at `src`, unchanged but for its ctime; every path under `dst` resolves
inside that inode, so a previous occupant of `dst` is out of reach; both
parents still resolve with their own state unchanged.  Every other entry of
the two parents is unchanged: it is present as before with its inode's own
state, it is the same inode with the same subtree unless the other parent lies
below it, and in the whole tree every path that passes through neither `src`
nor `dst` resolves as before, to an inode of the same own state and, unless
the path leads to a parent or an ancestor of one, of the same subtree. -/
theorem rename_moves_inode (root P D node : inode_t) (sp dp : List String) (sn dn : String)
    (now : timespec) (stbuf : stat)
    (hP : pathname_to_inode sp root = some P) (hnode : P.find_in_dentry sn = some node)
    (hD : pathname_to_inode dp root = some D)
    (hsub : ¬ (sp ++ [sn]) <+: dp)
    (hanc : ¬ (dp ++ [dn]) <+: (sp ++ [sn])) :
    ∃ root' P' D',
      do_rename (sp ++ [sn]) (dp ++ [dn]) now root = some (0, root') ∧
      do_getattr (sp ++ [sn]) stbuf root' = (-ENOENT, stbuf) ∧
      pathname_to_inode (dp ++ [dn]) root' = some (set_ctim now node) ∧
      (∀ q, pathname_to_inode (dp ++ [dn] ++ q) root' =
        pathname_to_inode q (set_ctim now node)) ∧
      pathname_to_inode sp root' = some P' ∧ pathname_to_inode dp root' = some D' ∧
      P'.own = P.own ∧ D'.own = D.own ∧
      (∀ x, x ≠ sn → (sp = dp → x ≠ dn) →
        (P'.find_in_dentry x).map inode_t.own = (P.find_in_dentry x).map inode_t.own) ∧
      (∀ x, x ≠ dn → (sp = dp → x ≠ sn) →
        (D'.find_in_dentry x).map inode_t.own = (D.find_in_dentry x).map inode_t.own) ∧
      (∀ x, x ≠ sn → (sp = dp → x ≠ dn) → ¬ (sp ++ [x]) <+: dp →
        P'.find_in_dentry x = P.find_in_dentry x) ∧
      (∀ x, x ≠ dn → (sp = dp → x ≠ sn) → ¬ (dp ++ [x]) <+: sp →
        D'.find_in_dentry x = D.find_in_dentry x) ∧
      (∀ q, ¬ (sp ++ [sn]) <+: q → ¬ (dp ++ [dn]) <+: q →
        (pathname_to_inode q root').map inode_t.own =
          (pathname_to_inode q root).map inode_t.own) ∧
      (∀ q, ¬ (sp ++ [sn]) <+: q → ¬ (dp ++ [dn]) <+: q → ¬ q <+: sp → ¬ q <+: dp →
        pathname_to_inode q root' = pathname_to_inode q root) ∧
      (∀ q, pathname_to_inode (sp ++ [sn] ++ q) root' = none) := by
  -- the two mutations touch one entry each and keep the directory's own state
  have he1 := erase_entry_find_ne sn
  have he2 : ∀ n, (erase_entry sn n).own = n.own := fun _ => rfl
  have hg1 : ∀ n h, h ≠ dn →
      (inode_t.add_dentry dn (set_ctim now node) true n).find_in_dentry h = n.find_in_dentry h :=
    fun n h hne => find_add_dentry_ne dn _ true n h hne
  have hg2 : ∀ n, (inode_t.add_dentry dn (set_ctim now node) true n).own = n.own := fun _ => rfl
  -- own state along any path that avoids both `src` and `dst`
  have hown : ∀ q, ¬ (sp ++ [sn]) <+: q → ¬ (dp ++ [dn]) <+: q →
      (pathname_to_inode q (after_rename sp dp sn dn now node root)).map inode_t.own =
        (pathname_to_inode q root).map inode_t.own := by
    intro q h1 h2
    unfold after_rename
    rw [own_pathname_to_inode_modify_at dn _ hg1 hg2 dp q _ h2,
      own_pathname_to_inode_modify_at sn _ he1 he2 sp q _ h1]
  -- the whole inode along any path that also is no ancestor of a parent
  have hwhole : ∀ q, ¬ (sp ++ [sn]) <+: q → ¬ (dp ++ [dn]) <+: q → ¬ q <+: sp → ¬ q <+: dp →
      pathname_to_inode q (after_rename sp dp sn dn now node root) =
        pathname_to_inode q root := by
    intro q h1 h2 h3 h4
    unfold after_rename
    rw [pathname_to_inode_modify_at_entry dn _ hg1 dp q _ h2 h4,
      pathname_to_inode_modify_at_entry sn _ he1 sp q _ h1 h3]
  have hancP : ¬ (dp ++ [dn]) <+: sp := fun h => hanc (h.trans (List.prefix_append sp [sn]))
  -- the parents afterwards
  have hP' : ∃ P', pathname_to_inode sp (after_rename sp dp sn dn now node root) = some P' ∧
      P'.own = P.own := by
    have := hown sp (not_concat_prefix_self sp sn) hancP
    rw [hP] at this
    cases h : pathname_to_inode sp (after_rename sp dp sn dn now node root) with
    | none => rw [h] at this; exact Option.noConfusion this
    | some P' => rw [h] at this; exact ⟨P', rfl, Option.some.inj this⟩
  have hD' : ∃ D', pathname_to_inode dp (after_rename sp dp sn dn now node root) = some D' ∧
      D'.own = D.own := by
    have := hown dp hsub (not_concat_prefix_self dp dn)
    rw [hD] at this
    cases h : pathname_to_inode dp (after_rename sp dp sn dn now node root) with
    | none => rw [h] at this; exact Option.noConfusion this
    | some D' => rw [h] at this; exact ⟨D', rfl, Option.some.inj this⟩
  obtain ⟨P', hP'res, hP'own⟩ := hP'
  obtain ⟨D', hD'res, hD'own⟩ := hD'
  -- the destination parent just before the new link is made
  have hDa : ∃ Da, pathname_to_inode dp (modify_at sp (erase_entry sn) root) = some Da := by
    have := isSome_pathname_to_inode_modify_at sn _ he1 he2 sp dp root hsub
    rw [hD] at this
    exact Option.isSome_iff_exists.mp this
  obtain ⟨Da, hDa⟩ := hDa
  have hdst : pathname_to_inode (dp ++ [dn]) (after_rename sp dp sn dn now node root) =
      some (set_ctim now node) := by
    unfold after_rename
    rw [pathname_to_inode_modify_at_append, hDa]
    simp only [Option.some_bind]
    rw [pathname_to_inode_singleton, find_add_dentry_self]
  have hsrc_a : pathname_to_inode (sp ++ [sn]) (modify_at sp (erase_entry sn) root) = none := by
    rw [pathname_to_inode_modify_at_append, hP]
    simp only [Option.some_bind]
    rw [pathname_to_inode_singleton, erase_entry_find_self]
  have hsrc : pathname_to_inode (sp ++ [sn]) (after_rename sp dp sn dn now node root) = none := by
    have := isSome_pathname_to_inode_modify_at dn _ hg1 hg2 dp (sp ++ [sn])
      (modify_at sp (erase_entry sn) root) hanc
    rw [hsrc_a] at this
    unfold after_rename
    cases h : pathname_to_inode (sp ++ [sn]) (modify_at dp
      (inode_t.add_dentry dn (set_ctim now node) true) (modify_at sp (erase_entry sn) root)) with
    | none => rfl
    | some v => rw [h] at this; exact Bool.noConfusion this
  refine ⟨after_rename sp dp sn dn now node root, P', D',
    do_rename_eq root P D node sp dp sn dn now hP hnode hD, ?_, hdst, ?_, hP'res, hD'res,
    hP'own, hD'own, ?_, ?_, ?_, ?_, hown, hwhole, ?_⟩
  · unfold do_getattr
    rw [hsrc]
  · intro q
    rw [pathname_to_inode_append, hdst]
    rfl
  · intro x hx1 hx2
    have h1 : ¬ (sp ++ [sn]) <+: (sp ++ [x]) := by
      intro h
      rcases concat_prefix_concat sp sp sn x h with ⟨_, h'⟩ | h'
      · exact hx1 h'.symm
      · exact not_concat_prefix_self sp sn h'
    have h2 : ¬ (dp ++ [dn]) <+: (sp ++ [x]) := by
      intro h
      rcases concat_prefix_concat dp sp dn x h with ⟨h', h''⟩ | h'
      · exact hx2 h'.symm h''.symm
      · exact hancP h'
    have := hown (sp ++ [x]) h1 h2
    rw [pathname_to_inode_append, pathname_to_inode_append, hP'res, hP] at this
    simp only [Option.some_bind, pathname_to_inode_singleton] at this
    exact this
  · intro x hx1 hx2
    have h1 : ¬ (sp ++ [sn]) <+: (dp ++ [x]) := by
      intro h
      rcases concat_prefix_concat sp dp sn x h with ⟨h', h''⟩ | h'
      · exact hx2 h' h''.symm
      · exact hsub h'
    have h2 : ¬ (dp ++ [dn]) <+: (dp ++ [x]) := by
      intro h
      rcases concat_prefix_concat dp dp dn x h with ⟨_, h'⟩ | h'
      · exact hx1 h'.symm
      · exact not_concat_prefix_self dp dn h'
    have := hown (dp ++ [x]) h1 h2
    rw [pathname_to_inode_append, pathname_to_inode_append, hD'res, hD] at this
    simp only [Option.some_bind, pathname_to_inode_singleton] at this
    exact this
  · intro x hx1 hx2 hx3
    have h1 : ¬ (sp ++ [sn]) <+: (sp ++ [x]) := by
      intro h
      rcases concat_prefix_concat sp sp sn x h with ⟨_, h'⟩ | h'
      · exact hx1 h'.symm
      · exact not_concat_prefix_self sp sn h'
    have h2 : ¬ (dp ++ [dn]) <+: (sp ++ [x]) := by
      intro h
      rcases concat_prefix_concat dp sp dn x h with ⟨h', h''⟩ | h'
      · exact hx2 h'.symm h''.symm
      · exact hancP h'
    have := hwhole (sp ++ [x]) h1 h2 (not_concat_prefix_self sp x) hx3
    rw [pathname_to_inode_append, pathname_to_inode_append, hP'res, hP] at this
    simp only [Option.some_bind, pathname_to_inode_singleton] at this
    exact this
  · intro x hx1 hx2 hx3
    have h1 : ¬ (sp ++ [sn]) <+: (dp ++ [x]) := by
      intro h
      rcases concat_prefix_concat sp dp sn x h with ⟨h', h''⟩ | h'
      · exact hx2 h' h''.symm
      · exact hsub h'
    have h2 : ¬ (dp ++ [dn]) <+: (dp ++ [x]) := by
      intro h
      rcases concat_prefix_concat dp dp dn x h with ⟨_, h'⟩ | h'
      · exact hx1 h'.symm
      · exact not_concat_prefix_self dp dn h'
    have := hwhole (dp ++ [x]) h1 h2 hx3 (not_concat_prefix_self dp x)
    rw [pathname_to_inode_append, pathname_to_inode_append, hD'res, hD] at this
    simp only [Option.some_bind, pathname_to_inode_singleton] at this
    exact this
  · intro q
    rw [pathname_to_inode_append, hsrc]
    rfl

theorem set_ctim_set_ctim (now1 now2 : timespec) (n : inode_t) :
    set_ctim now2 (set_ctim now1 n) = set_ctim now2 n := by
  cases n; rfl

theorem map_find_none_of_find_in_dentry (name : String) (n : inode_t)
    (h : n.find_in_dentry name = none) : map_find name n.dentry = none := by
  unfold inode_t.find_in_dentry at h
  cases hf : map_find name n.dentry with
  | none => rfl
  | some e => rw [hf] at h; exact Option.noConfusion h

theorem erase_add_dentry_of_absent (name : String) (child : inode_t) (b : Bool) (n : inode_t)
    (h : n.find_in_dentry name = none) :
    erase_entry name (inode_t.add_dentry name child b n) = n := by
  have hf := map_find_none_of_find_in_dentry name n h
  unfold erase_entry inode_t.add_dentry
  rw [inode_t.dentry_set_dentry, inode_t.set_dentry_set_dentry, map_erase_of_not_found name _ hf,
    map_erase_emplace name _ _ hf, inode_t.set_dentry_self]

theorem add_erase_dentry_sorted (name : String) (child old : inode_t) (n : inode_t)
    (hs : map_sorted n.dentry) (h : n.find_in_dentry name = some old) :
    inode_t.add_dentry name child true (erase_entry name n) =
      n.set_dentry (map_update name (fun _ => ⟨true, child⟩) n.dentry) := by
  unfold inode_t.find_in_dentry at h
  cases hf : map_find name n.dentry with
  | none => rw [hf] at h; exact Option.noConfusion h
  | some e =>
    unfold erase_entry inode_t.add_dentry
    rw [inode_t.dentry_set_dentry, inode_t.set_dentry_set_dentry,
      map_erase_of_not_found name _ (map_find_erase_self name n.dentry),
      map_emplace_erase_sorted name _ n.dentry hs e hf]

/-- C10, amended (the parent of `b` is not `a` and not inside the subtree of
`a`; directories are `std::map`s, their keys ascending): `do_rename(a, b)` then
`do_rename(b, a)` both return 0, and the tree afterwards is the original tree
in which the inode at `a` has the ctime of the second call and hangs on an
owning link; when its link was an owning one before, the tree is the original
one but for that ctime. -/
theorem rename_there_and_back (root P D node : inode_t) (ap bp : List String) (an bn : String)
    (now1 now2 : timespec)
    (hP : pathname_to_inode ap root = some P) (hnode : P.find_in_dentry an = some node)
    (hD : pathname_to_inode bp root = some D) (hb : D.find_in_dentry bn = none)
    (hsorted : map_sorted P.dentry)
    (hsub : ¬ (ap ++ [an]) <+: bp) :
    ∃ root1 root2,
      do_rename (ap ++ [an]) (bp ++ [bn]) now1 root = some (0, root1) ∧
      do_rename (bp ++ [bn]) (ap ++ [an]) now2 root1 = some (0, root2) ∧
      root2 = modify_at ap (fun n => n.set_dentry
        (map_update an (fun e => ⟨true, set_ctim now2 e.inode⟩) n.dentry)) root ∧
      ((∀ e, map_find an P.dentry = some e → e.if_constructed_by_inode = true) →
        root2 = modify_at (ap ++ [an]) (set_ctim now2) root) := by
  have he1 := erase_entry_find_ne an
  have he2 : ∀ n, (erase_entry an n).own = n.own := fun _ => rfl
  have hg1 : ∀ n h, h ≠ bn →
      (inode_t.add_dentry bn (set_ctim now1 node) true n).find_in_dentry h =
        n.find_in_dentry h :=
    fun n h hne => find_add_dentry_ne bn _ true n h hne
  have hg2 : ∀ n, (inode_t.add_dentry bn (set_ctim now1 node) true n).own = n.own :=
    fun _ => rfl
  -- `b` does not resolve, before and after the removal of `a`
  have hbnone : pathname_to_inode (bp ++ [bn]) root = none := by
    rw [pathname_to_inode_append, hD]
    simp only [Option.some_bind]
    rw [pathname_to_inode_singleton, hb]
  have hbnone_a : pathname_to_inode (bp ++ [bn]) (modify_at ap (erase_entry an) root) = none :=
    pathname_to_inode_modify_at_none _ (erase_entry_find_or an) ap _ root hbnone
  -- the parent of `b` after the removal of `a`
  obtain ⟨Da, hDa⟩ : ∃ Da, pathname_to_inode bp (modify_at ap (erase_entry an) root) = some Da := by
    have := isSome_pathname_to_inode_modify_at an _ he1 he2 ap bp root hsub
    rw [hD] at this
    exact Option.isSome_iff_exists.mp this
  have hDa_bn : Da.find_in_dentry bn = none := by
    have := hbnone_a
    rw [pathname_to_inode_append, hDa] at this
    simp only [Option.some_bind] at this
    rw [pathname_to_inode_singleton] at this
    exact this
  -- state after the first rename
  have hD1 : pathname_to_inode bp (after_rename ap bp an bn now1 node root) =
      some (inode_t.add_dentry bn (set_ctim now1 node) true Da) := by
    unfold after_rename
    rw [pathname_to_inode_modify_at_self, hDa]
    rfl
  have hnotb : ¬ (bp ++ [bn]) <+: ap := by
    intro h
    obtain ⟨r, hr⟩ := h
    have := hP
    rw [← hr, pathname_to_inode_append, hbnone] at this
    exact Option.noConfusion this
  obtain ⟨P1, hP1⟩ : ∃ P1, pathname_to_inode ap (after_rename ap bp an bn now1 node root) =
      some P1 := by
    have h1 := isSome_pathname_to_inode_modify_at bn _ hg1 hg2 bp ap
      (modify_at ap (erase_entry an) root) hnotb
    rw [pathname_to_inode_modify_at_self, hP] at h1
    exact Option.isSome_iff_exists.mp h1
  have hsecond := do_rename_eq (after_rename ap bp an bn now1 node root)
    (inode_t.add_dentry bn (set_ctim now1 node) true Da) P1 (set_ctim now1 node) bp ap bn an now2
    hD1 (find_add_dentry_self bn _ true Da) hP1
  -- the tree after the second rename
  have hback : modify_at bp (erase_entry bn)
      (modify_at bp (inode_t.add_dentry bn (set_ctim now1 node) true)
        (modify_at ap (erase_entry an) root)) =
      modify_at ap (erase_entry an) root := by
    rw [modify_at_modify_at]
    apply modify_at_id
    intro n hn
    rw [hDa] at hn
    rw [← Option.some.inj hn]
    exact erase_add_dentry_of_absent bn _ true Da hDa_bn
  have hroot2 : after_rename bp ap bn an now2 (set_ctim now1 node)
      (after_rename ap bp an bn now1 node root) =
      modify_at ap (fun n => n.set_dentry
        (map_update an (fun e => ⟨true, set_ctim now2 e.inode⟩) n.dentry)) root := by
    unfold after_rename
    rw [hback, modify_at_modify_at]
    apply modify_at_congr
    intro n hn
    rw [hP] at hn
    rw [← Option.some.inj hn]
    simp only [Function.comp_apply]
    rw [add_erase_dentry_sorted an _ node P hsorted hnode, set_ctim_set_ctim]
    congr 1
    apply map_update_congr
    intro v hv
    have : v.inode = node := by
      unfold inode_t.find_in_dentry at hnode
      rw [hv] at hnode
      exact Option.some.inj hnode
    rw [this]
  refine ⟨after_rename ap bp an bn now1 node root, _,
    do_rename_eq root P D node ap bp an bn now1 hP hnode hD, hsecond, hroot2, ?_⟩
  intro hflag
  rw [hroot2, modify_at_append]
  apply modify_at_congr
  intro n hn
  rw [hP] at hn
  rw [← Option.some.inj hn]
  show _ = modify_at [an] (set_ctim now2) P
  rw [modify_at_cons]
  congr 1
  apply map_update_congr
  intro v hv
  rw [← hflag v hv]
  rfl

/-! ## Concrete runs -/

/-- C9, as stated, fails when the destination is an ancestor of the source:
in the tree `/a/b/b`, `src = /a/b` resolves, the parent `/` of `dst = /a`
resolves and is not inside the subtree of `src`; `do_rename` returns 0 and
`do_getattr(src)` then returns 0, not `-ENOENT`. -/
theorem rename_onto_ancestor_src_still_resolves :
    (pathname_to_inode ["a", "b"] tree_a_b_b).isSome = true ∧
    (pathname_to_inode [] tree_a_b_b).isSome = true ∧
    ["a", "b"] ≠ ["a"] ∧ ¬ ["a", "b"] <+: ([] : List String) ∧
    (do_rename ["a", "b"] ["a"] {} tree_a_b_b).map
      (fun r => (r.1, (do_getattr ["a", "b"] {} r.2).1)) = some (0, 0) := by
  refine ⟨by decide, by decide, by decide, by decide, by decide⟩

/-- C10, as stated, fails when the parent of `b` lies inside the subtree of
`a`: in the tree `/a/x`, `a = /a` resolves, `b = /a/x/y` does not and its
parent `/a/x` does; `do_rename(a, b)` returns 0, `do_rename(b, a)` then returns
`-ENOENT`, and `/a` no longer resolves. -/
theorem rename_into_own_subtree_not_undone :
    (pathname_to_inode ["a"] tree_a_x).isSome = true ∧
    (pathname_to_inode ["a", "x", "y"] tree_a_x).isSome = false ∧
    (pathname_to_inode ["a", "x"] tree_a_x).isSome = true ∧
    (do_rename ["a"] ["a", "x", "y"] {} tree_a_x).bind
      (fun r => (do_rename ["a", "x", "y"] ["a"] {} r.2).map
        (fun r2 => (r.1, r2.1, (pathname_to_inode ["a"] r2.2).isSome))) =
      some (0, -ENOENT, false) := by
  refine ⟨by decide, by decide, by decide, by decide⟩

/-- C7 at `symlink("/target", "/link")` on the empty file system: `readlink`
of `/link` returns `-ENOENT` and stores nothing; `readlink` of `/target`,
where the entry was made, returns 0 and stores nothing either, the new
inode's `cur_data_size` being 0. -/
theorem readlink_after_symlink_stores_nothing :
    symlink_run.bind (fun r =>
      (do_readlink (stmpfs_pathname_t "/link") 7 {} r.2).map (fun x => (x.1, x.2.1))) =
      some (-ENOENT, []) ∧
    symlink_run.bind (fun r =>
      (do_readlink (stmpfs_pathname_t "/target") 7 {} r.2).map (fun x => (x.1, x.2.1))) =
      some (0, []) ∧
    symlink_run.bind (fun r =>
      (pathname_to_inode (stmpfs_pathname_t "/target") r.2).map
        (fun n => (n.cur_data_size, n.fs_stat.st_size))) = some (0, 5) := by
  refine ⟨by decide, by decide, by decide⟩

/-- C8 at `symlink("/target", "/link")` on the empty file system: the call
returns 0, nothing resolves at `/link`, and the new inode of mode
`S_IFLNK | 0755` and link count 1 is at `/target`, the location spelled by the
first argument. -/
theorem symlink_entry_made_at_first_argument :
    symlink_run.map (fun r => (r.1,
      (pathname_to_inode (stmpfs_pathname_t "/link") r.2).isSome,
      (pathname_to_inode (stmpfs_pathname_t "/target") r.2).map
        (fun n => (n.fs_stat.st_mode, n.fs_stat.st_nlink)))) =
      some (0, false, some (S_IFLNK ||| 0o755, 1)) := by
  decide

/-! ## Instances of the theorems with hypotheses -/

/-- Witness for C4: two bytes written across the end of a ten-byte file. -/
theorem write_returns_len_and_sets_size_witness :
    (inode_t.mk [fun _ => 7] 10 [] {} []).cur_data_size ≤
        (inode_t.mk [fun _ => 7] 10 [] {} []).data.length * BLOCK_SIZE ∧
      1 ≤ [(1 : Byte), 2].length ∧
      ∃ inode', (inode_t.mk [fun _ => 7] 10 [] {} []).write (fun _ _ => 0) [1, 2]
          [(1 : Byte), 2].length 9 = some ([(1 : Byte), 2].length, inode') ∧
        inode'.cur_data_size = 11 := by
  refine ⟨by decide, by decide, ?_⟩
  obtain ⟨inode', h1, h2, _, _⟩ :=
    write_returns_len_and_sets_size (fun _ _ => 0) (inode_t.mk [fun _ => 7] 10 [] {} []) [1, 2] 9
      (by decide) (by decide)
  exact ⟨inode', h1, h2⟩

/-- Witness for C5: byte 3 of a ten-byte file survives a write at 9. -/
theorem write_preserves_bytes_outside_range_witness :
    (inode_t.mk [fun _ => 7] 10 [] {} []).cur_data_size ≤
        (inode_t.mk [fun _ => 7] 10 [] {} []).data.length * BLOCK_SIZE ∧
      1 ≤ [(1 : Byte), 2].length ∧ 3 < (inode_t.mk [fun _ => 7] 10 [] {} []).cur_data_size ∧
      (3 < 9 ∨ 9 + [(1 : Byte), 2].length ≤ 3) ∧
      ∃ inode', (inode_t.mk [fun _ => 7] 10 [] {} []).write (fun _ _ => 0) [1, 2]
          [(1 : Byte), 2].length 9 = some ([(1 : Byte), 2].length, inode') ∧
        logical_byte inode'.data 3 = logical_byte (inode_t.mk [fun _ => 7] 10 [] {} []).data 3 := by
  refine ⟨by decide, by decide, by decide, by decide, ?_⟩
  obtain ⟨inode', h1, h2, _, _⟩ :=
    write_preserves_bytes_outside_range (fun _ _ => 0) (inode_t.mk [fun _ => 7] 10 [] {} [])
      [1, 2] 9 3 (by decide) (by decide) (by decide) (by decide)
  exact ⟨inode', h1, h2⟩

/-- Witness for C9: the spec scenario `rename /a /b`. -/
theorem rename_moves_inode_witness :
    pathname_to_inode [] tree_file_a = some tree_file_a ∧
    tree_file_a.find_in_dentry "a" = some (create_template 0o100644 {}) ∧
    ¬ ([] ++ ["a"]) <+: ([] : List String) ∧ ¬ ([] ++ ["b"]) <+: ([] ++ ["a"] : List String) ∧
    ∃ root',
      do_rename ([] ++ ["a"]) ([] ++ ["b"]) {} tree_file_a = some (0, root') ∧
      do_getattr ([] ++ ["a"]) {} root' = (-ENOENT, {}) ∧
      pathname_to_inode ([] ++ ["b"]) root' = some (set_ctim {} (create_template 0o100644 {})) := by
  refine ⟨rfl, rfl, by decide, by decide, ?_⟩
  obtain ⟨root', _, _, h1, h2, h3, _⟩ :=
    rename_moves_inode tree_file_a tree_file_a tree_file_a (create_template 0o100644 {})
      [] [] "a" "b" {} {} rfl rfl rfl (by decide) (by decide)
  exact ⟨root', h1, h2, h3⟩

/-- Witness for C10: `rename /a /b` then `rename /b /a`. -/
theorem rename_there_and_back_witness :
    pathname_to_inode [] tree_file_a = some tree_file_a ∧
    tree_file_a.find_in_dentry "a" = some (create_template 0o100644 {}) ∧
    tree_file_a.find_in_dentry "b" = none ∧
    map_sorted tree_file_a.dentry ∧
    ¬ ([] ++ ["a"]) <+: ([] : List String) ∧
    ∃ root1 root2,
      do_rename ([] ++ ["a"]) ([] ++ ["b"]) {} tree_file_a = some (0, root1) ∧
      do_rename ([] ++ ["b"]) ([] ++ ["a"]) {} root1 = some (0, root2) ∧
      root2 = modify_at ([] ++ ["a"]) (set_ctim {}) tree_file_a := by
  have hs : map_sorted tree_file_a.dentry := by
    simp [map_sorted, tree_file_a, dir_inode, inode_t.dentry]
  refine ⟨rfl, rfl, rfl, hs, by decide, ?_⟩
  obtain ⟨root1, root2, h1, h2, _, h4⟩ :=
    rename_there_and_back tree_file_a tree_file_a tree_file_a (create_template 0o100644 {})
      [] [] "a" "b" {} {} rfl rfl rfl rfl hs (by decide)
  refine ⟨root1, root2, h1, h2, h4 ?_⟩
  intro e he
  have : e = ⟨true, create_template 0o100644 {}⟩ := by
    simp [tree_file_a, dir_inode, inode_t.dentry, map_find] at he
    exact he.symm
  rw [this]

/-! ## Entry points: mkdir, rmdir, unlink -/

theorem lor_land_S_IFDIR (m : Nat) : (m ||| S_IFDIR) &&& S_IFDIR ≠ 0 := by
  have : (m ||| S_IFDIR) &&& S_IFDIR = S_IFDIR := by
    apply Nat.eq_of_testBit_eq
    intro i
    simp only [Nat.testBit_land, Nat.testBit_lor]
    cases m.testBit i <;> cases S_IFDIR.testBit i <;> rfl
  rw [this]; decide

theorem land_S_IFDIR_of_type (m : Nat) (h : m &&& S_IFMT = S_IFDIR) : m &&& S_IFDIR ≠ 0 := by
  have h1 : (m &&& S_IFMT) &&& S_IFDIR = m &&& S_IFDIR := by
    rw [Nat.land_assoc]; rfl
  rw [← h1, h]; decide

theorem do_mkdir_eq (root P : inode_t) (pp : List String) (name : String) (mode : Nat)
    (now : timespec) (hP : pathname_to_inode pp root = some P) :
    do_mkdir (pp ++ [name]) mode now root =
      some (0, modify_at pp (inode_t.emplace_new_dentry name (mkdir_template mode now)) root) := by
  unfold do_mkdir
  rw [getLast?_concat', dropLast_concat', hP]

theorem pathname_to_inode_after_emplace (root P : inode_t) (pp : List String) (name : String)
    (tmpl : inode_t) (hP : pathname_to_inode pp root = some P) :
    pathname_to_inode (pp ++ [name]) (modify_at pp (inode_t.emplace_new_dentry name tmpl) root) =
      some (inode_t.mk tmpl.data 0 tmpl.dentry tmpl.fs_stat []) := by
  rw [pathname_to_inode_modify_at_append, hP]
  simp only [Option.some_bind]
  rw [pathname_to_inode_singleton, find_emplace_new_dentry_self]

theorem map_find_emplace_new_dentry_ne (name x : String) (tmpl n : inode_t) (hx : x ≠ name) :
    map_find x (inode_t.emplace_new_dentry name tmpl n).dentry = map_find x n.dentry := by
  rw [inode_t.emplace_new_dentry, inode_t.dentry_set_dentry, map_find_emplace_ne _ _ _ _ hx,
    map_find_erase_ne _ _ _ hx]

/-- C11: when the parent of `p` resolves, `do_mkdir(p, mode)` returns 0;
`do_getattr(p)` then reports `st_mode == mode | S_IFDIR` and the three
timestamps equal; the new inode has no children and size 0; the parent keeps
its own state and every entry of another name. -/
theorem mkdir_makes_empty_directory (root P : inode_t) (pp : List String) (name : String)
    (mode : Nat) (now : timespec) (stbuf : stat)
    (hP : pathname_to_inode pp root = some P) :
    ∃ root' n P',
      do_mkdir (pp ++ [name]) mode now root = some (0, root') ∧
      do_getattr (pp ++ [name]) stbuf root' = (0, n.fs_stat) ∧
      pathname_to_inode (pp ++ [name]) root' = some n ∧
      n.fs_stat.st_mode = mode ||| S_IFDIR ∧
      n.fs_stat.st_atim = n.fs_stat.st_mtim ∧ n.fs_stat.st_mtim = n.fs_stat.st_ctim ∧
      n.dentry = [] ∧ n.cur_data_size = 0 ∧ n.fs_stat.st_size = 0 ∧
      pathname_to_inode pp root' = some P' ∧ P'.own = P.own ∧
      ∀ x, x ≠ name → map_find x P'.dentry = map_find x P.dentry := by
  have hres := pathname_to_inode_after_emplace root P pp name (mkdir_template mode now) hP
  refine ⟨_, mkdir_template mode now, inode_t.emplace_new_dentry name (mkdir_template mode now) P,
    do_mkdir_eq root P pp name mode now hP, ?_, hres, rfl, rfl, rfl, rfl, rfl, rfl, ?_, rfl, ?_⟩
  · unfold do_getattr
    rw [hres]
    rfl
  · rw [pathname_to_inode_modify_at_self, hP]
    rfl
  · intro x hx
    exact map_find_emplace_new_dentry_ne name x _ P hx

/-- C12, as stated, fails: in the tree holding the regular file `/a`,
`do_mkdir("/a/d")` returns 0 and `/a/d` resolves afterwards. -/
theorem mkdir_under_regular_file_succeeds :
    (pathname_to_inode ["a"] tree_file_a).map (fun n => n.fs_stat.st_mode &&& S_IFMT) =
      some S_IFREG ∧
    (do_mkdir ["a", "d"] 0o755 {} tree_file_a).map
      (fun r => (r.1, (pathname_to_inode ["a", "d"] r.2).isSome)) = some (0, true) := by
  refine ⟨by decide, by decide⟩

/-- C12, amended: `do_mkdir` does not look at the type of the parent.  It
returns `-ENOENT` and leaves the tree unchanged when the parent path does not
resolve; whenever the parent path resolves, to a directory or not, it returns
0 and the new directory is a child of that inode. -/
theorem mkdir_fails_only_without_parent (root : inode_t) (pp : List String) (name : String)
    (mode : Nat) (now : timespec) :
    (pathname_to_inode pp root = none →
      do_mkdir (pp ++ [name]) mode now root = some (-ENOENT, root)) ∧
    (∀ P, pathname_to_inode pp root = some P →
      ∃ root', do_mkdir (pp ++ [name]) mode now root = some (0, root') ∧
        pathname_to_inode (pp ++ [name]) root' = some (mkdir_template mode now)) := by
  constructor
  · intro h
    unfold do_mkdir
    rw [getLast?_concat', dropLast_concat', h]
  · intro P hP
    exact ⟨_, do_mkdir_eq root P pp name mode now hP,
      pathname_to_inode_after_emplace root P pp name (mkdir_template mode now) hP⟩

/-- C13 at a block device: after `mknod /dev` with mode `S_IFBLK | 0644` on the
empty file system, the type of `/dev` is not `S_IFDIR`, yet `do_rmdir("/dev")`
returns 0 and removes the node; on the regular file `/a` it returns
`-ENOTDIR`. -/
theorem rmdir_removes_block_device :
    (do_mknod ["dev"] (S_IFBLK ||| 0o644) 0 {} (empty_root {})).map
      (fun r => (r.1,
        (pathname_to_inode ["dev"] r.2).map (fun n => decide (n.fs_stat.st_mode &&& S_IFMT = S_IFDIR)),
        (do_rmdir ["dev"] r.2).1,
        (pathname_to_inode ["dev"] (do_rmdir ["dev"] r.2).2).isSome)) =
      some (0, some false, 0, false) ∧
    (do_rmdir ["a"] tree_file_a).1 = -ENOTDIR := by
  refine ⟨by decide, by decide⟩

theorem do_rmdir_nonempty (root P d : inode_t) (pp : List String) (name : String)
    (hP : pathname_to_inode pp root = some P) (hd : P.find_in_dentry name = some d)
    (hbit : d.fs_stat.st_mode &&& S_IFDIR ≠ 0) (hchild : d.dentry ≠ []) :
    do_rmdir (pp ++ [name]) root = (-ENOTEMPTY, root) := by
  unfold do_rmdir
  rw [getLast?_concat', dropLast_concat']
  simp only
  rw [hP]
  simp only
  rw [hd]
  simp only
  rw [if_neg hbit, if_pos (by simpa using hchild)]

/-- C14: when `p` resolves to an inode of type `S_IFDIR` that has at least one
child, `do_rmdir(p)` returns `-ENOTEMPTY` and the tree is unchanged. -/
theorem rmdir_nonempty_directory (root P d : inode_t) (pp : List String) (name : String)
    (hP : pathname_to_inode pp root = some P) (hd : P.find_in_dentry name = some d)
    (htype : d.fs_stat.st_mode &&& S_IFMT = S_IFDIR) (hchild : d.dentry ≠ []) :
    do_rmdir (pp ++ [name]) root = (-ENOTEMPTY, root) ∧
    pathname_to_inode (pp ++ [name]) (do_rmdir (pp ++ [name]) root).2 = some d := by
  have h := do_rmdir_nonempty root P d pp name hP hd (land_S_IFDIR_of_type _ htype) hchild
  refine ⟨h, ?_⟩
  rw [h, pathname_to_inode_append, hP]
  simp only [Option.some_bind]
  rw [pathname_to_inode_singleton, hd]

theorem do_rmdir_empty_directory (root P d : inode_t) (pp : List String) (name : String)
    (hP : pathname_to_inode pp root = some P) (hd : P.find_in_dentry name = some d)
    (hbit : d.fs_stat.st_mode &&& S_IFDIR ≠ 0) (hchild : d.dentry = []) :
    do_rmdir (pp ++ [name]) root = (0, modify_at pp (erase_entry name) root) := by
  unfold do_rmdir
  rw [getLast?_concat', dropLast_concat']
  simp only
  rw [hP]
  simp only
  rw [hd]
  simp only
  rw [if_neg hbit, if_neg (by simp [hchild]), del_dentry_eq name false P d hd]
  simp only
  congr 1
  apply modify_at_congr
  intro n hn
  rw [hP] at hn
  rw [← Option.some.inj hn]

theorem erase_emplace_new_dentry_of_absent (name : String) (tmpl n : inode_t)
    (h : n.find_in_dentry name = none) :
    erase_entry name (inode_t.emplace_new_dentry name tmpl n) = n := by
  have hf := map_find_none_of_find_in_dentry name n h
  unfold erase_entry inode_t.emplace_new_dentry
  rw [inode_t.dentry_set_dentry, inode_t.set_dentry_set_dentry, map_erase_of_not_found name _ hf,
    map_erase_emplace name _ _ hf, inode_t.set_dentry_self]

/-- C15: when the parent of `p` resolves and the final name is absent,
`do_mkdir(p, mode)` then `do_rmdir(p)` both return 0 and the tree afterwards
is the tree before the mkdir, so the parent has its old children map and
`do_getattr(p)` returns `-ENOENT`. -/
theorem mkdir_then_rmdir (root P : inode_t) (pp : List String) (name : String)
    (mode : Nat) (now : timespec) (stbuf : stat)
    (hP : pathname_to_inode pp root = some P) (habsent : P.find_in_dentry name = none) :
    ∃ root',
      do_mkdir (pp ++ [name]) mode now root = some (0, root') ∧
      do_rmdir (pp ++ [name]) root' = (0, root) ∧
      do_getattr (pp ++ [name]) stbuf root = (-ENOENT, stbuf) ∧
      (pathname_to_inode pp (do_rmdir (pp ++ [name]) root').2).map inode_t.dentry =
        some P.dentry := by
  have hP' : pathname_to_inode pp
      (modify_at pp (inode_t.emplace_new_dentry name (mkdir_template mode now)) root) =
      some (inode_t.emplace_new_dentry name (mkdir_template mode now) P) := by
    rw [pathname_to_inode_modify_at_self, hP]
    rfl
  have hrm : do_rmdir (pp ++ [name])
      (modify_at pp (inode_t.emplace_new_dentry name (mkdir_template mode now)) root) =
      (0, root) := by
    rw [do_rmdir_empty_directory _ _ (mkdir_template mode now) pp name hP'
      (find_emplace_new_dentry_self name _ P) (lor_land_S_IFDIR mode) rfl, modify_at_modify_at]
    congr 1
    apply modify_at_id
    intro n hn
    rw [hP] at hn
    rw [← Option.some.inj hn]
    exact erase_emplace_new_dentry_of_absent name _ P habsent
  refine ⟨_, do_mkdir_eq root P pp name mode now hP, hrm, ?_, ?_⟩
  · unfold do_getattr
    rw [pathname_to_inode_append, hP]
    simp only [Option.some_bind]
    rw [pathname_to_inode_singleton, habsent]
  · rw [hrm, hP]
    rfl

/-- C16: `do_unlink("/")` returns `-EISDIR` and keeps the tree.  With the
parent of `p` resolving: when the final name is present `do_unlink(p)` returns
0, afterwards the name is absent from the parent, `do_getattr(p)` returns
`-ENOENT` and the parent keeps its own state and every entry of another name;
when the final name is absent `do_unlink(p)` returns `-ENOENT` and keeps the
tree. -/
theorem unlink_removes_entry (root P : inode_t) (pp : List String) (name : String)
    (stbuf : stat) (hP : pathname_to_inode pp root = some P) :
    do_unlink (stmpfs_pathname_t "/") root = (-EISDIR, root) ∧
    (∀ child, P.find_in_dentry name = some child →
      ∃ root' P',
        do_unlink (pp ++ [name]) root = (0, root') ∧
        do_getattr (pp ++ [name]) stbuf root' = (-ENOENT, stbuf) ∧
        pathname_to_inode pp root' = some P' ∧ P'.find_in_dentry name = none ∧
        P'.own = P.own ∧
        ∀ x, x ≠ name → map_find x P'.dentry = map_find x P.dentry) ∧
    (P.find_in_dentry name = none → do_unlink (pp ++ [name]) root = (-ENOENT, root)) := by
  refine ⟨rfl, ?_, ?_⟩
  · intro child hchild
    have hun : do_unlink (pp ++ [name]) root = (0, modify_at pp (erase_entry name) root) := by
      unfold do_unlink
      rw [getLast?_concat', dropLast_concat']
      simp only
      rw [hP]
      simp only
      rw [del_dentry_eq name false P child hchild]
      simp only
      congr 1
      apply modify_at_congr
      intro n hn
      rw [hP] at hn
      rw [← Option.some.inj hn]
    have hP' : pathname_to_inode pp (modify_at pp (erase_entry name) root) =
        some (erase_entry name P) := by
      rw [pathname_to_inode_modify_at_self, hP]
      rfl
    refine ⟨_, erase_entry name P, hun, ?_, hP', erase_entry_find_self name P, rfl, ?_⟩
    · unfold do_getattr
      rw [pathname_to_inode_append, hP']
      simp only [Option.some_bind]
      rw [pathname_to_inode_singleton, erase_entry_find_self]
    · intro x hx
      exact map_find_erase_ne x name P.dentry hx
  · intro habsent
    unfold do_unlink
    rw [getLast?_concat', dropLast_concat']
    simp only
    rw [hP]
    simp only
    unfold inode_t.del_dentry
    rw [map_find_none_of_find_in_dentry name P habsent]

/-! ## Key order and sorted maps -/

theorem char_eq_of_toNat (c d : Char) (h : c.toNat = d.toNat) : c = d :=
  Char.eq_of_val_eq (UInt32.eq_of_val_eq (Fin.eq_of_val_eq h))

theorem str_lt_trans : ∀ a b c : List Char,
    str_lt a b = true → str_lt b c = true → str_lt a c = true := by
  intro a
  induction a with
  | nil =>
    intro b c h1 h2
    cases b with
    | nil => simp [str_lt] at h1
    | cons y ys =>
      cases c with
      | nil => simp [str_lt] at h2
      | cons z zs => rfl
  | cons x xs ih =>
    intro b c h1 h2
    cases b with
    | nil => simp [str_lt] at h1
    | cons y ys =>
      cases c with
      | nil => simp [str_lt] at h2
      | cons z zs =>
        simp only [str_lt] at h1 h2 ⊢
        by_cases hxy : x.toNat < y.toNat
        · by_cases hyz : y.toNat < z.toNat
          · rw [if_pos (by omega)]
          · by_cases hzy : z.toNat < y.toNat
            · simp [hyz, hzy] at h2
            · rw [if_pos (by omega)]
        · by_cases hyx : y.toNat < x.toNat
          · simp [hxy, hyx] at h1
          · simp only [hxy, hyx, if_false] at h1
            by_cases hyz : y.toNat < z.toNat
            · rw [if_pos (by omega)]
            · by_cases hzy : z.toNat < y.toNat
              · simp [hyz, hzy] at h2
              · simp only [hyz, hzy, if_false] at h2
                rw [if_neg (by omega), if_neg (by omega)]
                exact ih ys zs h1 h2

theorem str_lt_total : ∀ a b : List Char,
    str_lt a b = false → a ≠ b → str_lt b a = true := by
  intro a
  induction a with
  | nil =>
    intro b h hne
    cases b with
    | nil => exact absurd rfl hne
    | cons y ys => simp [str_lt] at h
  | cons x xs ih =>
    intro b h hne
    cases b with
    | nil => rfl
    | cons y ys =>
      simp only [str_lt] at h ⊢
      by_cases hxy : x.toNat < y.toNat
      · simp [hxy] at h
      · by_cases hyx : y.toNat < x.toNat
        · rw [if_pos hyx]
        · simp only [hxy, hyx, if_false] at h ⊢
          have hc : x = y := char_eq_of_toNat x y (by omega)
          apply ih ys h
          intro hxs
          exact hne (by rw [hc, hxs])

theorem key_lt_trans (a b c : String) (h1 : key_lt a b = true) (h2 : key_lt b c = true) :
    key_lt a c = true := str_lt_trans _ _ _ h1 h2

theorem key_lt_total (a b : String) (h : key_lt a b = false) (hne : a ≠ b) :
    key_lt b a = true := by
  apply str_lt_total _ _ h
  intro hl
  apply hne
  cases a; cases b
  simp only [String.toList] at hl
  rw [hl]

section SortedMaps

variable {β : Type}

theorem map_keys_erase_subset (name x : String) (m : List (String × β))
    (h : x ∈ (map_erase name m).map Prod.fst) : x ∈ m.map Prod.fst := by
  simp only [map_erase, List.mem_map, List.mem_filter] at h ⊢
  obtain ⟨e, ⟨he, _⟩, hx⟩ := h
  exact ⟨e, he, hx⟩

theorem map_sorted_erase (name : String) (m : List (String × β)) (hs : map_sorted m) :
    map_sorted (map_erase name m) := by
  unfold map_sorted map_erase at *
  exact hs.sublist ((List.filter_sublist m).map Prod.fst)

theorem map_keys_update (name : String) (f : β → β) (m : List (String × β)) :
    (map_update name f m).map Prod.fst = m.map Prod.fst := by
  induction m with
  | nil => rfl
  | cons e rest ih =>
    obtain ⟨k, w⟩ := e
    rw [map_update_cons]
    by_cases hk : k = name
    · rw [if_pos hk]; rfl
    · rw [if_neg hk, List.map_cons, List.map_cons, ih]

theorem map_sorted_update (name : String) (f : β → β) (m : List (String × β))
    (hs : map_sorted m) : map_sorted (map_update name f m) := by
  unfold map_sorted at *
  rw [map_keys_update]
  exact hs

theorem map_keys_emplace (name x : String) (v : β) (m : List (String × β))
    (h : x ∈ (map_emplace name v m).map Prod.fst) : x = name ∨ x ∈ m.map Prod.fst := by
  induction m with
  | nil =>
    simp only [map_emplace, List.map_cons, List.map_nil, List.mem_singleton] at h
    exact Or.inl h
  | cons e rest ih =>
    obtain ⟨k, w⟩ := e
    rw [map_emplace_cons] at h
    by_cases hlt : key_lt name k = true
    · rw [if_pos hlt, List.map_cons, List.mem_cons] at h
      exact h
    · rw [if_neg hlt] at h
      by_cases hk : k = name
      · rw [if_pos hk] at h
        exact Or.inr h
      · rw [if_neg hk, List.map_cons, List.mem_cons] at h
        rcases h with h | h
        · right; rw [List.map_cons, List.mem_cons]; exact Or.inl h
        · rcases ih h with h' | h'
          · exact Or.inl h'
          · right; rw [List.map_cons, List.mem_cons]; exact Or.inr h'

/-- The insertion of `std::map::emplace` keeps the keys ascending. -/
theorem map_sorted_emplace (name : String) (v : β) (m : List (String × β))
    (hs : map_sorted m) : map_sorted (map_emplace name v m) := by
  induction m with
  | nil => simp [map_sorted, map_emplace]
  | cons e rest ih =>
    obtain ⟨k, w⟩ := e
    have hs' := hs
    simp only [map_sorted, List.map_cons, List.pairwise_cons] at hs
    obtain ⟨hhead, htail⟩ := hs
    rw [map_emplace_cons]
    by_cases hlt : key_lt name k = true
    · rw [if_pos hlt]
      simp only [map_sorted, List.map_cons, List.pairwise_cons]
      refine ⟨?_, hhead, htail⟩
      intro x hx
      rw [List.mem_cons] at hx
      rcases hx with hx | hx
      · rw [hx]; exact hlt
      · exact key_lt_trans _ _ _ hlt (hhead x hx)
    · rw [if_neg hlt]
      by_cases hk : k = name
      · rw [if_pos hk]; exact hs'
      · rw [if_neg hk]
        simp only [map_sorted, List.map_cons, List.pairwise_cons]
        refine ⟨?_, ih htail⟩
        intro x hx
        rcases map_keys_emplace name x v rest hx with hx | hx
        · rw [hx]
          exact key_lt_total name k (by simpa using hlt) (fun h => hk h.symm)
        · exact hhead x hx

theorem map_sorted_nodup (m : List (String × β)) (hs : map_sorted m) :
    (m.map Prod.fst).Nodup := by
  unfold map_sorted at hs
  apply List.Pairwise.imp _ hs
  intro a b hab hne
  rw [hne, key_lt_irrefl] at hab
  exact Bool.noConfusion hab

theorem map_find_isSome_iff_mem (name : String) (m : List (String × β)) :
    (map_find name m).isSome = true ↔ name ∈ m.map Prod.fst := by
  constructor
  · intro h
    obtain ⟨v, hv⟩ := Option.isSome_iff_exists.mp h
    exact map_find_mem_keys name m v hv
  · intro h
    cases hf : map_find name m with
    | some v => rfl
    | none =>
      exfalso
      induction m with
      | nil => simp at h
      | cons e rest ih =>
        obtain ⟨k, w⟩ := e
        rw [map_find_cons] at hf
        by_cases hk : k = name
        · rw [if_pos hk] at hf; exact Option.noConfusion hf
        · rw [if_neg hk] at hf
          rw [List.map_cons, List.mem_cons] at h
          rcases h with h | h
          · exact hk h.symm
          · exact ih h hf

theorem map_find_assign_self (name : String) (v : β) (m : List (String × β)) :
    map_find name (map_assign name v m) = some v := by
  unfold map_assign
  cases hf : map_find name m with
  | none => exact map_find_emplace_self name v m hf
  | some w =>
    simp only
    rw [map_find_update_self, hf]
    rfl

theorem map_find_assign_ne (x name : String) (v : β) (m : List (String × β)) (hx : x ≠ name) :
    map_find x (map_assign name v m) = map_find x m := by
  unfold map_assign
  cases hf : map_find name m with
  | none => exact map_find_emplace_ne x name v m hx
  | some w => exact map_find_update_ne x name _ m hx

theorem map_sorted_assign (name : String) (v : β) (m : List (String × β))
    (hs : map_sorted m) : map_sorted (map_assign name v m) := by
  unfold map_assign
  cases hf : map_find name m with
  | none => exact map_sorted_emplace name v m hs
  | some w => exact map_sorted_update name _ m hs

end SortedMaps

/-! ## Entry points: getattr, readdir -/

theorem reaches_iff_pathname_to_inode (vpath : List String) :
    ∀ root n : inode_t, Reaches vpath root n ↔ pathname_to_inode vpath root = some n := by
  induction vpath with
  | nil =>
    intro root n
    constructor
    · intro h; cases h; rfl
    · intro h
      have : root = n := Option.some.inj h
      rw [this]
      exact Reaches.nil n
  | cons c cs ih =>
    intro root n
    rw [pathname_to_inode_cons]
    constructor
    · intro h
      cases h with
      | cons _ _ _ _ e hfind hrest =>
        rw [inode_t.find_in_dentry, hfind]
        exact (ih e.inode n).mp hrest
    · intro h
      unfold inode_t.find_in_dentry at h
      cases hf : map_find c root.dentry with
      | none => rw [hf] at h; exact Option.noConfusion h
      | some e =>
        rw [hf] at h
        exact Reaches.cons c cs root n e hf ((ih e.inode n).mpr h)

/-- C17: for every tree and every component vector (so for the parse of every
path string), `do_getattr` returns 0 exactly when every component is present
as a child name at its level, the empty vector reaching the root; it then
copies out the stat of the inode reached; otherwise it returns `-ENOENT` and
the output stat is untouched.  `do_getattr` stores nothing into the tree. -/
theorem getattr_walks_components (vpath : List String) (stbuf : stat) (root : inode_t) :
    ((∃ n, Reaches vpath root n) ↔ (do_getattr vpath stbuf root).1 = 0) ∧
    (∀ n, Reaches vpath root n → do_getattr vpath stbuf root = (0, n.fs_stat)) ∧
    ((¬ ∃ n, Reaches vpath root n) → do_getattr vpath stbuf root = (-ENOENT, stbuf)) ∧
    Reaches [] root root := by
  refine ⟨?_, ?_, ?_, Reaches.nil root⟩
  · constructor
    · rintro ⟨n, hn⟩
      unfold do_getattr
      rw [(reaches_iff_pathname_to_inode vpath root n).mp hn]
    · intro h
      unfold do_getattr at h
      cases hres : pathname_to_inode vpath root with
      | none =>
        rw [hres] at h
        have hne : (-ENOENT : Int) ≠ 0 := by decide
        exact absurd h hne
      | some n => exact ⟨n, (reaches_iff_pathname_to_inode vpath root n).mpr hres⟩
  · intro n hn
    unfold do_getattr
    rw [(reaches_iff_pathname_to_inode vpath root n).mp hn]
  · intro h
    unfold do_getattr
    cases hres : pathname_to_inode vpath root with
    | none => rfl
    | some n => exact absurd ⟨n, (reaches_iff_pathname_to_inode vpath root n).mpr hres⟩ h

theorem set_atim_dentry (now : timespec) (n : inode_t) : (set_atim now n).dentry = n.dentry := by
  cases n; rfl

/-- C18: in a tree whose children maps are `std::map`s (keys ascending, the
invariant `tree_sorted` that the empty tree has and every directory-changing
entry point keeps), when the path resolves `do_readdir` returns 0 and passes
to `filler` the names `.`, `..` and then the child names of the resolved
inode: every name that `find_in_dentry` finds, each once, in strictly
ascending order of their character lists. -/
theorem readdir_emits_names_in_order (root inode : inode_t) (vpath : List String)
    (now : timespec) (hres : pathname_to_inode vpath root = some inode)
    (htree : tree_sorted root) :
    do_readdir vpath now root =
      (0, [".", ".."] ++ inode.dentry.map Prod.fst, modify_at vpath (set_atim now) root) ∧
    (∀ x, x ∈ inode.dentry.map Prod.fst ↔ (inode.find_in_dentry x).isSome = true) ∧
    (inode.dentry.map Prod.fst).Nodup ∧
    (inode.dentry.map Prod.fst).Pairwise (fun a b => str_lt a.toList b.toList = true) := by
  have hmap : map_sorted inode.dentry := htree vpath inode hres
  refine ⟨?_, ?_, map_sorted_nodup _ hmap, hmap⟩
  · unfold do_readdir
    rw [hres]
    simp only
    rw [set_atim_dentry]
  · intro x
    rw [← map_find_isSome_iff_mem, inode_t.find_in_dentry, Option.isSome_map']

/-! ## Entry points: extended attributes -/

theorem inode_t.xattr_set_xattr (n : inode_t) (x : List (String × List Byte)) :
    (n.set_xattr x).xattr = x := rfl

theorem inode_setxattr_eq (inode : inode_t) (name : String) (value : List Byte) (size : Nat)
    (h : size ≤ value.length) :
    inode_setxattr inode name value size =
      some (inode.set_xattr (map_assign name (value.take size) inode.xattr)) := by
  unfold inode_setxattr
  rw [if_pos h]

/-- The tree after a `do_setxattr` that stores. -/
theorem do_setxattr_stores (root inode : inode_t) (vpath : List String) (name : String)
    (value : List Byte) (size : Nat) (flag : Int)
    (hres : pathname_to_inode vpath root = some inode) (hsize : size ≤ value.length)
    (h1 : ¬ (flag = XATTR_CREATE ∧ (map_find name inode.xattr).isSome = true))
    (h2 : ¬ (flag = XATTR_REPLACE ∧ map_find name inode.xattr = none)) :
    do_setxattr vpath name value size flag root =
      some (0, modify_at vpath
        (fun _ => inode.set_xattr (map_assign name (value.take size) inode.xattr)) root) := by
  have hset := inode_setxattr_eq inode name value size hsize
  unfold do_setxattr
  rw [hres]
  simp only
  by_cases hc : flag = XATTR_CREATE
  · rw [if_pos hc]
    cases hf : map_find name inode.xattr with
    | some v => exact absurd ⟨hc, by rw [hf]; rfl⟩ h1
    | none =>
      simp only
      rw [hset]
  · rw [if_neg hc]
    by_cases hr : flag = XATTR_REPLACE
    · rw [if_pos hr]
      cases hf : map_find name inode.xattr with
      | none => exact absurd ⟨hr, hf⟩ h2
      | some v =>
        simp only
        rw [hset]
    · rw [if_neg hr, hset]

theorem pathname_to_inode_after_setxattr (root inode : inode_t) (vpath : List String)
    (x : List (String × List Byte)) (hres : pathname_to_inode vpath root = some inode) :
    pathname_to_inode vpath (modify_at vpath (fun _ => inode.set_xattr x) root) =
      some (inode.set_xattr x) := by
  rw [pathname_to_inode_modify_at_self, hres]
  rfl

/-- C19: on a resolving path, with `value` holding at least `size` bytes:
`do_setxattr` with `XATTR_CREATE` and the name present returns `-EEXIST`, with
`XATTR_REPLACE` and the name absent returns `-ENODATA`, the tree (so the map)
unchanged in both cases; in every other case it returns 0, the map of the
inode afterwards sends the name to the first `size` bytes of `value` and every
other name to its old value, and nothing else of the inode changes. -/
theorem setxattr_by_flag (root inode : inode_t) (vpath : List String) (name : String)
    (value : List Byte) (size : Nat) (flag : Int)
    (hres : pathname_to_inode vpath root = some inode) (hsize : size ≤ value.length) :
    (flag = XATTR_CREATE → (map_find name inode.xattr).isSome = true →
      do_setxattr vpath name value size flag root = some (-EEXIST, root)) ∧
    (flag = XATTR_REPLACE → map_find name inode.xattr = none →
      do_setxattr vpath name value size flag root = some (-ENODATA, root)) ∧
    (¬ (flag = XATTR_CREATE ∧ (map_find name inode.xattr).isSome = true) →
      ¬ (flag = XATTR_REPLACE ∧ map_find name inode.xattr = none) →
      ∃ root' inode',
        do_setxattr vpath name value size flag root = some (0, root') ∧
        pathname_to_inode vpath root' = some inode' ∧
        map_find name inode'.xattr = some (value.take size) ∧
        (∀ y, y ≠ name → map_find y inode'.xattr = map_find y inode.xattr) ∧
        inode'.data = inode.data ∧ inode'.cur_data_size = inode.cur_data_size ∧
        inode'.dentry = inode.dentry ∧ inode'.fs_stat = inode.fs_stat) := by
  refine ⟨?_, ?_, ?_⟩
  · intro hflag hpresent
    obtain ⟨v, hv⟩ := Option.isSome_iff_exists.mp hpresent
    unfold do_setxattr
    rw [hres]
    simp only
    rw [if_pos hflag, hv]
  · intro hflag habsent
    have hne : ¬ flag = XATTR_CREATE := by rw [hflag]; decide
    unfold do_setxattr
    rw [hres]
    simp only
    rw [if_neg hne, if_pos hflag, habsent]
  · intro h1 h2
    exact ⟨_, _, do_setxattr_stores root inode vpath name value size flag hres hsize h1 h2,
      pathname_to_inode_after_setxattr root inode vpath _ hres,
      map_find_assign_self name _ _, fun y hy => map_find_assign_ne y name _ _ hy,
      rfl, rfl, rfl, rfl⟩

theorem do_getxattr_absent (root inode : inode_t) (vpath : List String) (name : String)
    (value_null : Bool) (size : Nat) (hres : pathname_to_inode vpath root = some inode)
    (h : map_find name inode.xattr = none) :
    do_getxattr vpath name value_null size root = some (-ENODATA, []) := by
  unfold do_getxattr
  rw [hres]
  simp only
  rw [h]

theorem do_removexattr_absent (root inode : inode_t) (vpath : List String) (name : String)
    (hres : pathname_to_inode vpath root = some inode)
    (h : map_find name inode.xattr = none) :
    do_removexattr vpath name root = (-ENODATA, root) := by
  unfold do_removexattr
  rw [hres]
  simp only
  rw [h]

/-- C20: on a resolving path, for every value `v` (any bytes, also none) whose
length fits `int`: `do_setxattr(name, v, flag 0)` returns 0; `do_getxattr` with
a buffer of size at least `|v|` then returns `|v|` and stores `v`;
`do_removexattr(name)` then returns 0, after which `do_getxattr(name)` returns
`-ENODATA`, every other attribute has the value it had before the set, and a
second `do_removexattr(name)` returns `-ENODATA`. -/
theorem xattr_set_get_remove (root inode : inode_t) (vpath : List String) (name : String)
    (v : List Byte) (value_null : Bool) (size : Nat)
    (hres : pathname_to_inode vpath root = some inode)
    (hint : v.length < 2 ^ 31) (hsize : v.length ≤ size)
    (hbuf : value_null = true → v = []) :
    ∃ r1 r2 inode2,
      do_setxattr vpath name v v.length 0 root = some (0, r1) ∧
      do_getxattr vpath name value_null size r1 = some ((v.length : Int), v) ∧
      do_removexattr vpath name r1 = (0, r2) ∧
      do_getxattr vpath name value_null size r2 = some (-ENODATA, []) ∧
      pathname_to_inode vpath r2 = some inode2 ∧
      (∀ y, y ≠ name → map_find y inode2.xattr = map_find y inode.xattr) ∧
      do_removexattr vpath name r2 = (-ENODATA, r2) := by
  have hset := do_setxattr_stores root inode vpath name v v.length 0 hres (le_refl _)
    (fun h => absurd h.1 (by decide)) (fun h => absurd h.1 (by decide))
  rw [List.take_length] at hset
  have hres1 := pathname_to_inode_after_setxattr root inode vpath (map_assign name v inode.xattr)
    hres
  have hfind1 : map_find name (inode.set_xattr (map_assign name v inode.xattr)).xattr = some v :=
    map_find_assign_self name v inode.xattr
  have hother1 : ∀ y, y ≠ name →
      map_find y (inode.set_xattr (map_assign name v inode.xattr)).xattr =
        map_find y inode.xattr :=
    fun y hy => map_find_assign_ne y name v inode.xattr hy
  have hres2 : pathname_to_inode vpath
      (modify_at vpath (fun n => n.set_xattr (map_erase name n.xattr))
        (modify_at vpath (fun _ => inode.set_xattr (map_assign name v inode.xattr)) root)) =
      some ((inode.set_xattr (map_assign name v inode.xattr)).set_xattr
        (map_erase name (inode.set_xattr (map_assign name v inode.xattr)).xattr)) := by
    rw [pathname_to_inode_modify_at_self, hres1]
    rfl
  have habs : map_find name ((inode.set_xattr (map_assign name v inode.xattr)).set_xattr
      (map_erase name (inode.set_xattr (map_assign name v inode.xattr)).xattr)).xattr = none := by
    rw [inode_t.xattr_set_xattr, map_find_erase_self]
  refine ⟨_, _, _, hset, ?_, ?_, do_getxattr_absent _ _ vpath name value_null size hres2 habs,
    hres2, ?_, do_removexattr_absent _ _ vpath name hres2 habs⟩
  · unfold do_getxattr
    rw [hres1]
    simp only
    rw [hfind1]
    simp only
    rw [int_cast_of_lt _ hint]
    by_cases hc : size = 0 ∧ value_null = true
    · rw [if_pos hc, hbuf hc.2]
    · rw [if_neg hc, if_neg (by omega)]
      by_cases hn : value_null = true
      · have hv := hbuf hn
        rw [if_neg (fun h => h.2 hv)]
      · rw [if_neg (fun h => hn h.1)]
  · unfold do_removexattr
    rw [hres1]
    simp only
    rw [hfind1]
  · intro y hy
    rw [inode_t.xattr_set_xattr, map_find_erase_ne y name _ hy, hother1 y hy]

/-! ## The children maps stay sorted -/

theorem tree_sorted_child (root child : inode_t) (c : String) (h : tree_sorted root)
    (hc : root.find_in_dentry c = some child) : tree_sorted child := by
  intro q n hq
  apply h (c :: q) n
  rw [pathname_to_inode_cons, hc]
  exact hq

theorem tree_sorted_intro (root : inode_t) (h0 : map_sorted root.dentry)
    (h1 : ∀ c child, root.find_in_dentry c = some child → tree_sorted child) :
    tree_sorted root := by
  intro q n hq
  cases q with
  | nil =>
    have : root = n := Option.some.inj hq
    rw [← this]
    exact h0
  | cons c t =>
    rw [pathname_to_inode_cons] at hq
    cases hf : root.find_in_dentry c with
    | none => rw [hf] at hq; exact Option.noConfusion hq
    | some child =>
      rw [hf] at hq
      exact h1 c child hf t n hq

theorem tree_sorted_of_dentry_eq (n n' : inode_t) (h : n'.dentry = n.dentry)
    (hs : tree_sorted n) : tree_sorted n' := by
  apply tree_sorted_intro
  · rw [h]; exact hs [] n rfl
  · intro c child hc
    apply tree_sorted_child n child c hs
    rw [inode_t.find_in_dentry, ← h]
    exact hc

theorem tree_sorted_modify_at (f : inode_t → inode_t)
    (hf : ∀ n, tree_sorted n → tree_sorted (f n)) (p : List String) :
    ∀ root, tree_sorted root → tree_sorted (modify_at p f root) := by
  induction p with
  | nil => intro root h; exact hf root h
  | cons c p' ih =>
    intro root h
    apply tree_sorted_intro
    · rw [modify_at_cons, inode_t.dentry_set_dentry]
      exact map_sorted_update _ _ _ (h [] root rfl)
    · intro x child hx
      by_cases hxc : x = c
      · subst hxc
        rw [find_modify_at_cons_self] at hx
        cases hfind : root.find_in_dentry x with
        | none => rw [hfind] at hx; exact Option.noConfusion hx
        | some old =>
          rw [hfind] at hx
          rw [← Option.some.inj hx]
          exact ih old (tree_sorted_child root old x h hfind)
      · rw [find_modify_at_cons_ne x c p' f root hxc] at hx
        exact tree_sorted_child root child x h hx

theorem tree_sorted_erase_entry (name : String) (n : inode_t) (h : tree_sorted n) :
    tree_sorted (erase_entry name n) := by
  apply tree_sorted_intro
  · exact map_sorted_erase name _ (h [] n rfl)
  · intro c child hc
    rcases erase_entry_find_or name n c with h1 | h1
    · rw [h1] at hc; exact Option.noConfusion hc
    · rw [h1] at hc; exact tree_sorted_child n child c h hc

theorem tree_sorted_add_dentry (name : String) (child : inode_t) (b : Bool) (n : inode_t)
    (h : tree_sorted n) (hchild : tree_sorted child) :
    tree_sorted (inode_t.add_dentry name child b n) := by
  apply tree_sorted_intro
  · exact map_sorted_emplace name _ _ (map_sorted_erase name _ (h [] n rfl))
  · intro c x hc
    by_cases hcn : c = name
    · rw [hcn, find_add_dentry_self] at hc
      rw [← Option.some.inj hc]
      exact hchild
    · rw [find_add_dentry_ne name child b n c hcn] at hc
      exact tree_sorted_child n x c h hc

theorem tree_sorted_leaf (d : List Block) (c : Nat) (s : stat) (x : List (String × List Byte)) :
    tree_sorted (inode_t.mk d c [] s x) := by
  apply tree_sorted_intro
  · simp [map_sorted]
  · intro c child hc
    exact Option.noConfusion hc

theorem tree_sorted_emplace_new_dentry (name : String) (tmpl n : inode_t)
    (h : tree_sorted n) (htmpl : tmpl.dentry = []) :
    tree_sorted (inode_t.emplace_new_dentry name tmpl n) := by
  have : inode_t.emplace_new_dentry name tmpl n =
      inode_t.add_dentry name (inode_t.mk tmpl.data 0 tmpl.dentry tmpl.fs_stat []) true n := rfl
  rw [this, htmpl]
  exact tree_sorted_add_dentry name _ true n h (tree_sorted_leaf _ _ _ _)

theorem tree_sorted_empty_root (now : timespec) : tree_sorted (empty_root now) :=
  tree_sorted_leaf _ _ _ _

theorem tree_sorted_do_mkdir (vpath : List String) (mode : Nat) (now : timespec)
    (root root' : inode_t) (r : Int) (h : tree_sorted root)
    (hrun : do_mkdir vpath mode now root = some (r, root')) : tree_sorted root' := by
  unfold do_mkdir at hrun
  cases hl : vpath.getLast? with
  | none => rw [hl] at hrun; exact Option.noConfusion hrun
  | some tag =>
    rw [hl] at hrun
    simp only at hrun
    cases hp : pathname_to_inode vpath.dropLast root with
    | none =>
      rw [hp] at hrun
      rw [← (Prod.mk.inj (Option.some.inj hrun)).2]
      exact h
    | some P =>
      rw [hp] at hrun
      rw [← (Prod.mk.inj (Option.some.inj hrun)).2]
      exact tree_sorted_modify_at _
        (fun n hn => tree_sorted_emplace_new_dentry tag (mkdir_template mode now) n hn rfl) _ root h

theorem tree_sorted_do_create (vpath : List String) (mode : Nat) (now : timespec)
    (root root' : inode_t) (r : Int) (h : tree_sorted root)
    (hrun : do_create vpath mode now root = some (r, root')) : tree_sorted root' := by
  unfold do_create at hrun
  cases hl : vpath.getLast? with
  | none => rw [hl] at hrun; exact Option.noConfusion hrun
  | some tag =>
    rw [hl] at hrun
    simp only at hrun
    cases hp : pathname_to_inode vpath.dropLast root with
    | none =>
      rw [hp] at hrun
      rw [← (Prod.mk.inj (Option.some.inj hrun)).2]
      exact h
    | some P =>
      rw [hp] at hrun
      rw [← (Prod.mk.inj (Option.some.inj hrun)).2]
      exact tree_sorted_modify_at _
        (fun n hn => tree_sorted_emplace_new_dentry tag (create_template mode now) n hn rfl) _ root h

theorem tree_sorted_do_mknod (vpath : List String) (mode device : Nat) (now : timespec)
    (root root' : inode_t) (r : Int) (h : tree_sorted root)
    (hrun : do_mknod vpath mode device now root = some (r, root')) : tree_sorted root' := by
  unfold do_mknod at hrun
  cases hl : vpath.getLast? with
  | none => rw [hl] at hrun; exact Option.noConfusion hrun
  | some tag =>
    rw [hl] at hrun
    simp only at hrun
    cases hp : pathname_to_inode vpath.dropLast root with
    | none =>
      rw [hp] at hrun
      rw [← (Prod.mk.inj (Option.some.inj hrun)).2]
      exact h
    | some P =>
      rw [hp] at hrun
      rw [← (Prod.mk.inj (Option.some.inj hrun)).2]
      exact tree_sorted_modify_at _
        (fun n hn => tree_sorted_emplace_new_dentry tag (mknod_template mode device now) n hn rfl) _ root h

theorem del_dentry_some (name : String) (b : Bool) (n n' : inode_t)
    (h : n.del_dentry name b = some n') : n' = erase_entry name n := by
  unfold inode_t.del_dentry at h
  cases hf : map_find name n.dentry with
  | none => rw [hf] at h; exact Option.noConfusion h
  | some e =>
    rw [hf] at h
    exact (Option.some.inj h).symm

theorem tree_sorted_do_unlink (vpath : List String) (root : inode_t) (h : tree_sorted root) :
    tree_sorted (do_unlink vpath root).2 := by
  unfold do_unlink
  cases hl : vpath.getLast? with
  | none => exact h
  | some tag =>
    simp only
    cases hp : pathname_to_inode vpath.dropLast root with
    | none => exact h
    | some P =>
      simp only
      cases hd : P.del_dentry tag false with
      | none => exact h
      | some P' =>
        simp only
        rw [del_dentry_some tag false P P' hd]
        exact tree_sorted_modify_at _
          (fun _ _ => tree_sorted_erase_entry tag P (fun q n hq =>
            h (vpath.dropLast ++ q) n (by rw [pathname_to_inode_append, hp]; exact hq))) _ root h

theorem tree_sorted_do_rmdir (vpath : List String) (root : inode_t) (h : tree_sorted root) :
    tree_sorted (do_rmdir vpath root).2 := by
  unfold do_rmdir
  cases hl : vpath.getLast? with
  | none => exact h
  | some tag =>
    simp only
    cases hp : pathname_to_inode vpath.dropLast root with
    | none => exact h
    | some P =>
      simp only
      cases hf : P.find_in_dentry tag with
      | none => exact h
      | some target =>
        simp only
        by_cases h1 : target.fs_stat.st_mode &&& S_IFDIR = 0
        · rw [if_pos h1]; exact h
        · rw [if_neg h1]
          by_cases h2 : ¬ (target.dentry.isEmpty = true)
          · rw [if_pos h2]; exact h
          · rw [if_neg h2]
            cases hd : P.del_dentry tag false with
            | none => exact h
            | some P' =>
              simp only
              rw [del_dentry_some tag false P P' hd]
              exact tree_sorted_modify_at _
                (fun _ _ => tree_sorted_erase_entry tag P (fun q n hq =>
                  h (vpath.dropLast ++ q) n (by rw [pathname_to_inode_append, hp]; exact hq)))
                _ root h

theorem tree_sorted_set_ctim (now : timespec) (n : inode_t) (h : tree_sorted n) :
    tree_sorted (set_ctim now n) :=
  tree_sorted_of_dentry_eq n _ (by cases n; rfl) h

theorem tree_sorted_do_rename (vsrc vdst : List String) (now : timespec)
    (root root' : inode_t) (r : Int) (h : tree_sorted root)
    (hrun : do_rename vsrc vdst now root = some (r, root')) : tree_sorted root' := by
  unfold do_rename at hrun
  cases hl1 : vsrc.getLast? with
  | none => rw [hl1] at hrun; exact Option.noConfusion hrun
  | some sn =>
    cases hl2 : vdst.getLast? with
    | none => rw [hl1, hl2] at hrun; exact Option.noConfusion hrun
    | some dn =>
      rw [hl1, hl2] at hrun
      simp only at hrun
      cases hp : pathname_to_inode vsrc.dropLast root with
      | none =>
        rw [hp] at hrun
        rw [← (Prod.mk.inj (Option.some.inj hrun)).2]
        exact h
      | some P =>
        rw [hp] at hrun
        simp only at hrun
        cases hq : pathname_to_inode vdst.dropLast root with
        | none =>
          rw [hq] at hrun
          rw [← (Prod.mk.inj (Option.some.inj hrun)).2]
          exact h
        | some D =>
          rw [hq] at hrun
          simp only at hrun
          cases hf : P.find_in_dentry sn with
          | none =>
            rw [hf] at hrun
            rw [← (Prod.mk.inj (Option.some.inj hrun)).2]
            exact h
          | some node =>
            rw [hf] at hrun
            simp only at hrun
            have hPs : tree_sorted P := fun q n hqn =>
              h (vsrc.dropLast ++ q) n (by rw [pathname_to_inode_append, hp]; exact hqn)
            cases hd : P.del_dentry sn true with
            | none =>
              rw [hd] at hrun
              rw [← (Prod.mk.inj (Option.some.inj hrun)).2]
              exact h
            | some P' =>
              rw [hd] at hrun
              rw [← (Prod.mk.inj (Option.some.inj hrun)).2, del_dentry_some sn true P P' hd]
              apply tree_sorted_modify_at
              · intro n hn
                exact tree_sorted_add_dentry dn _ true n hn
                  (tree_sorted_set_ctim now node (tree_sorted_child P node sn hPs hf))
              · exact tree_sorted_modify_at _
                  (fun _ _ => tree_sorted_erase_entry sn P hPs) _ root h

theorem write_dentry (fresh : Nat → Block) (inode n' : inode_t) (buffer : List Byte)
    (length offset r : Nat) (h : inode.write fresh buffer length offset = some (r, n')) :
    n'.dentry = inode.dentry := by
  obtain ⟨d, c, de, s, x⟩ := inode
  unfold inode_t.write at h
  simp only [inode_t.data, inode_t.cur_data_size, inode_t.dentry, inode_t.fs_stat,
    inode_t.xattr] at h
  by_cases hg : offset + length > c
  · simp only [if_pos hg] at h
    cases hw : write_buffer fresh buffer length offset
        (fill_buffer fresh (offset + length - c) d).1 with
    | none => rw [hw] at h; exact Option.noConfusion h
    | some p =>
      rw [hw] at h
      rw [← (Prod.mk.inj (Option.some.inj h)).2]
      rfl
  · simp only [if_neg hg] at h
    cases hw : write_buffer fresh buffer length offset d with
    | none => rw [hw] at h; exact Option.noConfusion h
    | some p =>
      rw [hw] at h
      rw [← (Prod.mk.inj (Option.some.inj h)).2]
      rfl

theorem tree_sorted_do_symlink (fresh : Nat → Block) (vpath : List String)
    (linkname : List Byte) (now : timespec) (root root' : inode_t) (r : Int)
    (h : tree_sorted root)
    (hrun : do_symlink fresh vpath linkname now root = some (r, root')) : tree_sorted root' := by
  unfold do_symlink at hrun
  cases hl : vpath.getLast? with
  | none => rw [hl] at hrun; exact Option.noConfusion hrun
  | some tag =>
    rw [hl] at hrun
    simp only at hrun
    cases hp : pathname_to_inode vpath.dropLast root with
    | none =>
      rw [hp] at hrun
      rw [← (Prod.mk.inj (Option.some.inj hrun)).2]
      exact h
    | some P =>
      rw [hp] at hrun
      simp only at hrun
      cases hw : (symlink_template now).write fresh linkname linkname.length 0 with
      | none => rw [hw] at hrun; exact Option.noConfusion hrun
      | some p =>
        obtain ⟨k, new_inode⟩ := p
        rw [hw] at hrun
        rw [← (Prod.mk.inj (Option.some.inj hrun)).2]
        exact tree_sorted_modify_at _
          (fun n hn => tree_sorted_emplace_new_dentry tag new_inode n hn
            (write_dentry fresh _ new_inode linkname _ 0 k hw)) _ root h

/-! ## Instances of the theorems on directories and extended attributes -/

/-- Witness for C11: `mkdir /a` on the empty file system. -/
theorem mkdir_makes_empty_directory_witness :
    pathname_to_inode [] (empty_root {}) = some (empty_root {}) ∧
    ∃ (root' n : inode_t),
      do_mkdir ([] ++ ["a"]) 0o755 {} (empty_root {}) = some (0, root') ∧
      do_getattr ([] ++ ["a"]) {} root' = (0, n.fs_stat) ∧
      n.fs_stat.st_mode = 0o755 ||| S_IFDIR ∧ n.dentry = [] ∧ n.cur_data_size = 0 := by
  refine ⟨rfl, ?_⟩
  obtain ⟨root', n, _, h1, h2, _, h4, _, _, h7, h8, _⟩ :=
    mkdir_makes_empty_directory (empty_root {}) (empty_root {}) [] "a" 0o755 {} {} rfl
  exact ⟨root', n, h1, h2, h4, h7, h8⟩

/-- Witness for C14: `rmdir /a` in the tree `/a/x`. -/
theorem rmdir_nonempty_directory_witness :
    pathname_to_inode [] tree_a_x = some tree_a_x ∧
    tree_a_x.find_in_dentry "a" = some (dir_inode [("x", ⟨true, dir_inode []⟩)]) ∧
    (dir_inode [("x", ⟨true, dir_inode []⟩)]).fs_stat.st_mode &&& S_IFMT = S_IFDIR ∧
    (dir_inode [("x", ⟨true, dir_inode []⟩)]).dentry ≠ [] ∧
    do_rmdir ([] ++ ["a"]) tree_a_x = (-ENOTEMPTY, tree_a_x) :=
  ⟨rfl, rfl, by decide, fun h => List.noConfusion h,
    (rmdir_nonempty_directory tree_a_x tree_a_x (dir_inode [("x", ⟨true, dir_inode []⟩)]) []
      "a" rfl rfl (by decide) (fun h => List.noConfusion h)).1⟩

/-- Witness for C15: `mkdir /a` then `rmdir /a` on the empty file system. -/
theorem mkdir_then_rmdir_witness :
    pathname_to_inode [] (empty_root {}) = some (empty_root {}) ∧
    (empty_root {}).find_in_dentry "a" = none ∧
    ∃ root',
      do_mkdir ([] ++ ["a"]) 0o755 {} (empty_root {}) = some (0, root') ∧
      do_rmdir ([] ++ ["a"]) root' = (0, empty_root {}) ∧
      do_getattr ([] ++ ["a"]) {} (empty_root {}) = (-ENOENT, {}) := by
  refine ⟨rfl, rfl, ?_⟩
  obtain ⟨root', h1, h2, h3, _⟩ :=
    mkdir_then_rmdir (empty_root {}) (empty_root {}) [] "a" 0o755 {} {} rfl rfl
  exact ⟨root', h1, h2, h3⟩

/-- Witness for C16: `unlink /a` in the tree holding the regular file `/a`. -/
theorem unlink_removes_entry_witness :
    pathname_to_inode [] tree_file_a = some tree_file_a ∧
    do_unlink (stmpfs_pathname_t "/") tree_file_a = (-EISDIR, tree_file_a) ∧
    (∃ root',
      do_unlink ([] ++ ["a"]) tree_file_a = (0, root') ∧
      do_getattr ([] ++ ["a"]) {} root' = (-ENOENT, {})) := by
  refine ⟨rfl, ?_⟩
  obtain ⟨h0, h1, _⟩ := unlink_removes_entry tree_file_a tree_file_a [] "a" {} rfl
  obtain ⟨root', _, h2, h3, _⟩ := h1 (create_template 0o100644 {}) rfl
  exact ⟨h0, root', h2, h3⟩

/-- Witness for C18: `readdir /` after `mkdir /b` and `mkdir /a`, in this
order, on the empty file system. -/
theorem readdir_emits_names_in_order_witness :
    (do_mkdir ["b"] 0o755 {} (empty_root {})).bind
        (fun r => (do_mkdir ["a"] 0o755 {} r.2).map Prod.snd) = some tree_mkdir_b_a ∧
    pathname_to_inode [] tree_mkdir_b_a = some tree_mkdir_b_a ∧
    tree_sorted tree_mkdir_b_a ∧
    tree_mkdir_b_a.dentry.map Prod.fst = ["a", "b"] ∧
    do_readdir [] {} tree_mkdir_b_a =
      (0, [".", ".."] ++ tree_mkdir_b_a.dentry.map Prod.fst,
        modify_at [] (set_atim {}) tree_mkdir_b_a) :=
  ⟨rfl, rfl,
    tree_sorted_emplace_new_dentry "a" (mkdir_template 0o755 {}) _
      (tree_sorted_emplace_new_dentry "b" (mkdir_template 0o755 {}) _
        (tree_sorted_empty_root {}) rfl) rfl,
    by decide,
    (readdir_emits_names_in_order tree_mkdir_b_a tree_mkdir_b_a [] {} rfl
      (tree_sorted_emplace_new_dentry "a" (mkdir_template 0o755 {}) _
        (tree_sorted_emplace_new_dentry "b" (mkdir_template 0o755 {}) _
          (tree_sorted_empty_root {}) rfl) rfl)).1⟩

/-- Witness for C19: the first two of three bytes set as `user.k` on the
file `/a`, with flag 0. -/
theorem setxattr_by_flag_witness :
    pathname_to_inode ["a"] tree_file_a = some (create_template 0o100644 {}) ∧
    2 ≤ [(1 : Byte), 2, 3].length ∧
    ∃ root' inode',
      do_setxattr ["a"] "user.k" [1, 2, 3] 2 0 tree_file_a = some (0, root') ∧
      pathname_to_inode ["a"] root' = some inode' ∧
      map_find "user.k" inode'.xattr = some ([(1 : Byte), 2, 3].take 2) := by
  refine ⟨rfl, by decide, ?_⟩
  obtain ⟨root', inode', h1, h2, h3, _⟩ :=
    (setxattr_by_flag tree_file_a (create_template 0o100644 {}) ["a"] "user.k" [1, 2, 3] 2 0
      rfl (by decide)).2.2 (fun h => absurd h.1 (by decide)) (fun h => absurd h.1 (by decide))
  exact ⟨root', inode', h1, h2, h3⟩

/-- Witness for C20: a value with NUL bytes set, read back and removed on the
file `/a`. -/
theorem xattr_set_get_remove_witness :
    pathname_to_inode ["a"] tree_file_a = some (create_template 0o100644 {}) ∧
    [(0 : Byte), 1, 0].length < 2 ^ 31 ∧ [(0 : Byte), 1, 0].length ≤ 3 ∧
    (false = true → [(0 : Byte), 1, 0] = []) ∧
    ∃ r1 r2,
      do_setxattr ["a"] "user.k" [0, 1, 0] [(0 : Byte), 1, 0].length 0 tree_file_a =
        some (0, r1) ∧
      do_getxattr ["a"] "user.k" false 3 r1 =
        some (([(0 : Byte), 1, 0].length : Int), [0, 1, 0]) ∧
      do_removexattr ["a"] "user.k" r1 = (0, r2) ∧
      do_getxattr ["a"] "user.k" false 3 r2 = some (-ENODATA, []) ∧
      do_removexattr ["a"] "user.k" r2 = (-ENODATA, r2) := by
  refine ⟨rfl, by decide, by decide, fun h => Bool.noConfusion h, ?_⟩
  obtain ⟨r1, r2, _, h1, h2, h3, h4, _, _, h7⟩ :=
    xattr_set_get_remove tree_file_a (create_template 0o100644 {}) ["a"] "user.k" [0, 1, 0]
      false 3 rfl (by decide) (by decide) (fun h => Bool.noConfusion h)
  exact ⟨r1, r2, h1, h2, h3, h4, h7⟩

/-! ## The path parser -/

theorem split_components_append_slash (a b : List Char) :
    ∀ cur, split_components (a ++ '/' :: b) cur =
      split_components a cur ++ split_components b [] := by
  induction a with
  | nil => intro cur; simp [split_components]
  | cons c a' ih =>
    intro cur
    by_cases hc : c = '/'
    · simp [split_components, hc, ih]
    · simp [split_components, hc, ih]

theorem split_components_no_slash (w : List Char) (hw : '/' ∉ w) :
    ∀ cur, split_components w cur = [String.mk (cur ++ w)] := by
  induction w with
  | nil => intro cur; simp [split_components]
  | cons c w' ih =>
    intro cur
    have hc : c ≠ '/' := fun h => hw (by simp [h])
    have hw' : '/' ∉ w' := fun h => hw (List.mem_cons_of_mem _ h)
    simp [split_components, hc, ih hw']

theorem split_components_length (l : List Char) :
    ∀ cur, (split_components l cur).length = l.count '/' + 1 := by
  induction l with
  | nil => intro cur; simp [split_components]
  | cons c l' ih =>
    intro cur
    by_cases hc : c = '/'
    · simp [split_components, hc, ih]
    · have hc' : ¬ (c == '/') = true := by simpa using hc
      simp [split_components, hc, ih, List.count_cons, hc']

theorem split_components_slash_free (l : List Char) :
    ∀ cur, '/' ∉ cur → ∀ c ∈ split_components l cur, '/' ∉ c.toList := by
  induction l with
  | nil =>
    intro cur hcur c hc
    simp [split_components] at hc
    rw [hc]
    exact hcur
  | cons x l' ih =>
    intro cur hcur c hc
    by_cases hx : x = '/'
    · simp [split_components, hx] at hc
      rcases hc with hc | hc
      · rw [hc]; exact hcur
      · exact ih [] (by simp) c hc
    · simp only [split_components, if_neg hx] at hc
      refine ih (cur ++ [x]) ?_ c hc
      intro h
      rcases List.mem_append.mp h with h | h
      · exact hcur h
      · exact hx (List.mem_singleton.mp h).symm

theorem intercalate_cons_cons (sep a b : List Char) (t : List (List Char)) :
    List.intercalate sep (a :: b :: t) = a ++ sep ++ List.intercalate sep (b :: t) := by
  simp [List.intercalate, List.intersperse]

theorem split_components_join (l : List Char) :
    ∀ cur, List.intercalate ['/'] ((split_components l cur).map String.toList) = cur ++ l := by
  induction l with
  | nil => intro cur; simp [split_components, List.intercalate, List.intersperse]
  | cons c l' ih =>
    intro cur
    by_cases hc : c = '/'
    · have hlen := split_components_length l' []
      cases hs : split_components l' [] with
      | nil => rw [hs] at hlen; simp at hlen
      | cons b t =>
        have ih' := ih []
        rw [hs] at ih'
        simp only [split_components, hc, if_true, List.map_cons, hs]
        rw [intercalate_cons_cons]
        simp only [List.map_cons] at ih'
        rw [ih']
        simp
    · simp only [split_components, if_neg hc]
      rw [ih]
      simp

theorem split_components_of_join (cs : List String) (hne : cs ≠ [])
    (hc : ∀ c ∈ cs, '/' ∉ c.toList) :
    split_components (List.intercalate ['/'] (cs.map String.toList)) [] = cs := by
  induction cs with
  | nil => exact absurd rfl hne
  | cons c t ih =>
    cases t with
    | nil =>
      have h := split_components_no_slash c.toList (hc c (by simp)) []
      simpa [List.intercalate, List.intersperse] using h
    | cons c' t' =>
      rw [List.map_cons, List.map_cons, intercalate_cons_cons, List.append_assoc]
      have h1 : ['/'] ++ List.intercalate ['/'] (c'.toList :: List.map String.toList t') =
          '/' :: List.intercalate ['/'] (List.map String.toList (c' :: t')) := by simp
      rw [h1, split_components_append_slash, split_components_no_slash c.toList (hc c (by simp)),
        ih (by simp) (fun x hx => hc x (List.mem_cons_of_mem _ hx))]
      simp

theorem pathname_t_of_body (body : List Char) (hbody : body ≠ []) :
    pathname_t (String.mk ('/' :: body)) = split_components body [] := by
  have hne : (String.mk ('/' :: body)) ≠ "/" := by
    intro h
    have h2 := congrArg String.toList h
    simp at h2
    exact hbody h2
  unfold pathname_t
  rw [if_neg hne]
  have hd : ¬ (deref_end body = '/') := by unfold deref_end; decide
  simp [hd]

theorem join_components_toList_ne_nil (cs : List String) (hne : cs ≠ [])
    (hc : ∀ c ∈ cs, c ≠ "" ∧ '/' ∉ c.toList) : (join_components cs).toList ≠ [] := by
  cases cs with
  | nil => exact absurd rfl hne
  | cons c t =>
    have hcne : c.toList ≠ [] := by
      intro h
      apply (hc c (by simp)).1
      exact String.ext h
    cases t with
    | nil => simpa [join_components, List.intercalate, List.intersperse] using hcne
    | cons c' t' =>
      simp only [join_components, List.map_cons]
      rw [intercalate_cons_cons]
      simp [hcne]

/-- C23: for a non-empty list `cs` of non-empty strings without `/`, the
parser of `pathname.cpp` turns `"/"` followed by the members of `cs` joined
with `/` into exactly `cs`. -/
theorem parser_yields_components (cs : List String) (hne : cs ≠ [])
    (hc : ∀ c ∈ cs, c ≠ "" ∧ '/' ∉ c.toList) :
    pathname_t ("/" ++ join_components cs) = cs := by
  have h : "/" ++ join_components cs = String.mk ('/' :: (join_components cs).toList) := by
    apply String.ext
    simp
  rw [h, pathname_t_of_body _ (join_components_toList_ne_nil cs hne hc)]
  exact split_components_of_join cs hne (fun c hcm => (hc c hcm).2)

/-- C24 does not hold of the parser of `pathname.cpp`: for a non-empty list
`cs` of non-empty strings without `/`, the string `"/"`, the members of `cs`
joined with `/`, and a final `/` is parsed to `cs` followed by an empty
component, not to `cs`; the final `/` is not stripped. -/
theorem parser_keeps_trailing_slash (cs : List String) (hne : cs ≠ [])
    (hc : ∀ c ∈ cs, c ≠ "" ∧ '/' ∉ c.toList) :
    pathname_t ("/" ++ join_components cs ++ "/") = cs ++ [""] ∧
    pathname_t ("/" ++ join_components cs ++ "/") ≠ cs := by
  have h : "/" ++ join_components cs ++ "/" =
      String.mk ('/' :: ((join_components cs).toList ++ '/' :: [])) := by
    apply String.ext
    simp
  have h1 : pathname_t ("/" ++ join_components cs ++ "/") = cs ++ [""] := by
    rw [h, pathname_t_of_body _ (by simp), split_components_append_slash]
    have h2 := split_components_of_join cs hne (fun c hcm => (hc c hcm).2)
    have h7 : (join_components cs).toList =
        List.intercalate ['/'] (cs.map String.toList) := rfl
    rw [h7, h2]
    rfl
  refine ⟨h1, ?_⟩
  rw [h1]
  intro h5
  have h6 := congrArg List.length h5
  simp at h6

/-- C25: the parser of `pathname.cpp` keeps every component.  For a string
`s` other than `"/"`, with `body` the string without its one leading `/`: the
parsed sequence has one component more than `body` has `/`, no component
contains `/`, and the components joined with `/` give `body`.  The string
`"/a//b"` is parsed to `a`, the empty string and `b`; `"/"` to the empty
sequence. -/
theorem parser_preserves_components (s : String) (hs : s ≠ "/") :
    (∃ body : List Char,
      (s.toList = '/' :: body ∨ (s.toList = body ∧ s.toList.head? ≠ some '/')) ∧
      (pathname_t s).length = body.count '/' + 1 ∧
      (∀ c ∈ pathname_t s, '/' ∉ c.toList) ∧
      (join_components (pathname_t s)).toList = body) ∧
    pathname_t "/a//b" = ["a", "", "b"] ∧ pathname_t "/" = [] := by
  refine ⟨?_, by decide, by decide⟩
  have key : ∀ body : List Char, pathname_t s = split_components body [] →
      (pathname_t s).length = body.count '/' + 1 ∧
      (∀ c ∈ pathname_t s, '/' ∉ c.toList) ∧
      (join_components (pathname_t s)).toList = body := by
    intro body hb
    rw [hb]
    refine ⟨split_components_length body [], split_components_slash_free body [] (by simp), ?_⟩
    simp only [join_components]
    rw [split_components_join]
    rfl
  have hd : ∀ l : List Char, ¬ (deref_end l = '/') := fun l => by unfold deref_end; decide
  cases hl : s.toList with
  | nil =>
    refine ⟨[], Or.inr ⟨rfl, by simp⟩, key [] ?_⟩
    unfold pathname_t
    rw [if_neg hs, hl]
    simp
  | cons c rest =>
    by_cases hc : c = '/'
    · refine ⟨rest, Or.inl (by rw [hc]), key rest ?_⟩
      unfold pathname_t
      rw [if_neg hs, hl]
      simp [hc, hd]
    · refine ⟨c :: rest, Or.inr ⟨rfl, by simpa using hc⟩, key (c :: rest) ?_⟩
      unfold pathname_t
      rw [if_neg hs, hl]
      simp [hc, hd]

/-! ## The method emplace_new_dentry -/

section EmplaceCount

variable {β : Type}

theorem map_keys_erase_not_mem (name : String) (m : List (String × β)) :
    name ∉ (map_erase name m).map Prod.fst := by
  simp only [map_erase, List.mem_map, List.mem_filter]
  rintro ⟨e, ⟨_, he⟩, hx⟩
  simp at he
  exact he hx

theorem map_keys_count_emplace (name : String) (v : β) (m : List (String × β))
    (h : name ∉ m.map Prod.fst) : ((map_emplace name v m).map Prod.fst).count name = 1 := by
  induction m with
  | nil => simp [map_emplace]
  | cons e rest ih =>
    obtain ⟨k, w⟩ := e
    have hk : k ≠ name := fun hk => h (by simp [hk])
    have hrest : name ∉ rest.map Prod.fst := fun hr => h (by simp at hr ⊢; exact Or.inr hr)
    have hk' : ¬ (k == name) = true := by simpa using hk
    rw [map_emplace_cons]
    by_cases hlt : key_lt name k = true
    · rw [if_pos hlt]
      have h0 : ((k, w) :: rest).map Prod.fst = k :: rest.map Prod.fst := rfl
      simp only [List.map_cons, List.count_cons_self]
      rw [← List.map_cons Prod.fst (k, w) rest, List.count_eq_zero_of_not_mem h]
    · rw [if_neg hlt, if_neg hk]
      simp only [List.map_cons, List.count_cons, hk', if_false, Nat.add_zero]
      exact ih hrest

end EmplaceCount

/-- C26, as stated, fails: a template with one extended attribute, emplaced
under `f` in an empty directory, gives a child without extended attributes. -/
theorem emplaced_child_has_no_xattr :
    ((create_template 0o100644 {}).set_xattr [("user.k", [1])]).xattr = [("user.k", [1])] ∧
    ((inode_t.emplace_new_dentry "f"
        ((create_template 0o100644 {}).set_xattr [("user.k", [1])]) (empty_root {})).find_in_dentry
      "f").map inode_t.xattr = some [] := by
  constructor <;> rfl

/-- C26, amended: after `d.emplace_new_dentry(name, t)` the directory has
exactly one entry of that name, whether or not it had one before; every other
entry is as before; the child found under the name has the stat record of `t`
and an empty attribute map, whatever the attribute map of `t` is. -/
theorem emplace_new_dentry_entry (d t : inode_t) (name : String) :
    ((inode_t.emplace_new_dentry name t d).dentry.map Prod.fst).count name = 1 ∧
    (∃ child, (inode_t.emplace_new_dentry name t d).find_in_dentry name = some child ∧
      child.fs_stat = t.fs_stat ∧ child.xattr = []) ∧
    (∀ x, x ≠ name →
      map_find x (inode_t.emplace_new_dentry name t d).dentry = map_find x d.dentry) := by
  refine ⟨?_, ⟨_, find_emplace_new_dentry_self name t d, rfl, rfl⟩,
    fun x hx => map_find_emplace_new_dentry_ne name x t d hx⟩
  rw [inode_t.emplace_new_dentry, inode_t.dentry_set_dentry]
  exact map_keys_count_emplace name _ _ (map_keys_erase_not_mem name d.dentry)

/-- C27 does not hold of `emplace_new_dentry`: the new child has the data
blocks of the template but `cur_data_size` 0, so every `read` on it returns 0
and stores nothing; the template `file_hello` of five bytes returns them, its
emplaced copy returns none. -/
theorem emplaced_child_reads_nothing :
    (∀ (d t : inode_t) (name : String) (len offset : Nat),
      ∃ child, (inode_t.emplace_new_dentry name t d).find_in_dentry name = some child ∧
        child.data = t.data ∧ child.cur_data_size = 0 ∧
        child.read len offset = some (0, [])) ∧
    file_hello.read 5 0 = some (5, c_str "hello") ∧
    ((inode_t.emplace_new_dentry "f" file_hello (empty_root {})).find_in_dentry "f").bind
      (fun child => child.read 5 0) = some (0, []) := by
  refine ⟨fun d t name len offset =>
    ⟨_, find_emplace_new_dentry_self name t d, rfl, rfl, rfl⟩, by decide, by decide⟩

/-! ## The method count_inode and statfs -/

theorem count_inode_loop_eq_sum (l : List (String × dentry_t inode_t)) :
    ∀ count, count_inode_loop l count =
      count + (l.map (fun i => count_inode i.2.inode)).sum := by
  induction l with
  | nil => intro count; simp [count_inode_loop]
  | cons e rest ih =>
    intro count
    obtain ⟨k, i⟩ := e
    rw [count_inode_loop, ih]
    simp
    omega

theorem count_inode_eq (n : inode_t) :
    count_inode n = 1 + (n.dentry.map (fun i => count_inode i.2.inode)).sum := by
  obtain ⟨d, c, de, s, x⟩ := n
  rw [count_inode, count_inode_loop_eq_sum]
  simp only [inode_t.dentry]
  omega

mutual
theorem count_inode_eq_length : ∀ n : inode_t, count_inode n = (subtree_paths n).length
  | inode_t.mk _ _ dentry _ _ => by
    rw [count_inode, subtree_paths, count_inode_loop_eq_length dentry 0]
    simp
theorem count_inode_loop_eq_length : ∀ (l : List (String × dentry_t inode_t)) (count : Nat),
    count_inode_loop l count = count + (subtree_paths_loop l).length
  | [], count => by simp [count_inode_loop, subtree_paths_loop]
  | (name, i) :: rest, count => by
    rw [count_inode_loop, subtree_paths_loop, count_inode_loop_eq_length rest,
      count_inode_eq_length i.inode]
    simp
    omega
end

theorem subtree_paths_eq (n : inode_t) :
    subtree_paths n = [] :: subtree_paths_loop n.dentry := by
  obtain ⟨d, c, de, s, x⟩ := n
  rw [subtree_paths]
  rfl

theorem mem_subtree_paths_loop (l : List (String × dentry_t inode_t)) (q : List String) :
    q ∈ subtree_paths_loop l ↔
      ∃ c i r, (c, i) ∈ l ∧ q = c :: r ∧ r ∈ subtree_paths i.inode := by
  induction l with
  | nil => simp [subtree_paths_loop]
  | cons e rest ih =>
    obtain ⟨k, j⟩ := e
    rw [subtree_paths_loop, List.mem_append, ih]
    constructor
    · rintro (h | ⟨c, i, r, hm, hq, hr⟩)
      · obtain ⟨r, hr, hq⟩ := List.mem_map.mp h
        exact ⟨k, j, r, by simp, hq.symm, hr⟩
      · exact ⟨c, i, r, List.mem_cons_of_mem _ hm, hq, hr⟩
    · rintro ⟨c, i, r, hm, hq, hr⟩
      rcases List.mem_cons.mp hm with h | h
      · left
        have h1 : c = k := congrArg Prod.fst h
        have h2 : i = j := congrArg Prod.snd h
        rw [hq, h1]
        rw [h2] at hr
        exact List.mem_map.mpr ⟨r, hr, rfl⟩
      · right
        exact ⟨c, i, r, h, hq, hr⟩

theorem map_find_eq_some_iff_mem {β : Type} (m : List (String × β)) (hs : map_sorted m)
    (c : String) (v : β) : map_find c m = some v ↔ (c, v) ∈ m := by
  induction m with
  | nil => simp [map_find]
  | cons e rest ih =>
    obtain ⟨k, w⟩ := e
    have hs' : map_sorted rest := by
      unfold map_sorted at hs ⊢
      exact (List.pairwise_cons.mp hs).2
    have hnd := map_sorted_nodup _ hs
    rw [map_find_cons]
    by_cases hk : k = c
    · rw [if_pos hk]
      constructor
      · intro h
        rw [← Option.some.inj h, hk]
        exact List.mem_cons_self _ _
      · intro h
        rcases List.mem_cons.mp h with h | h
        · rw [(Prod.mk.inj h).2]
        · exfalso
          have hn : k ∉ rest.map Prod.fst := (List.nodup_cons.mp hnd).1
          exact hn (List.mem_map.mpr ⟨(c, v), h, hk.symm⟩)
    · rw [if_neg hk, ih hs']
      constructor
      · intro h; exact List.mem_cons_of_mem _ h
      · intro h
        rcases List.mem_cons.mp h with h | h
        · exact absurd (Prod.mk.inj h).1.symm hk
        · exact h

theorem mem_subtree_paths_iff (q : List String) :
    ∀ n : inode_t, tree_sorted n →
      (q ∈ subtree_paths n ↔ (pathname_to_inode q n).isSome = true) := by
  induction q with
  | nil =>
    intro n _
    rw [subtree_paths_eq]
    simp [pathname_to_inode]
  | cons c r ih =>
    intro n hn
    rw [subtree_paths_eq, List.mem_cons, mem_subtree_paths_loop, pathname_to_inode_cons]
    have hsorted : map_sorted n.dentry := hn [] n rfl
    constructor
    · rintro (h | ⟨c', i, r', hm, hq, hr⟩)
      · exact absurd h (by simp)
      · obtain ⟨h1, h2⟩ := List.cons.inj hq
        subst h1 h2
        have hf : n.find_in_dentry c = some i.inode := by
          rw [inode_t.find_in_dentry, (map_find_eq_some_iff_mem _ hsorted c i).mpr hm]
          rfl
        rw [hf]
        exact (ih i.inode (tree_sorted_child n i.inode c hn hf)).mp hr
    · intro h
      right
      cases hf : n.find_in_dentry c with
      | none => rw [hf] at h; exact absurd h (by simp)
      | some child =>
        rw [hf] at h
        rw [inode_t.find_in_dentry] at hf
        cases hm : map_find c n.dentry with
        | none => rw [hm] at hf; exact Option.noConfusion hf
        | some i =>
          rw [hm] at hf
          have hi : i.inode = child := Option.some.inj hf
          refine ⟨c, i, r, (map_find_eq_some_iff_mem _ hsorted c i).mp hm, rfl, ?_⟩
          rw [hi]
          exact (ih child (tree_sorted_child n child c hn
            (by rw [inode_t.find_in_dentry, hm]; exact congrArg some hi))).mpr h

theorem subtree_paths_loop_heads (l : List (String × dentry_t inode_t)) (q : List String)
    (h : q ∈ subtree_paths_loop l) : ∃ c r, q = c :: r ∧ c ∈ l.map Prod.fst := by
  obtain ⟨c, i, r, hm, hq, _⟩ := (mem_subtree_paths_loop l q).mp h
  exact ⟨c, r, hq, List.mem_map.mpr ⟨(c, i), hm, rfl⟩⟩

mutual
theorem subtree_paths_nodup : ∀ n : inode_t, tree_sorted n → (subtree_paths n).Nodup
  | inode_t.mk d c dentry s x => by
    intro hn
    rw [subtree_paths, List.nodup_cons]
    constructor
    · intro h
      obtain ⟨c, r, hq, _⟩ := subtree_paths_loop_heads dentry [] h
      exact List.noConfusion hq
    · exact subtree_paths_loop_nodup dentry (hn [] _ rfl)
        (fun k i hm => tree_sorted_child _ i.inode k hn
          (by
            rw [inode_t.find_in_dentry]
            simp only [inode_t.dentry]
            rw [(map_find_eq_some_iff_mem dentry (hn [] _ rfl) k i).mpr hm]
            rfl))
theorem subtree_paths_loop_nodup : ∀ (l : List (String × dentry_t inode_t)),
    map_sorted l → (∀ k i, (k, i) ∈ l → tree_sorted i.inode) → (subtree_paths_loop l).Nodup
  | [], _, _ => by simp [subtree_paths_loop]
  | (name, i) :: rest, hs, hall => by
    have hs' : map_sorted rest := by
      unfold map_sorted at hs ⊢
      exact (List.pairwise_cons.mp hs).2
    have hnd := map_sorted_nodup _ hs
    have hname : name ∉ rest.map Prod.fst := (List.nodup_cons.mp hnd).1
    rw [subtree_paths_loop, List.nodup_append]
    refine ⟨?_, subtree_paths_loop_nodup rest hs'
      (fun k j hm => hall k j (List.mem_cons_of_mem _ hm)), ?_⟩
    · apply List.Nodup.map
      · intro a b hab
        exact (List.cons.inj hab).2
      · exact subtree_paths_nodup i.inode (hall name i (List.mem_cons_self _ _))
    · intro q hq1 hq2
      obtain ⟨r, _, hr⟩ := List.mem_map.mp hq1
      obtain ⟨c', r', hq, hc'⟩ := subtree_paths_loop_heads rest q hq2
      rw [← hr] at hq
      rw [(List.cons.inj hq).1] at hname
      exact hname hc'
end

/-- C28: `count_inode(n)` is 1 plus the sum of `count_inode` over the children
of `n`; it is the number of paths in the subtree of `n`, and in a tree whose
children maps have ascending keys these paths are pairwise distinct and are
exactly the paths that resolve from `n`, one for each inode of the subtree.
`do_statfs` returns 0 and reports `f_files == count_inode(root)`,
`f_bsize == 4096`, `f_ffree == 4096`, `f_namemax == 128` and `f_fsid == 1`. -/
theorem count_inode_counts_subtree (n : inode_t) (totalram freeram : Nat)
    (hmap : tree_sorted n) :
    count_inode n = 1 + (n.dentry.map (fun i => count_inode i.2.inode)).sum ∧
    count_inode n = (subtree_paths n).length ∧
    (subtree_paths n).Nodup ∧
    (∀ q, q ∈ subtree_paths n ↔ (pathname_to_inode q n).isSome = true) ∧
    (do_statfs totalram freeram n).1 = 0 ∧
    (do_statfs totalram freeram n).2.f_files = count_inode n ∧
    (do_statfs totalram freeram n).2.f_bsize = 4096 ∧
    (do_statfs totalram freeram n).2.f_ffree = 4096 ∧
    (do_statfs totalram freeram n).2.f_namemax = 128 ∧
    (do_statfs totalram freeram n).2.f_fsid = 1 :=
  ⟨count_inode_eq n, count_inode_eq_length n, subtree_paths_nodup n hmap,
    fun q => mem_subtree_paths_iff q n hmap, rfl, rfl, rfl, rfl, rfl, rfl⟩

/-! ## The final component of an empty path -/

/-- C29 does not hold of the entry points: on the empty component sequence,
which is what `/` is parsed to, `do_mkdir`, `do_create`, `do_mknod`,
`do_symlink` and `do_rename` (for either argument) call `back()` on the empty
vector, which is undefined behaviour, whereas `do_unlink` and `do_rmdir` test
for the empty sequence first and return `-EISDIR` and `-EBUSY`. -/
theorem back_of_empty_path_is_taken (fresh : Nat → Block) (root : inode_t) (mode device : Nat)
    (now : timespec) (linkname : List Byte) (other : List String) :
    stmpfs_pathname_t "/" = [] ∧
    do_mkdir [] mode now root = none ∧
    do_create [] mode now root = none ∧
    do_mknod [] mode device now root = none ∧
    do_symlink fresh [] linkname now root = none ∧
    do_rename [] other now root = none ∧
    do_rename other [] now root = none ∧
    do_unlink [] root = (-EISDIR, root) ∧
    do_rmdir [] root = (-EBUSY, root) := by
  refine ⟨by decide, rfl, rfl, rfl, rfl, rfl, ?_, rfl, rfl⟩
  unfold do_rename
  cases other.getLast? <;> rfl

/-! ## Entry points: getxattr and listxattr by size -/

/-- C21, as stated, fails: with the attribute `user.k` of three bytes on
`/a`, `do_getxattr` called with size 0 and a buffer pointer that is not null
returns `-ERANGE`, not 3; with the null pointer it returns 3. -/
theorem getxattr_size_zero_with_buffer_is_erange :
    (pathname_to_inode ["a"] tree_file_a_k).map (fun n => map_find "user.k" n.xattr) =
      some (some [1, 2, 3]) ∧
    do_getxattr ["a"] "user.k" false 0 tree_file_a_k = some (-ERANGE, []) ∧
    do_getxattr ["a"] "user.k" true 0 tree_file_a_k = some (3, []) := by
  decide

/-- C21, amended: on a resolving path, `do_getxattr` returns `-ENODATA` when
the attribute is absent.  When it is present with a value of `L < 2^31` bytes:
with size 0 and the null pointer the call returns `L` and stores nothing; with
`size < L`, size 0 and a pointer that is not null included, it returns `-ERANGE`
and stores nothing; with `size ≥ L` and a buffer to store into it returns `L`
and stores the `L` bytes. -/
theorem getxattr_by_size (root inode : inode_t) (vpath : List String) (name : String)
    (hres : pathname_to_inode vpath root = some inode) :
    (∀ value_null size, map_find name inode.xattr = none →
      do_getxattr vpath name value_null size root = some (-ENODATA, [])) ∧
    (∀ v, map_find name inode.xattr = some v → v.length < 2 ^ 31 →
      do_getxattr vpath name true 0 root = some ((v.length : Int), []) ∧
      (∀ value_null size, size < v.length → ¬ (size = 0 ∧ value_null = true) →
        do_getxattr vpath name value_null size root = some (-ERANGE, [])) ∧
      (∀ size, v.length ≤ size →
        do_getxattr vpath name false size root = some ((v.length : Int), v))) := by
  refine ⟨?_, ?_⟩
  · intro value_null size habsent
    unfold do_getxattr
    rw [hres]
    simp only
    rw [habsent]
  · intro v hv hint
    refine ⟨?_, ?_, ?_⟩
    · unfold do_getxattr
      rw [hres]
      simp only
      rw [hv]
      simp only
      rw [if_pos (by simp), int_cast_of_lt _ hint]
    · intro value_null size hlt hnot
      unfold do_getxattr
      rw [hres]
      simp only
      rw [hv]
      simp only
      rw [if_neg hnot, if_pos hlt]
    · intro size hle
      unfold do_getxattr
      rw [hres]
      simp only
      rw [hv]
      simp only
      have h1 : ¬ (size = 0 ∧ false = true) := fun h => Bool.noConfusion h.2
      have h2 : ¬ (size < v.length) := Nat.not_lt.mpr hle
      have h3 : ¬ (false = true ∧ v ≠ []) := fun h => Bool.noConfusion h.1
      rw [if_neg h1, if_neg h2, if_neg h3, int_cast_of_lt _ hint]

theorem overlay_length (list : List Byte) (base : Nat) (seg : List Byte)
    (h : base + seg.length ≤ list.length) : (overlay list base seg).length = list.length := by
  unfold overlay
  simp only [List.length_append, List.length_take, List.length_drop]
  omega

theorem overlay_nil (list : List Byte) (base : Nat) : overlay list base [] = list := by
  unfold overlay
  simp

theorem overlay_set (list : List Byte) (base : Nat) (seg : List Byte) (x : Byte)
    (h : base + seg.length < list.length) :
    (overlay list base seg).set (base + seg.length) x = overlay list base (seg ++ [x]) := by
  unfold overlay
  have hlen : (list.take base ++ seg).length = base + seg.length := by
    simp only [List.length_append, List.length_take]
    omega
  rw [List.set_append_right _ _ (by rw [hlen]), hlen, Nat.sub_self,
    List.drop_eq_getElem_cons h, List.set_cons_zero]
  simp [List.append_assoc, Nat.add_assoc]

theorem overlay_overlay (list : List Byte) (base : Nat) (s1 s2 : List Byte)
    (h : base + s1.length + s2.length ≤ list.length) :
    overlay (overlay list base s1) (base + s1.length) s2 = overlay list base (s1 ++ s2) := by
  unfold overlay
  have hlen : (list.take base ++ s1).length = base + s1.length := by
    simp only [List.length_append, List.length_take]
    omega
  have h1 : (list.take base ++ s1 ++ list.drop (base + s1.length)).take (base + s1.length) =
      list.take base ++ s1 := List.take_left' hlen
  have h2 : (list.take base ++ s1 ++ list.drop (base + s1.length)).drop
      (base + s1.length + s2.length) = list.drop (base + s1.length + s2.length) := by
    rw [List.drop_append_eq_append_drop, hlen]
    have : (list.take base ++ s1).drop (base + s1.length + s2.length) = [] :=
      List.drop_eq_nil_of_le (by rw [hlen]; omega)
    rw [this, List.nil_append, List.drop_drop]
    congr 1
    omega
  rw [h1, h2]
  simp [List.append_assoc, Nat.add_assoc]

theorem copy_to_list_loop_eq (str : List Byte) (base : Nat) (list : List Byte) :
    ∀ k i, i + k ≤ str.length → base + i + k ≤ list.length →
      copy_to_list_loop str base k i (overlay list base (str.take i)) =
        some (overlay list base (str.take (i + k))) := by
  intro k
  induction k with
  | zero => intro i _ _; rfl
  | succ k ih =>
    intro i h1 h2
    have hti : (str.take i).length = i := by
      rw [List.length_take]; omega
    have hlen : (overlay list base (str.take i)).length = list.length :=
      overlay_length _ _ _ (by rw [hti]; omega)
    rw [copy_to_list_loop, if_pos (by rw [hlen]; omega)]
    have hset : (overlay list base (str.take i)).set (base + i) (str.getD i 0) =
        overlay list base (str.take (i + 1)) := by
      have := overlay_set list base (str.take i) (str.getD i 0) (by rw [hti]; omega)
      rw [hti] at this
      rw [this]
      congr 1
      rw [List.take_succ, List.getD_eq_getElem?_getD]
      have hi : i < str.length := by omega
      rw [List.getElem?_eq_getElem hi]
      rfl
    rw [hset, ih (i + 1) (by omega) (by omega)]
    congr 3
    omega

theorem copy_to_list_eq (list : List Byte) (base copy_len : Nat) (str : List Byte)
    (hcopy : str.length ≤ copy_len) (h : base + str.length < list.length) :
    copy_to_list list base copy_len str =
      some (overlay list base (str ++ [0]), str.length + 1) := by
  unfold copy_to_list
  have hmin : min copy_len str.length = str.length := Nat.min_eq_right hcopy
  simp only [hmin]
  have hloop := copy_to_list_loop_eq str base list str.length 0 (by omega) (by omega)
  rw [List.take_zero, overlay_nil, Nat.zero_add, List.take_length] at hloop
  rw [hloop]
  simp only
  rw [if_pos (by rw [overlay_length _ _ _ (by omega)]; exact h), overlay_set _ _ _ _ h]

theorem flatMap_utf8EncodeChar_length (cs : List Char) :
    (cs.flatMap String.utf8EncodeChar).length = String.utf8ByteSize.go cs := by
  induction cs with
  | nil => rfl
  | cons c cs ih =>
    rw [List.flatMap_cons, List.length_append, ih, String.length_utf8EncodeChar]
    simp only [String.utf8ByteSize.go]
    omega

theorem c_str_length (s : String) : (c_str s).length = s.utf8ByteSize := by
  cases s with
  | mk cs => exact flatMap_utf8EncodeChar_length cs

theorem listxattr_image_length (xattr : List (String × List Byte)) :
    (listxattr_image xattr).length = listxattr_total xattr := by
  induction xattr with
  | nil => rfl
  | cons e rest ih =>
    unfold listxattr_image listxattr_total at *
    simp only [List.map_cons, List.flatten_cons, List.length_append, List.sum_cons, ih,
      c_str_length, List.length_singleton]

theorem listxattr_foldl_eq (xattr : List (String × List Byte)) :
    ∀ acc, xattr.foldl (fun acc i => acc + ((c_str i.1).length + 1)) acc =
      acc + listxattr_total xattr := by
  induction xattr with
  | nil => intro acc; simp [listxattr_total]
  | cons e rest ih =>
    intro acc
    rw [List.foldl_cons, ih]
    unfold listxattr_total
    simp only [List.map_cons, List.sum_cons, c_str_length]
    omega

theorem listxattr_while_eq (list_actual_size : Nat) :
    ∀ (itr : List (String × List Byte)) (write_off : Nat) (list : List Byte),
      write_off + listxattr_total itr = list_actual_size → list_actual_size ≤ list.length →
      listxattr_while list_actual_size itr write_off list =
        some (overlay list write_off (listxattr_image itr)) := by
  intro itr
  induction itr with
  | nil =>
    intro write_off list hsum _
    have : ¬ write_off < list_actual_size := by
      simp [listxattr_total] at hsum
      omega
    rw [listxattr_while, if_neg this]
    unfold listxattr_image
    simp [overlay_nil]
  | cons e rest ih =>
    intro write_off list hsum hlen
    obtain ⟨first, second⟩ := e
    have htot : listxattr_total ((first, second) :: rest) =
        (first.utf8ByteSize + 1) + listxattr_total rest := by
      unfold listxattr_total
      simp
    rw [htot] at hsum
    have hlt : write_off < list_actual_size := by omega
    rw [listxattr_while, if_pos hlt,
      copy_to_list_eq list write_off _ (c_str first)
        (by rw [c_str_length]; omega) (by rw [c_str_length]; omega)]
    simp only
    have hseg : (c_str first ++ [0]).length = first.utf8ByteSize + 1 := by
      rw [List.length_append, c_str_length]
      rfl
    have hov : (overlay list write_off (c_str first ++ [0])).length = list.length :=
      overlay_length _ _ _ (by rw [hseg]; omega)
    rw [c_str_length, ih (write_off + (first.utf8ByteSize + 1)) _ (by omega) (by rw [hov]; exact hlen)]
    have := overlay_overlay list write_off (c_str first ++ [0]) (listxattr_image rest)
      (by rw [hseg, listxattr_image_length]; omega)
    rw [hseg] at this
    rw [this]
    rfl

/-- C22: on a resolving path, with `total` the sum over the attribute names of
their length in bytes plus one, `total < 2^31` and the names in ascending order as a
`std::map` keeps them: `do_listxattr` with the null pointer and size 0 returns
`total`; with a buffer and `size < total` it returns `-ERANGE` and leaves the
buffer as it was; with a buffer of at least `size ≥ total` bytes it returns
`total`, the first `total` bytes of the buffer are then each name followed by
one NUL byte, in the order of the map, and the bytes of the buffer from
position `total` on are as before. -/
theorem listxattr_lists_names (root inode : inode_t) (vpath : List String)
    (hres : pathname_to_inode vpath root = some inode)
    (hint : listxattr_total inode.xattr < 2 ^ 31) (hmap : map_sorted inode.xattr) :
    do_listxattr vpath none 0 root = some ((listxattr_total inode.xattr : Int), none) ∧
    (∀ buf size, size < listxattr_total inode.xattr →
      do_listxattr vpath (some buf) size root = some (-ERANGE, some buf)) ∧
    (∀ buf size, listxattr_total inode.xattr ≤ size → size ≤ buf.length →
      do_listxattr vpath (some buf) size root =
        some ((listxattr_total inode.xattr : Int),
          some (listxattr_image inode.xattr ++ buf.drop (listxattr_total inode.xattr)))) ∧
    (listxattr_image inode.xattr).length = listxattr_total inode.xattr ∧
    (inode.xattr.map Prod.fst).Pairwise (fun a b => str_lt a.toList b.toList = true) := by
  have hfold := listxattr_foldl_eq inode.xattr 0
  rw [Nat.zero_add] at hfold
  refine ⟨?_, ?_, ?_, listxattr_image_length _, hmap⟩
  · unfold do_listxattr
    rw [hres]
    simp only [hfold]
    rw [if_pos (by simp), int_cast_of_lt _ hint]
  · intro buf size hlt
    unfold do_listxattr
    rw [hres]
    simp only [hfold]
    rw [if_neg (fun h => Option.noConfusion h.2), if_pos hlt]
  · intro buf size hle hbuf
    unfold do_listxattr
    rw [hres]
    simp only [hfold]
    rw [if_neg (fun h => Option.noConfusion h.2), if_neg (Nat.not_lt.mpr hle),
      listxattr_while_eq _ inode.xattr 0 buf (by omega) (by omega)]
    simp only
    rw [int_cast_of_lt _ hint]
    unfold overlay
    simp [listxattr_image_length]

/-! ## Properties of every inode of a tree -/

theorem tree_all_child (p : inode_t → Prop) (root child : inode_t) (c : String)
    (h : tree_all p root) (hc : root.find_in_dentry c = some child) : tree_all p child := by
  intro q n hq
  apply h (c :: q) n
  rw [pathname_to_inode_cons, hc]
  exact hq

theorem tree_all_at (p : inode_t → Prop) (root inode : inode_t) (path : List String)
    (h : tree_all p root) (hres : pathname_to_inode path root = some inode) :
    tree_all p inode := by
  intro q n hq
  apply h (path ++ q) n
  rw [pathname_to_inode_append, hres]
  exact hq

theorem tree_all_intro (p : inode_t → Prop) (root : inode_t) (h0 : p root)
    (h1 : ∀ c child, root.find_in_dentry c = some child → tree_all p child) :
    tree_all p root := by
  intro q n hq
  cases q with
  | nil =>
    have : root = n := Option.some.inj hq
    rw [← this]
    exact h0
  | cons c t =>
    rw [pathname_to_inode_cons] at hq
    cases hf : root.find_in_dentry c with
    | none => rw [hf] at hq; exact Option.noConfusion hq
    | some child =>
      rw [hf] at hq
      exact h1 c child hf t n hq

theorem tree_all_of_dentry_eq (p : inode_t → Prop) (n n' : inode_t)
    (h : n'.dentry = n.dentry) (hp : p n') (hs : tree_all p n) : tree_all p n' := by
  apply tree_all_intro p n' hp
  intro c child hc
  apply tree_all_child p n child c hs
  rw [inode_t.find_in_dentry, ← h]
  exact hc

theorem tree_all_leaf (p : inode_t → Prop) (d : List Block) (c : Nat) (s : stat)
    (x : List (String × List Byte)) (hp : p (inode_t.mk d c [] s x)) :
    tree_all p (inode_t.mk d c [] s x) := by
  apply tree_all_intro p _ hp
  intro c child hc
  exact Option.noConfusion hc

theorem tree_all_modify_at (p : inode_t → Prop) (hset : ∀ n d, p n → p (n.set_dentry d))
    (f : inode_t → inode_t) (hf : ∀ n, tree_all p n → tree_all p (f n)) (path : List String) :
    ∀ root, tree_all p root → tree_all p (modify_at path f root) := by
  induction path with
  | nil => intro root h; exact hf root h
  | cons c p' ih =>
    intro root h
    apply tree_all_intro
    · rw [modify_at_cons]
      exact hset _ _ (h [] root rfl)
    · intro x child hx
      by_cases hxc : x = c
      · subst hxc
        rw [find_modify_at_cons_self] at hx
        cases hfind : root.find_in_dentry x with
        | none => rw [hfind] at hx; exact Option.noConfusion hx
        | some old =>
          rw [hfind] at hx
          rw [← Option.some.inj hx]
          exact ih old (tree_all_child p root old x h hfind)
      · rw [find_modify_at_cons_ne x c p' f root hxc] at hx
        exact tree_all_child p root child x h hx

theorem tree_all_modify_at_own (p : inode_t → Prop) (hset : ∀ n d, p n → p (n.set_dentry d))
    (f : inode_t → inode_t) (hd : ∀ n, (f n).dentry = n.dentry) (hp : ∀ n, p n → p (f n))
    (path : List String) (root : inode_t) (h : tree_all p root) :
    tree_all p (modify_at path f root) :=
  tree_all_modify_at p hset f
    (fun n hn => tree_all_of_dentry_eq p n (f n) (hd n) (hp n (hn [] n rfl)) hn) path root h

theorem tree_all_modify_at_const (p : inode_t → Prop) (hset : ∀ n d, p n → p (n.set_dentry d))
    (path : List String) (root inode inode1 : inode_t)
    (hres : pathname_to_inode path root = some inode) (h : tree_all p root)
    (h1 : tree_all p inode → tree_all p inode1) :
    tree_all p (modify_at path (fun _ => inode1) root) :=
  tree_all_modify_at p hset _ (fun _ _ => h1 (tree_all_at p root inode path h hres)) path root h

theorem tree_all_erase_entry (p : inode_t → Prop) (hset : ∀ n d, p n → p (n.set_dentry d))
    (name : String) (n : inode_t) (h : tree_all p n) : tree_all p (erase_entry name n) := by
  apply tree_all_intro
  · exact hset _ _ (h [] n rfl)
  · intro c child hc
    rcases erase_entry_find_or name n c with h1 | h1
    · rw [h1] at hc; exact Option.noConfusion hc
    · rw [h1] at hc; exact tree_all_child p n child c h hc

theorem tree_all_add_dentry (p : inode_t → Prop) (hset : ∀ n d, p n → p (n.set_dentry d))
    (name : String) (child : inode_t) (b : Bool) (n : inode_t)
    (h : tree_all p n) (hchild : tree_all p child) :
    tree_all p (inode_t.add_dentry name child b n) := by
  apply tree_all_intro
  · exact hset _ _ (h [] n rfl)
  · intro c x hc
    by_cases hcn : c = name
    · rw [hcn, find_add_dentry_self] at hc
      rw [← Option.some.inj hc]
      exact hchild
    · rw [find_add_dentry_ne name child b n c hcn] at hc
      exact tree_all_child p n x c h hc

theorem tree_all_emplace_new_dentry (p : inode_t → Prop)
    (hset : ∀ n d, p n → p (n.set_dentry d)) (name : String) (tmpl n : inode_t)
    (h : tree_all p n) (htmpl : tmpl.dentry = [])
    (hp : p (inode_t.mk tmpl.data 0 [] tmpl.fs_stat [])) :
    tree_all p (inode_t.emplace_new_dentry name tmpl n) := by
  have : inode_t.emplace_new_dentry name tmpl n =
      inode_t.add_dentry name (inode_t.mk tmpl.data 0 tmpl.dentry tmpl.fs_stat []) true n := rfl
  rw [this, htmpl]
  exact tree_all_add_dentry p hset name _ true n h (tree_all_leaf p _ _ _ _ hp)

/-! ## The two sizes of an inode -/

theorem sizes_agree_set_dentry (n : inode_t) (d : List (String × dentry_t inode_t))
    (h : sizes_agree n) : sizes_agree (n.set_dentry d) := by
  cases n; exact h

theorem sizes_agree_congr (n n' : inode_t) (h1 : n'.cur_data_size = n.cur_data_size)
    (h2 : n'.fs_stat.st_size = n.fs_stat.st_size) (h : sizes_agree n) : sizes_agree n' := by
  unfold sizes_agree at *
  rw [h1, h2]
  exact h

theorem write_sizes (fresh : Nat → Block) (inode n' : inode_t) (buffer : List Byte)
    (length offset r : Nat) (h : inode.write fresh buffer length offset = some (r, n')) :
    (offset + length > inode.cur_data_size →
      n'.cur_data_size = length + offset ∧ n'.fs_stat.st_size = ((length + offset : Nat) : Int)) ∧
    (¬ offset + length > inode.cur_data_size →
      n'.cur_data_size = inode.cur_data_size ∧ n'.fs_stat.st_size = inode.fs_stat.st_size) := by
  obtain ⟨d, c, de, s, x⟩ := inode
  unfold inode_t.write at h
  simp only [inode_t.data, inode_t.cur_data_size, inode_t.dentry, inode_t.fs_stat,
    inode_t.xattr] at h
  simp only [inode_t.cur_data_size, inode_t.fs_stat]
  by_cases hg : offset + length > c
  · simp only [if_pos hg] at h
    cases hw : write_buffer fresh buffer length offset
        (fill_buffer fresh (offset + length - c) d).1 with
    | none => rw [hw] at h; exact Option.noConfusion h
    | some pr =>
      rw [hw] at h
      rw [← (Prod.mk.inj (Option.some.inj h)).2]
      exact ⟨fun _ => ⟨rfl, rfl⟩, fun hn => absurd hg hn⟩
  · simp only [if_neg hg] at h
    cases hw : write_buffer fresh buffer length offset d with
    | none => rw [hw] at h; exact Option.noConfusion h
    | some pr =>
      rw [hw] at h
      rw [← (Prod.mk.inj (Option.some.inj h)).2]
      exact ⟨fun hp => absurd hp hg, fun _ => ⟨rfl, rfl⟩⟩

theorem write_sizes_agree (fresh : Nat → Block) (inode n' : inode_t) (buffer : List Byte)
    (length offset r : Nat) (h : inode.write fresh buffer length offset = some (r, n'))
    (hs : sizes_agree inode) (hgrow : 1 ≤ length ∨ inode.cur_data_size < offset ∨
      inode.fs_stat.st_size = (inode.cur_data_size : Int)) :
    n'.fs_stat.st_size = (n'.cur_data_size : Int) := by
  obtain ⟨h1, h2⟩ := write_sizes fresh inode n' buffer length offset r h
  by_cases hg : offset + length > inode.cur_data_size
  · obtain ⟨h3, h4⟩ := h1 hg
    rw [h3, h4]
  · obtain ⟨h3, h4⟩ := h2 hg
    rw [h3, h4]
    rcases hs with hs | hs
    · exact hs
    · rcases hgrow with hgrow | hgrow | hgrow
      · omega
      · omega
      · exact hgrow

theorem truncate_sizes (fresh : Nat → Block) (n : inode_t) (s : stat) (size : Nat) :
    ((n.set_fs_stat s).truncate fresh size).cur_data_size = size ∧
    ((n.set_fs_stat s).truncate fresh size).fs_stat = s ∧
    ((n.set_fs_stat s).truncate fresh size).dentry = n.dentry := by
  cases n
  exact ⟨rfl, rfl, rfl⟩

theorem set_ctim_dentry (now : timespec) (n : inode_t) : (set_ctim now n).dentry = n.dentry := by
  cases n; rfl

theorem sizes_agree_set_atim (now : timespec) (n : inode_t) (h : sizes_agree n) :
    sizes_agree (set_atim now n) := by
  cases n; exact h

theorem sizes_agree_set_ctim (now : timespec) (n : inode_t) (h : sizes_agree n) :
    sizes_agree (set_ctim now n) := by
  cases n; exact h

theorem sizes_agree_emplace (name : String) (tmpl n : inode_t)
    (h : tree_all sizes_agree n) (htmpl : tmpl.dentry = []) :
    tree_all sizes_agree (inode_t.emplace_new_dentry name tmpl n) :=
  tree_all_emplace_new_dentry sizes_agree sizes_agree_set_dentry name tmpl n h htmpl
    (Or.inr rfl)

theorem sizes_agree_erase_at (path : List String) (name : String) (root P P' : inode_t)
    (b : Bool) (h : tree_all sizes_agree root) (hP : pathname_to_inode path root = some P)
    (hd : P.del_dentry name b = some P') :
    tree_all sizes_agree (modify_at path (fun _ => P') root) := by
  rw [del_dentry_some name b P P' hd]
  exact tree_all_modify_at_const sizes_agree sizes_agree_set_dentry path root P _ hP h
    (tree_all_erase_entry sizes_agree sizes_agree_set_dentry name P)

theorem sizes_agree_setxattr_at (path : List String) (name : String) (value : List Byte)
    (size : Nat) (root inode inode1 : inode_t) (h : tree_all sizes_agree root)
    (hres : pathname_to_inode path root = some inode)
    (hset : inode_setxattr inode name value size = some inode1) :
    tree_all sizes_agree (modify_at path (fun _ => inode1) root) := by
  unfold inode_setxattr at hset
  by_cases hs : size ≤ value.length
  · rw [if_pos hs] at hset
    rw [← Option.some.inj hset]
    apply tree_all_modify_at_const sizes_agree sizes_agree_set_dentry path root inode _ hres h
    intro hi
    refine tree_all_of_dentry_eq sizes_agree inode _ (by cases inode; rfl) ?_ hi
    exact sizes_agree_congr inode _ (by cases inode; rfl) (by cases inode; rfl) (hi [] inode rfl)
  · rw [if_neg hs] at hset
    exact Option.noConfusion hset

/-- Every call of an entry point keeps the two sizes of every inode in
agreement, or the logical size at 0. -/
theorem sizes_agree_run_call (fresh : Nat → Block) (now : timespec) (call : fs_call)
    (root root' : inode_t) (h : tree_all sizes_agree root)
    (hrun : run_call fresh now call root = some root') : tree_all sizes_agree root' := by
  cases call with
  | mkdir vpath mode =>
    simp only [run_call, do_mkdir] at hrun
    cases hl : vpath.getLast? with
    | none => rw [hl] at hrun; exact Option.noConfusion hrun
    | some tag =>
      rw [hl] at hrun
      cases hp : pathname_to_inode vpath.dropLast root with
      | none => rw [hp] at hrun; rw [← Option.some.inj hrun]; exact h
      | some P =>
        rw [hp] at hrun
        rw [← Option.some.inj hrun]
        exact tree_all_modify_at sizes_agree sizes_agree_set_dentry _
          (fun n hn => sizes_agree_emplace tag (mkdir_template mode now) n hn rfl) _ root h
  | chmod vpath mode =>
    simp only [run_call, do_chmod] at hrun
    rw [← Option.some.inj hrun]
    cases hp : pathname_to_inode vpath root with
    | none => exact h
    | some inode =>
      exact tree_all_modify_at_own sizes_agree sizes_agree_set_dentry _
        (fun n => by cases n; rfl) (fun n hn => by cases n; exact hn) vpath root h
  | chown vpath uid gid =>
    simp only [run_call, do_chown] at hrun
    rw [← Option.some.inj hrun]
    cases hp : pathname_to_inode vpath root with
    | none => exact h
    | some inode =>
      exact tree_all_modify_at_own sizes_agree sizes_agree_set_dentry _
        (fun n => by cases n; rfl) (fun n hn => by cases n; exact hn) vpath root h
  | create vpath mode =>
    simp only [run_call, do_create] at hrun
    cases hl : vpath.getLast? with
    | none => rw [hl] at hrun; exact Option.noConfusion hrun
    | some tag =>
      rw [hl] at hrun
      cases hp : pathname_to_inode vpath.dropLast root with
      | none => rw [hp] at hrun; rw [← Option.some.inj hrun]; exact h
      | some P =>
        rw [hp] at hrun
        rw [← Option.some.inj hrun]
        exact tree_all_modify_at sizes_agree sizes_agree_set_dentry _
          (fun n hn => sizes_agree_emplace tag (create_template mode now) n hn rfl) _ root h
  | open_ vpath =>
    simp only [run_call, do_open] at hrun
    rw [← Option.some.inj hrun]
    cases hp : pathname_to_inode vpath root with
    | none => exact h
    | some inode =>
      exact tree_all_modify_at_own sizes_agree sizes_agree_set_dentry _
        (set_atim_dentry now) (sizes_agree_set_atim now) vpath root h
  | read vpath size offset =>
    simp only [run_call, do_read] at hrun
    cases hp : pathname_to_inode vpath root with
    | none => rw [hp] at hrun; rw [← Option.some.inj hrun]; exact h
    | some inode =>
      rw [hp] at hrun
      simp only at hrun
      cases hr : (set_atim now inode).read size offset with
      | none => rw [hr] at hrun; exact Option.noConfusion hrun
      | some pr =>
        rw [hr] at hrun
        rw [← Option.some.inj hrun]
        exact tree_all_modify_at_own sizes_agree sizes_agree_set_dentry _
          (set_atim_dentry now) (sizes_agree_set_atim now) vpath root h
  | write vpath buffer size offset =>
    simp only [run_call, do_write] at hrun
    cases hp : pathname_to_inode vpath root with
    | none => rw [hp] at hrun; rw [← Option.some.inj hrun]; exact h
    | some inode =>
      rw [hp] at hrun
      simp only at hrun
      cases hw : (set_ctim now inode).write fresh buffer size offset with
      | none => rw [hw] at hrun; exact Option.noConfusion hrun
      | some pr =>
        obtain ⟨k, inode1⟩ := pr
        rw [hw] at hrun
        rw [← Option.some.inj hrun]
        apply tree_all_modify_at_const sizes_agree sizes_agree_set_dentry vpath root inode _ hp h
        intro hi
        have hd : inode1.dentry = inode.dentry := by
          rw [write_dentry fresh _ inode1 buffer size offset k hw, set_ctim_dentry]
        refine tree_all_of_dentry_eq sizes_agree inode inode1 hd ?_ hi
        obtain ⟨h1, h2⟩ := write_sizes fresh _ inode1 buffer size offset k hw
        by_cases hg : offset + size > (set_ctim now inode).cur_data_size
        · obtain ⟨h3, h4⟩ := h1 hg
          left
          rw [h3, h4]
        · obtain ⟨h3, h4⟩ := h2 hg
          exact sizes_agree_congr _ inode1 h3 h4 (sizes_agree_set_ctim now inode (hi [] inode rfl))
  | utimens vpath tv0 tv1 =>
    simp only [run_call, do_utimens] at hrun
    rw [← Option.some.inj hrun]
    cases hp : pathname_to_inode vpath root with
    | none => exact h
    | some inode =>
      exact tree_all_modify_at_own sizes_agree sizes_agree_set_dentry _
        (fun n => by cases n; rfl) (fun n hn => by cases n; exact hn) vpath root h
  | unlink vpath =>
    simp only [run_call, do_unlink] at hrun
    rw [← Option.some.inj hrun]
    cases hl : vpath.getLast? with
    | none => exact h
    | some tag =>
      simp only
      cases hp : pathname_to_inode vpath.dropLast root with
      | none => exact h
      | some P =>
        simp only
        cases hd : P.del_dentry tag false with
        | none => exact h
        | some P' => exact sizes_agree_erase_at _ tag root P P' false h hp hd
  | rmdir vpath =>
    simp only [run_call, do_rmdir] at hrun
    rw [← Option.some.inj hrun]
    cases hl : vpath.getLast? with
    | none => exact h
    | some tag =>
      simp only
      cases hp : pathname_to_inode vpath.dropLast root with
      | none => exact h
      | some P =>
        simp only
        cases hf : P.find_in_dentry tag with
        | none => exact h
        | some target =>
          simp only
          by_cases h1 : target.fs_stat.st_mode &&& S_IFDIR = 0
          · rw [if_pos h1]; exact h
          · rw [if_neg h1]
            by_cases h2 : ¬ (target.dentry.isEmpty = true)
            · rw [if_pos h2]; exact h
            · rw [if_neg h2]
              cases hd : P.del_dentry tag false with
              | none => exact h
              | some P' => exact sizes_agree_erase_at _ tag root P P' false h hp hd
  | mknod vpath mode device =>
    simp only [run_call, do_mknod] at hrun
    cases hl : vpath.getLast? with
    | none => rw [hl] at hrun; exact Option.noConfusion hrun
    | some tag =>
      rw [hl] at hrun
      cases hp : pathname_to_inode vpath.dropLast root with
      | none => rw [hp] at hrun; rw [← Option.some.inj hrun]; exact h
      | some P =>
        rw [hp] at hrun
        rw [← Option.some.inj hrun]
        exact tree_all_modify_at sizes_agree sizes_agree_set_dentry _
          (fun n hn => sizes_agree_emplace tag (mknod_template mode device now) n hn rfl) _ root h
  | rename vsrc vdst =>
    simp only [run_call, do_rename] at hrun
    cases hl1 : vsrc.getLast? with
    | none => rw [hl1] at hrun; exact Option.noConfusion hrun
    | some sn =>
      cases hl2 : vdst.getLast? with
      | none => rw [hl1, hl2] at hrun; exact Option.noConfusion hrun
      | some dn =>
        rw [hl1, hl2] at hrun
        simp only at hrun
        cases hp : pathname_to_inode vsrc.dropLast root with
        | none => rw [hp] at hrun; rw [← Option.some.inj hrun]; exact h
        | some P =>
          rw [hp] at hrun
          simp only at hrun
          cases hq : pathname_to_inode vdst.dropLast root with
          | none => rw [hq] at hrun; rw [← Option.some.inj hrun]; exact h
          | some D =>
            rw [hq] at hrun
            simp only at hrun
            cases hf : P.find_in_dentry sn with
            | none => rw [hf] at hrun; rw [← Option.some.inj hrun]; exact h
            | some node =>
              rw [hf] at hrun
              simp only at hrun
              have hPs : tree_all sizes_agree P := tree_all_at sizes_agree root P _ h hp
              have hnode : tree_all sizes_agree node :=
                tree_all_child sizes_agree P node sn hPs hf
              cases hd : P.del_dentry sn true with
              | none => rw [hd] at hrun; rw [← Option.some.inj hrun]; exact h
              | some P' =>
                rw [hd] at hrun
                rw [← Option.some.inj hrun]
                apply tree_all_modify_at sizes_agree sizes_agree_set_dentry
                · intro n hn
                  exact tree_all_add_dentry sizes_agree sizes_agree_set_dentry dn _ true n hn
                    (tree_all_of_dentry_eq sizes_agree node _ (set_ctim_dentry now node)
                      (sizes_agree_set_ctim now node (hnode [] node rfl)) hnode)
                · exact sizes_agree_erase_at _ sn root P P' true h hp hd
  | symlink vpath linkname =>
    simp only [run_call, do_symlink] at hrun
    cases hl : vpath.getLast? with
    | none => rw [hl] at hrun; exact Option.noConfusion hrun
    | some tag =>
      rw [hl] at hrun
      cases hp : pathname_to_inode vpath.dropLast root with
      | none => rw [hp] at hrun; rw [← Option.some.inj hrun]; exact h
      | some P =>
        rw [hp] at hrun
        simp only at hrun
        cases hw : (symlink_template now).write fresh linkname linkname.length 0 with
        | none => rw [hw] at hrun; exact Option.noConfusion hrun
        | some pr =>
          obtain ⟨k, new_inode⟩ := pr
          rw [hw] at hrun
          rw [← Option.some.inj hrun]
          exact tree_all_modify_at sizes_agree sizes_agree_set_dentry _
            (fun n hn => sizes_agree_emplace tag new_inode n hn
              (write_dentry fresh _ new_inode linkname _ 0 k hw)) _ root h
  | readlink vpath size =>
    simp only [run_call, do_readlink] at hrun
    cases hp : pathname_to_inode vpath root with
    | none => rw [hp] at hrun; rw [← Option.some.inj hrun]; exact h
    | some inode =>
      rw [hp] at hrun
      simp only at hrun
      cases hr : (set_atim now inode).read size 0 with
      | none => rw [hr] at hrun; exact Option.noConfusion hrun
      | some pr =>
        rw [hr] at hrun
        rw [← Option.some.inj hrun]
        exact tree_all_modify_at_own sizes_agree sizes_agree_set_dentry _
          (set_atim_dentry now) (sizes_agree_set_atim now) vpath root h
  | truncate vpath size =>
    simp only [run_call, do_truncate] at hrun
    rw [← Option.some.inj hrun]
    cases hp : pathname_to_inode vpath root with
    | none => exact h
    | some inode =>
      exact tree_all_modify_at_own sizes_agree sizes_agree_set_dentry _
        (fun n => (truncate_sizes fresh n _ size).2.2)
        (fun n _ => Or.inl (by
          rw [(truncate_sizes fresh n _ size).1, (truncate_sizes fresh n _ size).2.1]))
        vpath root h
  | fallocate vpath mode offset length =>
    simp only [run_call, do_fallocate] at hrun
    rw [← Option.some.inj hrun]
    cases hp : pathname_to_inode vpath root with
    | none => exact h
    | some inode =>
      exact tree_all_modify_at_own sizes_agree sizes_agree_set_dentry _
        (fun n => (truncate_sizes fresh n _ (offset + length)).2.2)
        (fun n _ => Or.inl (by
          rw [(truncate_sizes fresh n _ (offset + length)).1,
            (truncate_sizes fresh n _ (offset + length)).2.1]))
        vpath root h
  | setxattr vpath name value size flag =>
    simp only [run_call, do_setxattr] at hrun
    cases hp : pathname_to_inode vpath root with
    | none => rw [hp] at hrun; rw [← Option.some.inj hrun]; exact h
    | some inode =>
      rw [hp] at hrun
      simp only at hrun
      cases hs : inode_setxattr inode name value size with
      | none =>
        rw [hs] at hrun
        by_cases h1 : flag = XATTR_CREATE
        · rw [if_pos h1] at hrun
          cases hf : map_find name inode.xattr with
          | none => rw [hf] at hrun; exact Option.noConfusion hrun
          | some v => rw [hf] at hrun; rw [← Option.some.inj hrun]; exact h
        · rw [if_neg h1] at hrun
          by_cases h2 : flag = XATTR_REPLACE
          · rw [if_pos h2] at hrun
            cases hf : map_find name inode.xattr with
            | none => rw [hf] at hrun; rw [← Option.some.inj hrun]; exact h
            | some v => rw [hf] at hrun; exact Option.noConfusion hrun
          · rw [if_neg h2] at hrun
            exact Option.noConfusion hrun
      | some inode1 =>
        rw [hs] at hrun
        have hstore := sizes_agree_setxattr_at vpath name value size root inode inode1 h hp hs
        by_cases h1 : flag = XATTR_CREATE
        · rw [if_pos h1] at hrun
          cases hf : map_find name inode.xattr with
          | none => rw [hf] at hrun; rw [← Option.some.inj hrun]; exact hstore
          | some v => rw [hf] at hrun; rw [← Option.some.inj hrun]; exact h
        · rw [if_neg h1] at hrun
          by_cases h2 : flag = XATTR_REPLACE
          · rw [if_pos h2] at hrun
            cases hf : map_find name inode.xattr with
            | none => rw [hf] at hrun; rw [← Option.some.inj hrun]; exact h
            | some v => rw [hf] at hrun; rw [← Option.some.inj hrun]; exact hstore
          · rw [if_neg h2] at hrun
            rw [← Option.some.inj hrun]
            exact hstore
  | removexattr vpath name =>
    simp only [run_call, do_removexattr] at hrun
    rw [← Option.some.inj hrun]
    cases hp : pathname_to_inode vpath root with
    | none => exact h
    | some inode =>
      simp only
      cases hf : map_find name inode.xattr with
      | none => exact h
      | some v =>
        exact tree_all_modify_at_own sizes_agree sizes_agree_set_dentry _
          (fun n => by cases n; rfl) (fun n hn => by cases n; exact hn) vpath root h
  | readdir vpath =>
    simp only [run_call, do_readdir] at hrun
    rw [← Option.some.inj hrun]
    cases hp : pathname_to_inode vpath root with
    | none => exact h
    | some inode =>
      exact tree_all_modify_at_own sizes_agree sizes_agree_set_dentry _
        (set_atim_dentry now) (sizes_agree_set_atim now) vpath root h

/-- In every state of the file system every inode has its two sizes in
agreement, or logical size 0. -/
theorem reachable_sizes_agree (root : inode_t) (h : Reachable root) :
    tree_all sizes_agree root := by
  induction h with
  | start now => exact tree_all_leaf sizes_agree _ _ _ _ (Or.inr rfl)
  | step fresh now call root root' _ hrun ih =>
    exact sizes_agree_run_call fresh now call root root' ih hrun

/-! ## The sizes after write, truncate and fallocate -/

/-- In every state of the file system, on a path that resolves to an inode:
`do_truncate` and `do_fallocate` return 0 and leave the inode with
`st_size == cur_data_size`, the new size; a `do_write` that returns leaves the
inode with `st_size == cur_data_size` when it writes at least one byte, or
starts beyond the old `cur_data_size`, or the two sizes agreed before; a
`do_write` of zero bytes at an offset not beyond `cur_data_size` changes
neither size. -/
theorem sizes_after_size_changing_calls (root inode : inode_t) (vpath : List String)
    (fresh : Nat → Block) (now : timespec)
    (hreach : Reachable root) (hres : pathname_to_inode vpath root = some inode) :
    (∀ size, ∃ n, (do_truncate fresh vpath size root).1 = 0 ∧
      pathname_to_inode vpath (do_truncate fresh vpath size root).2 = some n ∧
      n.cur_data_size = size ∧ n.fs_stat.st_size = (n.cur_data_size : Int)) ∧
    (∀ mode offset length, ∃ n, (do_fallocate fresh vpath mode offset length now root).1 = 0 ∧
      pathname_to_inode vpath (do_fallocate fresh vpath mode offset length now root).2 = some n ∧
      n.cur_data_size = offset + length ∧ n.fs_stat.st_size = (n.cur_data_size : Int)) ∧
    (∀ buffer size offset r root',
      do_write fresh vpath buffer size offset now root = some (r, root') →
      ∃ n, pathname_to_inode vpath root' = some n ∧
        (1 ≤ size ∨ inode.cur_data_size < offset ∨
            inode.fs_stat.st_size = (inode.cur_data_size : Int) →
          n.fs_stat.st_size = (n.cur_data_size : Int)) ∧
        (size = 0 → offset ≤ inode.cur_data_size →
          n.cur_data_size = inode.cur_data_size ∧
          n.fs_stat.st_size = inode.fs_stat.st_size)) := by
  have hinv : sizes_agree inode := reachable_sizes_agree root hreach vpath inode hres
  refine ⟨?_, ?_, ?_⟩
  · intro size
    have ht := truncate_sizes fresh inode { inode.fs_stat with st_size := (size : Int) } size
    refine ⟨(inode.set_fs_stat { inode.fs_stat with st_size := (size : Int) }).truncate fresh
      size, ?_, ?_, ht.1, ?_⟩
    · unfold do_truncate
      rw [hres]
    · unfold do_truncate
      rw [hres]
      simp only
      rw [pathname_to_inode_modify_at_self, hres]
      rfl
    · rw [ht.1, ht.2.1]
  · intro mode offset length
    have ht := truncate_sizes fresh inode
      { inode.fs_stat with
        st_mode := mode ||| S_IFREG, st_nlink := 1, st_ctim := now,
        st_size := ((offset + length : Nat) : Int) } (offset + length)
    refine ⟨(inode.set_fs_stat
      { inode.fs_stat with
        st_mode := mode ||| S_IFREG, st_nlink := 1, st_ctim := now,
        st_size := ((offset + length : Nat) : Int) }).truncate fresh (offset + length),
      ?_, ?_, ht.1, ?_⟩
    · unfold do_fallocate
      rw [hres]
    · unfold do_fallocate
      rw [hres]
      simp only
      rw [pathname_to_inode_modify_at_self, hres]
      rfl
    · rw [ht.1, ht.2.1]
  · intro buffer size offset r root' hrun
    unfold do_write at hrun
    rw [hres] at hrun
    simp only at hrun
    cases hw : (set_ctim now inode).write fresh buffer size offset with
    | none => rw [hw] at hrun; exact Option.noConfusion hrun
    | some pr =>
      obtain ⟨k, inode1⟩ := pr
      rw [hw] at hrun
      have hroot := (Prod.mk.inj (Option.some.inj hrun)).2
      refine ⟨inode1, ?_, ?_, ?_⟩
      · rw [← hroot, pathname_to_inode_modify_at_self, hres]
        rfl
      · intro hgrow
        apply write_sizes_agree fresh (set_ctim now inode) inode1 buffer size offset k hw
          (sizes_agree_set_ctim now inode hinv)
        rw [set_ctim_cur_data_size]
        have : (set_ctim now inode).fs_stat.st_size = inode.fs_stat.st_size := by
          cases inode; rfl
        rw [this]
        exact hgrow
      · intro hsize hoff
        obtain ⟨_, h2⟩ := write_sizes fresh (set_ctim now inode) inode1 buffer size offset k hw
        rw [set_ctim_cur_data_size] at h2
        have hst : (set_ctim now inode).fs_stat.st_size = inode.fs_stat.st_size := by
          cases inode; rfl
        rw [hst] at h2
        exact h2 (by omega)

/-- C30 does not hold of `do_write` on an inode made by `do_symlink`.
`do_symlink` writes the two bytes of `/l` to a template, which then has
`st_size` 2 and `cur_data_size` 2, and `emplace_new_dentry` copies the stat
record and the block but not `cur_data_size`: in the tree left by `symlink`
with arguments `/t` and `/l` on the empty file system, a state of the file
system, `/t` has one block, `st_size` 2 and `cur_data_size` 0.  A `do_write` of
zero bytes at offset 0 to `/t` returns 0 and the two sizes are still 2 and 0.
In every state of the file system `do_truncate` and `do_fallocate` leave
`st_size == cur_data_size`, and so does a `do_write` that returns, when it
writes at least one byte, or starts beyond the old `cur_data_size`, or the two
sizes agreed before; two bytes written to a file made by `create` are an
instance. -/
theorem empty_write_after_symlink_sizes_differ :
    Reachable tree_symlink_t ∧
    ((symlink_template {}).write (fun _ _ => 0) (c_str "/l") 2 0).map
      (fun r => (r.2.fs_stat.st_size, r.2.cur_data_size)) = some (2, 2) ∧
    (pathname_to_inode ["t"] tree_symlink_t).map
      (fun n => (n.data.length, n.fs_stat.st_size, n.cur_data_size)) = some (1, 2, 0) ∧
    (do_write (fun _ _ => 0) ["t"] [] 0 0 {} tree_symlink_t).map
      (fun r => (r.1, (pathname_to_inode ["t"] r.2).map
        (fun n => (n.fs_stat.st_size, n.cur_data_size)))) = some (0, some (2, 0)) ∧
    (∀ (root inode : inode_t) (vpath : List String) (fresh : Nat → Block) (now : timespec),
      Reachable root → pathname_to_inode vpath root = some inode →
      (∀ size, ∃ n, (do_truncate fresh vpath size root).1 = 0 ∧
        pathname_to_inode vpath (do_truncate fresh vpath size root).2 = some n ∧
        n.cur_data_size = size ∧ n.fs_stat.st_size = (n.cur_data_size : Int)) ∧
      (∀ mode offset length, ∃ n,
        (do_fallocate fresh vpath mode offset length now root).1 = 0 ∧
        pathname_to_inode vpath (do_fallocate fresh vpath mode offset length now root).2 =
          some n ∧
        n.cur_data_size = offset + length ∧ n.fs_stat.st_size = (n.cur_data_size : Int)) ∧
      (∀ buffer size offset r root',
        do_write fresh vpath buffer size offset now root = some (r, root') →
        ∃ n, pathname_to_inode vpath root' = some n ∧
          (1 ≤ size ∨ inode.cur_data_size < offset ∨
              inode.fs_stat.st_size = (inode.cur_data_size : Int) →
            n.fs_stat.st_size = (n.cur_data_size : Int)))) ∧
    (do_write (fun _ _ => 0) ["a"] [104, 105] 2 0 {} tree_file_a).map
      (fun r => (r.1, (pathname_to_inode ["a"] r.2).map
        (fun n => (n.fs_stat.st_size, n.cur_data_size)))) = some (2, some (2, 2)) := by
  refine ⟨Reachable.step (fun _ _ => 0) {} (fs_call.symlink ["t"] (c_str "/l")) (empty_root {})
      tree_symlink_t (Reachable.start {}) rfl, by decide, by decide, by decide, ?_, by decide⟩
  intro root inode vpath fresh now hreach hres
  obtain ⟨h1, h2, h3⟩ := sizes_after_size_changing_calls root inode vpath fresh now hreach hres
  refine ⟨h1, h2, ?_⟩
  intro buffer size offset r root' hrun
  obtain ⟨n, hn1, hn2, _⟩ := h3 buffer size offset r root' hrun
  exact ⟨n, hn1, hn2⟩

/-! ## Instances of the theorems on the parser, attributes lists and sizes -/

/-- Witness for the amended C21: the attribute `user.k` of three bytes on the
file `/a`. -/
theorem getxattr_by_size_witness :
    pathname_to_inode ["a"] tree_file_a_k =
      some ((create_template 0o100644 {}).set_xattr [("user.k", [1, 2, 3])]) ∧
    do_getxattr ["a"] "user.missing" false 8 tree_file_a_k = some (-ENODATA, []) ∧
    do_getxattr ["a"] "user.k" true 0 tree_file_a_k = some (3, []) ∧
    do_getxattr ["a"] "user.k" false 2 tree_file_a_k = some (-ERANGE, []) ∧
    do_getxattr ["a"] "user.k" false 8 tree_file_a_k = some (3, [1, 2, 3]) := by
  have h := getxattr_by_size tree_file_a_k
    ((create_template 0o100644 {}).set_xattr [("user.k", [1, 2, 3])]) ["a"]
  have h1 := (h "user.missing" rfl).1 false 8 rfl
  obtain ⟨h2, h3, h4⟩ := (h "user.k" rfl).2 [1, 2, 3] rfl (by decide)
  exact ⟨rfl, h1, h2, h3 false 2 (by decide) (by decide), h4 8 (by decide)⟩

/-- Witness for C22: the spec scenario, the names `user.k1` and `user.k2`
listed into a buffer of twenty bytes; and the name `user.é`, seven bytes in
six characters, listed from the root into a buffer of eight bytes. -/
theorem listxattr_lists_names_witness :
    pathname_to_inode ["a"] tree_file_a_k1_k2 =
      some ((create_template 0o100644 {}).set_xattr [("user.k1", [1]), ("user.k2", [2])]) ∧
    listxattr_total [("user.k1", [(1 : Byte)]), ("user.k2", [2])] = 16 ∧
    map_sorted [("user.k1", [(1 : Byte)]), ("user.k2", [2])] ∧
    do_listxattr ["a"] none 0 tree_file_a_k1_k2 = some (16, none) ∧
    do_listxattr ["a"] (some (List.replicate 20 255)) 20 tree_file_a_k1_k2 =
      some (16, some (c_str "user.k1" ++ [0] ++ c_str "user.k2" ++ [0] ++ List.replicate 4 255)) ∧
    listxattr_total [("user.é", [(1 : Byte)])] = 8 ∧
    do_listxattr [] none 0 ((empty_root {}).set_xattr [("user.é", [1])]) = some (8, none) ∧
    do_listxattr [] (some (List.replicate 8 255)) 8
        ((empty_root {}).set_xattr [("user.é", [1])]) =
      some (8, some [117, 115, 101, 114, 46, 195, 169, 0]) := by
  have hs : map_sorted [("user.k1", [(1 : Byte)]), ("user.k2", [2])] := by
    unfold map_sorted
    decide
  have hs1 : map_sorted [("user.é", [(1 : Byte)])] := by
    unfold map_sorted
    decide
  obtain ⟨h1, _, h3, _, _⟩ := listxattr_lists_names tree_file_a_k1_k2
    ((create_template 0o100644 {}).set_xattr [("user.k1", [1]), ("user.k2", [2])]) ["a"] rfl
    (by decide) hs
  obtain ⟨k1, _, k3, _, _⟩ := listxattr_lists_names ((empty_root {}).set_xattr [("user.é", [1])])
    ((empty_root {}).set_xattr [("user.é", [1])]) [] rfl (by decide) hs1
  exact ⟨rfl, by decide, hs, h1, h3 (List.replicate 20 255) 20 (by decide) (by decide),
    by decide, k1, k3 (List.replicate 8 255) 8 (by decide) (by decide)⟩

/-- Witness for C23: the case of `pathname_test.cpp`, `/tmp/tmp/tmp`. -/
theorem parser_yields_components_witness :
    ["tmp", "tmp", "tmp"] ≠ ([] : List String) ∧
    (∀ c ∈ ["tmp", "tmp", "tmp"], c ≠ "" ∧ '/' ∉ c.toList) ∧
    "/" ++ join_components ["tmp", "tmp", "tmp"] = "/tmp/tmp/tmp" ∧
    pathname_t ("/" ++ join_components ["tmp", "tmp", "tmp"]) = ["tmp", "tmp", "tmp"] :=
  ⟨by decide, by decide, by decide,
    parser_yields_components ["tmp", "tmp", "tmp"] (by decide) (by decide)⟩

/-- Witness for C24: the path `/a/b/`. -/
theorem parser_keeps_trailing_slash_witness :
    ["a", "b"] ≠ ([] : List String) ∧
    (∀ c ∈ ["a", "b"], c ≠ "" ∧ '/' ∉ c.toList) ∧
    "/" ++ join_components ["a", "b"] ++ "/" = "/a/b/" ∧
    pathname_t ("/" ++ join_components ["a", "b"] ++ "/") = ["a", "b"] ++ [""] :=
  ⟨by decide, by decide, by decide,
    (parser_keeps_trailing_slash ["a", "b"] (by decide) (by decide)).1⟩

/-- Witness for C25: the path `/a//b`. -/
theorem parser_preserves_components_witness :
    "/a//b" ≠ "/" ∧
    ∃ body : List Char,
      (("/a//b" : String).toList = '/' :: body ∨
        (("/a//b" : String).toList = body ∧ ("/a//b" : String).toList.head? ≠ some '/')) ∧
      (pathname_t "/a//b").length = body.count '/' + 1 ∧
      (join_components (pathname_t "/a//b")).toList = body := by
  refine ⟨by decide, ?_⟩
  obtain ⟨⟨body, h1, h2, _, h4⟩, _⟩ := parser_preserves_components "/a//b" (by decide)
  exact ⟨body, h1, h2, h4⟩

/-- Witness for C28: the tree after `mkdir /b` and `mkdir /a` holds three
inodes. -/
theorem count_inode_counts_subtree_witness :
    tree_sorted tree_mkdir_b_a ∧
    count_inode tree_mkdir_b_a = 3 ∧
    count_inode tree_mkdir_b_a = (subtree_paths tree_mkdir_b_a).length ∧
    (do_statfs 8192 4096 tree_mkdir_b_a).2.f_files = count_inode tree_mkdir_b_a :=
  ⟨tree_sorted_emplace_new_dentry "a" (mkdir_template 0o755 {}) _
      (tree_sorted_emplace_new_dentry "b" (mkdir_template 0o755 {}) _
        (tree_sorted_empty_root {}) rfl) rfl,
    by decide,
    (count_inode_counts_subtree tree_mkdir_b_a 8192 4096
      (tree_sorted_emplace_new_dentry "a" (mkdir_template 0o755 {}) _
        (tree_sorted_emplace_new_dentry "b" (mkdir_template 0o755 {}) _
          (tree_sorted_empty_root {}) rfl) rfl)).2.1,
    (count_inode_counts_subtree tree_mkdir_b_a 8192 4096
      (tree_sorted_emplace_new_dentry "a" (mkdir_template 0o755 {}) _
        (tree_sorted_emplace_new_dentry "b" (mkdir_template 0o755 {}) _
          (tree_sorted_empty_root {}) rfl) rfl)).2.2.2.2.2.1⟩

/-! ## Sequences of writes and truncates -/

theorem truncate_length (fresh : Nat → Block) (inode : inode_t) (size : Nat) :
    (inode.truncate fresh size).data.length =
      size / BLOCK_SIZE + (if size % BLOCK_SIZE = 0 then 0 else 1) := by
  obtain ⟨d, c, de, s, x⟩ := inode
  simp only [inode_t.truncate, inode_t.data_mk]
  generalize size / BLOCK_SIZE + (if size % BLOCK_SIZE = 0 then 0 else 1) = a
  by_cases h1 : a < d.length
  · rw [if_pos h1, pop_back_loop_eq, List.length_take]
    omega
  · rw [if_neg h1]
    by_cases h2 : a > d.length
    · rw [if_pos h2, emplace_back_loop_eq, List.length_append, List.length_map,
        List.length_range]
      omega
    · rw [if_neg h2]
      omega

theorem truncate_cur_data_size (fresh : Nat → Block) (inode : inode_t) (size : Nat) :
    (inode.truncate fresh size).cur_data_size = size := by
  obtain ⟨d, c, de, s, x⟩ := inode
  rfl

theorem truncate_covered (fresh : Nat → Block) (inode : inode_t) (size : Nat) :
    (inode.truncate fresh size).cur_data_size ≤
      (inode.truncate fresh size).data.length * BLOCK_SIZE := by
  rw [truncate_length, truncate_cur_data_size]
  simp only [BLOCK_SIZE]
  split <;> omega

theorem truncate_data (fresh : Nat → Block) (inode : inode_t) (size : Nat) :
    ∃ extra, (inode.truncate fresh size).data =
      inode.data.take (size / BLOCK_SIZE + (if size % BLOCK_SIZE = 0 then 0 else 1)) ++ extra := by
  obtain ⟨d, c, de, s, x⟩ := inode
  simp only [inode_t.truncate, inode_t.data_mk]
  generalize size / BLOCK_SIZE + (if size % BLOCK_SIZE = 0 then 0 else 1) = a
  by_cases h1 : a < d.length
  · refine ⟨[], ?_⟩
    rw [if_pos h1, pop_back_loop_eq, List.append_nil]
    congr 1
    omega
  · rw [if_neg h1]
    by_cases h2 : a > d.length
    · refine ⟨(List.range (a - d.length)).map (fun i => fresh (d.length + i)), ?_⟩
      rw [if_pos h2, emplace_back_loop_eq, List.take_of_length_le (by omega)]
    · refine ⟨[], ?_⟩
      rw [if_neg h2, List.append_nil, List.take_of_length_le (by omega)]

/-- A write of zero bytes stores nothing; its head `memcpy` still evaluates
`data[offset / BLOCK_SIZE]`. -/
theorem write_buffer_zero (fresh : Nat → Block) (b : List Byte) (offset : Nat)
    (data : List Block) :
    write_buffer fresh b 0 offset data =
      if offset / BLOCK_SIZE < data.length then some (data, 0) else none := by
  by_cases h : offset / BLOCK_SIZE < data.length
  · rw [if_pos h]
    simp [write_buffer, store, write_buffer_full, List.getElem?_eq_getElem h]
  · rw [if_neg h]
    simp [write_buffer, store, List.getElem?_eq_none (Nat.le_of_not_lt h)]

/-- A write that returns leaves the logical size covered by the blocks. -/
theorem write_covered_of_some (fresh : Nat → Block) (inode : inode_t) (buffer : List Byte)
    (offset : Nat) (hinv : inode.cur_data_size ≤ inode.data.length * BLOCK_SIZE)
    (r : Nat × inode_t) (h : inode.write fresh buffer buffer.length offset = some r) :
    r.2.cur_data_size ≤ r.2.data.length * BLOCK_SIZE := by
  by_cases hn : 1 ≤ buffer.length
  · rw [write_eq fresh inode buffer offset hinv hn] at h
    have hr : r = (buffer.length, after_write fresh inode buffer offset) :=
      (Option.some.inj h).symm
    rw [hr]
    exact after_write_covered fresh inode buffer offset hinv
  · have h0 : buffer.length = 0 := by omega
    obtain ⟨d, c, de, s, x⟩ := inode
    simp only [inode_t.data_mk, inode_t.cur_data_size_mk] at hinv
    rw [h0] at h
    unfold inode_t.write at h
    simp only [inode_t.data_mk, inode_t.cur_data_size_mk, inode_t.dentry_mk, inode_t.fs_stat_mk,
      inode_t.xattr_mk, Nat.add_zero, Nat.zero_add] at h
    by_cases hg : offset > c
    · simp only [if_pos hg, inode_t.data_mk, write_buffer_zero] at h
      by_cases hc : offset / BLOCK_SIZE < (fill_buffer fresh (offset - c) d).1.length
      · rw [if_pos hc] at h
        have hr := (Option.some.inj h).symm
        rw [hr]
        simp only [inode_t.data_mk, inode_t.cur_data_size_mk]
        have := fill_buffer_covers fresh d c offset 0 hinv
        simpa using this
      · rw [if_neg hc] at h
        exact absurd h (by simp)
    · simp only [if_neg hg, inode_t.data_mk, write_buffer_zero] at h
      by_cases hc : offset / BLOCK_SIZE < d.length
      · rw [if_pos hc] at h
        have hr := (Option.some.inj h).symm
        rw [hr]
        exact hinv
      · rw [if_neg hc] at h
        exact absurd h (by simp)

theorem run_inode_call_covered_of_some (fresh : Nat → Block) (call : inode_call)
    (inode inode' : inode_t)
    (hinv : inode.cur_data_size ≤ inode.data.length * BLOCK_SIZE)
    (h : run_inode_call fresh call inode = some inode') :
    inode'.cur_data_size ≤ inode'.data.length * BLOCK_SIZE := by
  cases call with
  | write buffer offset =>
    rw [run_inode_call] at h
    cases hw : inode.write fresh buffer buffer.length offset with
    | none => rw [hw] at h; exact absurd h (by simp)
    | some r =>
      rw [hw] at h
      have hr : r.2 = inode' := Option.some.inj h
      rw [← hr]
      exact write_covered_of_some fresh inode buffer offset hinv r hw
  | truncate size =>
    rw [run_inode_call] at h
    rw [← Option.some.inj h]
    exact truncate_covered fresh inode size

theorem run_inode_calls_covered_of_some (fresh : Nat → Block) (calls : List inode_call) :
    ∀ inode inode' : inode_t, inode.cur_data_size ≤ inode.data.length * BLOCK_SIZE →
      run_inode_calls fresh calls inode = some inode' →
      inode'.cur_data_size ≤ inode'.data.length * BLOCK_SIZE := by
  induction calls with
  | nil =>
    intro inode inode' hinv h
    rw [run_inode_calls] at h
    rw [← Option.some.inj h]
    exact hinv
  | cons call rest ih =>
    intro inode inode' hinv h
    rw [run_inode_calls] at h
    cases h1 : run_inode_call fresh call inode with
    | none => rw [h1] at h; exact absurd h (by simp)
    | some inode1 =>
      rw [h1, Option.some_bind] at h
      exact ih inode1 inode' (run_inode_call_covered_of_some fresh call inode inode1 hinv h1) h

/-- Every sequence of truncates and of writes of at least one byte runs to an
inode whose logical size is covered by its blocks. -/
theorem run_inode_calls_covered (fresh : Nat → Block) (calls : List inode_call) :
    ∀ inode : inode_t, inode.cur_data_size ≤ inode.data.length * BLOCK_SIZE →
      (∀ b o, inode_call.write b o ∈ calls → 1 ≤ b.length) →
      ∃ inode', run_inode_calls fresh calls inode = some inode' ∧
        inode'.cur_data_size ≤ inode'.data.length * BLOCK_SIZE := by
  induction calls with
  | nil => intro inode hinv _; exact ⟨inode, rfl, hinv⟩
  | cons call rest ih =>
    intro inode hinv hne
    have h1 : ∃ inode1, run_inode_call fresh call inode = some inode1 := by
      cases call with
      | write buffer offset =>
        refine ⟨after_write fresh inode buffer offset, ?_⟩
        rw [run_inode_call, write_eq fresh inode buffer offset hinv
          (hne buffer offset (List.mem_cons_self _ _))]
        rfl
      | truncate size => exact ⟨_, rfl⟩
    obtain ⟨inode1, h1⟩ := h1
    have h2 := run_inode_call_covered_of_some fresh call inode inode1 hinv h1
    obtain ⟨inode', h3, h4⟩ := ih inode1 h2
      (fun b o hb => hne b o (List.mem_cons_of_mem _ hb))
    exact ⟨inode', by rw [run_inode_calls, h1]; exact h3, h4⟩

/-- C31 does not hold of `inode_t::write`: on the empty inode, a write of one
byte at offset 0 followed by a write of one byte at offset 1 leaves two blocks
for a size of 2 bytes, and one write of 1025 bytes at offset 0 leaves three
blocks, where `ceil(size / BLOCK_SIZE)` is 1 and 2; a `truncate` to the same
size then brings the count to that value. -/
theorem write_allocates_surplus_blocks (fresh : Nat → Block) :
    (run_inode_calls fresh [inode_call.write [1] 0, inode_call.write [2] 1] inode_t.new).map
      (fun n => (n.data.length, n.cur_data_size)) = some (2, 2) ∧
    (2 + BLOCK_SIZE - 1) / BLOCK_SIZE = 1 ∧
    (run_inode_calls fresh [inode_call.write (List.replicate 1025 0) 0] inode_t.new).map
      (fun n => (n.data.length, n.cur_data_size)) = some (3, 1025) ∧
    (1025 + BLOCK_SIZE - 1) / BLOCK_SIZE = 2 ∧
    (run_inode_calls fresh
        [inode_call.write [1] 0, inode_call.write [2] 1, inode_call.truncate 2] inode_t.new).map
      (fun n => (n.data.length, n.cur_data_size)) = some (1, 2) := by
  have hnew : inode_t.new.cur_data_size ≤ inode_t.new.data.length * BLOCK_SIZE := by decide
  have w1 : inode_t.new.write fresh [1] ([1] : List Byte).length 0 =
      some (1, after_write fresh inode_t.new [1] 0) :=
    write_eq fresh inode_t.new [1] 0 hnew (by decide)
  have c1 := after_write_covered fresh inode_t.new [1] 0 hnew
  have w2 : (after_write fresh inode_t.new [1] 0).write fresh [2] ([2] : List Byte).length 1 =
      some (1, after_write fresh (after_write fresh inode_t.new [1] 0) [2] 1) :=
    write_eq fresh (after_write fresh inode_t.new [1] 0) [2] 1 c1 (by decide)
  have hl : (List.replicate 1025 (0 : Byte)).length = 1025 := List.length_replicate _ _
  have w3 := write_eq fresh inode_t.new (List.replicate 1025 0) 0 hnew (by rw [hl]; decide)
  have l1 : (after_write fresh inode_t.new [1] 0).data.length = 1 := by
    rw [after_write_length]
    decide
  have s1 : (after_write fresh inode_t.new [1] 0).cur_data_size = 1 := rfl
  have l2 : (after_write fresh (after_write fresh inode_t.new [1] 0) [2] 1).data.length = 2 := by
    rw [after_write_length, l1, s1]
    decide
  have s2 : (after_write fresh (after_write fresh inode_t.new [1] 0) [2] 1).cur_data_size = 2 :=
    rfl
  have l3 : (after_write fresh inode_t.new (List.replicate 1025 0) 0).data.length = 3 := by
    rw [after_write_length, hl]
    decide
  have s3 : (after_write fresh inode_t.new (List.replicate 1025 0) 0).cur_data_size = 1025 := by
    rw [after_write_size, hl]
    decide
  refine ⟨?_, by decide, ?_, by decide, ?_⟩
  · rw [run_inode_calls, run_inode_call, w1, Option.map_some', Option.some_bind,
      run_inode_calls, run_inode_call, w2, Option.map_some', Option.some_bind, run_inode_calls,
      Option.map_some', l2, s2]
  · rw [run_inode_calls, run_inode_call, w3, Option.map_some', Option.some_bind,
      run_inode_calls, Option.map_some', l3, s3]
  · rw [run_inode_calls, run_inode_call, w1, Option.map_some', Option.some_bind,
      run_inode_calls, run_inode_call, w2, Option.map_some', Option.some_bind, run_inode_calls,
      run_inode_call, Option.some_bind, run_inode_calls, Option.map_some', truncate_length,
      truncate_cur_data_size]
    decide

/-- C33 does not hold of `inode_t::write` on every sequence: on the empty
inode a write of zero bytes at offset 0 passes to `write_buffer`, whose head
`memcpy` evaluates `data[0]` of the empty block vector, so the sequence of that
one call has no inode after it.  From the empty inode, every sequence of
truncates and of writes of at least one byte runs to an inode, and after every
sequence that runs `cur_data_size` is at most the block count times
`BLOCK_SIZE`: every logical byte below `cur_data_size` lies in a block; one
byte written at 0 and a truncate to 2000 are an instance. -/
theorem zero_byte_write_on_empty_inode_has_no_block (fresh : Nat → Block) :
    inode_t.new.data.length = 0 ∧
    inode_t.new.write fresh [] 0 0 = none ∧
    run_inode_calls fresh [inode_call.write [] 0] inode_t.new = none ∧
    (∀ calls : List inode_call, (∀ b o, inode_call.write b o ∈ calls → 1 ≤ b.length) →
      ∃ inode, run_inode_calls fresh calls inode_t.new = some inode ∧
        inode.cur_data_size ≤ inode.data.length * BLOCK_SIZE ∧
        ∀ i, i < inode.cur_data_size → (logical_byte inode.data i).isSome = true) ∧
    (∀ (calls : List inode_call) (inode : inode_t),
      run_inode_calls fresh calls inode_t.new = some inode →
        inode.cur_data_size ≤ inode.data.length * BLOCK_SIZE ∧
        ∀ i, i < inode.cur_data_size → (logical_byte inode.data i).isSome = true) ∧
    (∃ inode, run_inode_calls fresh [inode_call.write [1] 0, inode_call.truncate 2000]
        inode_t.new = some inode ∧
      inode.cur_data_size ≤ inode.data.length * BLOCK_SIZE) := by
  have hbyte : ∀ inode : inode_t, inode.cur_data_size ≤ inode.data.length * BLOCK_SIZE →
      ∀ i, i < inode.cur_data_size → (logical_byte inode.data i).isSome = true := by
    intro inode h2 i hi
    rw [logical_byte_isSome inode.data i (by simp only [BLOCK_SIZE] at *; omega)]
    rfl
  have hw : inode_t.new.write fresh [] 0 0 = none := by
    unfold inode_t.write
    simp only [Nat.add_zero, write_buffer_zero]
    rfl
  refine ⟨rfl, hw, ?_, ?_, ?_, ?_⟩
  · rw [run_inode_calls, run_inode_call]
    have hl : ([] : List Byte).length = 0 := rfl
    rw [hl, hw]
    rfl
  · intro calls hne
    obtain ⟨inode, h1, h2⟩ := run_inode_calls_covered fresh calls inode_t.new (by decide) hne
    exact ⟨inode, h1, h2, hbyte inode h2⟩
  · intro calls inode h
    have h2 := run_inode_calls_covered_of_some fresh calls inode_t.new inode (by decide) h
    exact ⟨h2, hbyte inode h2⟩
  · refine run_inode_calls_covered fresh _ inode_t.new (by decide) ?_
    intro b o hb
    simp only [List.mem_cons, inode_call.write.injEq, List.mem_singleton, reduceCtorEq,
      List.not_mem_nil, or_false] at hb
    rw [hb.1]
    decide

/-! ## The block indices of reads and writes -/

theorem write_buffer_stores_lt (length offset blocks : Nat)
    (h : offset / BLOCK_SIZE < blocks) :
    ∀ p ∈ write_buffer_stores length offset blocks, p.1 < p.2 := by
  intro p hp
  simp only [write_buffer_stores, List.mem_append, List.mem_singleton, List.mem_map,
    List.mem_range] at hp
  rcases hp with (hp | ⟨j, _, hp⟩) | hp
  · rw [hp]; exact h
  · rw [← hp]
    simp only
    omega
  · split at hp
    · rw [List.mem_singleton] at hp
      rw [hp]
      simp only
      omega
    · exact absurd hp (List.not_mem_nil _)

/-- C34: on an inode whose logical size is covered by its blocks, a write of
`len ≥ 1` bytes runs to its end, and every store of `write_buffer`, the head,
each round of the full loop and the tail, goes into a block index smaller than
the block count at the moment of the store. -/
theorem write_stores_inside_blocks (fresh : Nat → Block) (inode : inode_t) (buf : List Byte)
    (offset : Nat) (hinv : inode.cur_data_size ≤ inode.data.length * BLOCK_SIZE)
    (hn : 1 ≤ buf.length) :
    (∃ inode', inode.write fresh buf buf.length offset = some (buf.length, inode')) ∧
    ∀ p ∈ inode.write_stores fresh buf.length offset, p.1 < p.2 := by
  refine ⟨⟨_, write_eq fresh inode buf offset hinv hn⟩, ?_⟩
  unfold inode_t.write_stores
  apply write_buffer_stores_lt
  by_cases hg : offset + buf.length > inode.cur_data_size
  · rw [if_pos hg]
    have := fill_buffer_covers fresh inode.data inode.cur_data_size offset buf.length hinv
    simp only [BLOCK_SIZE] at *
    omega
  · rw [if_neg hg]
    simp only [BLOCK_SIZE] at *
    omega

/-- C36 does not hold of `inode_t::write`: on the inode left by
`truncate(2048)` on the empty inode, two blocks, a write of two bytes at offset
1023 lies inside the file and leaves three blocks.  On every inode whose size
is covered by its blocks, a write of `len ≥ 1` bytes inside the file keeps
`cur_data_size` and appends one block for each full block and for the tail of
the written range; the block count stays only when the range lies in one
block. -/
theorem overwrite_across_blocks_allocates (fresh : Nat → Block) :
    (inode_t.new.truncate fresh 2048).data.length = 2 ∧
    (inode_t.new.truncate fresh 2048).cur_data_size = 2048 ∧
    ((inode_t.new.truncate fresh 2048).write fresh [1, 2] 2 1023).map
      (fun r => (r.1, r.2.data.length, r.2.cur_data_size)) = some (2, 3, 2048) ∧
    (∀ (inode : inode_t) (buf : List Byte) (offset : Nat),
      inode.cur_data_size ≤ inode.data.length * BLOCK_SIZE → 1 ≤ buf.length →
      offset + buf.length ≤ inode.cur_data_size →
      ∃ inode', inode.write fresh buf buf.length offset = some (buf.length, inode') ∧
        inode'.cur_data_size = inode.cur_data_size ∧
        inode'.data.length = inode.data.length +
          (buf.length - min (BLOCK_SIZE - offset % BLOCK_SIZE) buf.length) / BLOCK_SIZE +
          (if (buf.length - min (BLOCK_SIZE - offset % BLOCK_SIZE) buf.length) % BLOCK_SIZE ≠ 0
            then 1 else 0) ∧
        (offset % BLOCK_SIZE + buf.length ≤ BLOCK_SIZE →
          inode'.data.length = inode.data.length)) := by
  have hgen : ∀ (inode : inode_t) (buf : List Byte) (offset : Nat),
      inode.cur_data_size ≤ inode.data.length * BLOCK_SIZE → 1 ≤ buf.length →
      offset + buf.length ≤ inode.cur_data_size →
      ∃ inode', inode.write fresh buf buf.length offset = some (buf.length, inode') ∧
        inode'.cur_data_size = inode.cur_data_size ∧
        inode'.data.length = inode.data.length +
          (buf.length - min (BLOCK_SIZE - offset % BLOCK_SIZE) buf.length) / BLOCK_SIZE +
          (if (buf.length - min (BLOCK_SIZE - offset % BLOCK_SIZE) buf.length) % BLOCK_SIZE ≠ 0
            then 1 else 0) ∧
        (offset % BLOCK_SIZE + buf.length ≤ BLOCK_SIZE →
          inode'.data.length = inode.data.length) := by
    intro inode buf offset hinv hn hin
    have hlen := after_write_length fresh inode buf offset
    rw [if_neg (by omega)] at hlen
    refine ⟨_, write_eq fresh inode buf offset hinv hn, ?_, hlen, ?_⟩
    · rw [after_write_size]
      omega
    · intro hone
      rw [hlen]
      have h1 : buf.length - min (BLOCK_SIZE - offset % BLOCK_SIZE) buf.length = 0 := by
        simp only [BLOCK_SIZE] at *
        omega
      rw [h1]
      simp
  refine ⟨by rw [truncate_length]; decide, truncate_cur_data_size _ _ _, ?_, hgen⟩
  obtain ⟨inode', h1, h2, h3, _⟩ := hgen (inode_t.new.truncate fresh 2048) [1, 2] 1023
    (truncate_covered fresh _ _) (by decide)
    (by rw [truncate_cur_data_size]; decide)
  have h1' : (inode_t.new.truncate fresh 2048).write fresh [1, 2] 2 1023 =
      some (2, inode') := h1
  rw [h1', Option.map_some', h3, h2, truncate_length, truncate_cur_data_size]
  rfl

/-- C37: on an inode whose logical size is covered by its blocks, after
`truncate(new_size)` every logical byte below `min(old size, new_size)` is in a
block and has the value it had before, and reading that many bytes at offset 0
returns them, as the same read did before the truncate. -/
theorem truncate_keeps_old_bytes (fresh : Nat → Block) (inode : inode_t) (new_size : Nat)
    (hinv : inode.cur_data_size ≤ inode.data.length * BLOCK_SIZE) :
    (∀ i, i < min inode.cur_data_size new_size →
      (logical_byte inode.data i).isSome = true ∧
      logical_byte (inode.truncate fresh new_size).data i = logical_byte inode.data i) ∧
    (inode.truncate fresh new_size).read (min inode.cur_data_size new_size) 0 =
      some (min inode.cur_data_size new_size,
        (List.range (min inode.cur_data_size new_size)).map (fun k => byteD inode.data k)) ∧
    inode.read (min inode.cur_data_size new_size) 0 =
      some (min inode.cur_data_size new_size,
        (List.range (min inode.cur_data_size new_size)).map (fun k => byteD inode.data k)) := by
  obtain ⟨extra, hdata⟩ := truncate_data fresh inode new_size
  have hkeep : ∀ i, i < min inode.cur_data_size new_size →
      i / BLOCK_SIZE < inode.data.length ∧
      logical_byte (inode.truncate fresh new_size).data i = logical_byte inode.data i := by
    intro i hi
    have h1 : i / BLOCK_SIZE < inode.data.length := by
      simp only [BLOCK_SIZE] at *
      omega
    have h2 : i / BLOCK_SIZE <
        new_size / BLOCK_SIZE + (if new_size % BLOCK_SIZE = 0 then 0 else 1) := by
      simp only [BLOCK_SIZE] at *
      split <;> omega
    refine ⟨h1, ?_⟩
    rw [hdata]
    unfold logical_byte
    rw [List.getElem?_append_left (by rw [List.length_take]; omega), List.getElem?_take_of_lt h2]
  have hcount : ∀ c : Nat, (if c = 0 ∨ c ≤ 0 then 0
      else min (min inode.cur_data_size new_size) (c - 0)) =
      if c = 0 then 0 else min (min inode.cur_data_size new_size) c := by
    intro c
    by_cases hc : c = 0
    · simp [hc]
    · rw [if_neg (by omega), if_neg hc]
      rfl
  refine ⟨fun i hi => ⟨?_, (hkeep i hi).2⟩, ?_, ?_⟩
  · rw [logical_byte_isSome _ _ (hkeep i hi).1]
    rfl
  · rw [read_eq _ _ _ (truncate_covered fresh inode new_size)
        (Or.inl (by rw [truncate_cur_data_size]; omega))
        (by
          rw [truncate_cur_data_size, truncate_length]
          by_cases h0 : new_size = 0
          · exact Or.inl h0
          · refine Or.inr (Or.inr ?_)
            simp only [BLOCK_SIZE]
            split <;> omega),
      truncate_cur_data_size, hcount]
    have hm : (if new_size = 0 then 0 else min (min inode.cur_data_size new_size) new_size) =
        min inode.cur_data_size new_size := by
      split <;> omega
    rw [hm]
    congr 2
    apply List.map_congr_left
    intro k hk
    have hk' := List.mem_range.mp hk
    have h1 := (hkeep k hk').2
    have hlt : k / BLOCK_SIZE < (inode.truncate fresh new_size).data.length := by
      rw [truncate_length]
      simp only [BLOCK_SIZE] at *
      split <;> omega
    rw [logical_byte_isSome _ _ (hkeep k hk').1, logical_byte_isSome _ _ hlt] at h1
    rw [Nat.zero_add]
    exact Option.some.inj h1
  · rw [read_eq _ _ _ hinv (Or.inl (by omega))
        (by
          by_cases h0 : inode.cur_data_size = 0
          · exact Or.inl h0
          · refine Or.inr (Or.inr ?_)
            simp only [BLOCK_SIZE] at *
            omega),
      hcount]
    have hm : (if inode.cur_data_size = 0 then 0
        else min (min inode.cur_data_size new_size) inode.cur_data_size) =
        min inode.cur_data_size new_size := by
      split <;> omega
    rw [hm]
    congr 2
    apply List.map_congr_left
    intro k _
    rw [Nat.zero_add]

/-! ## Reads at the end of a full block and reads whose length wraps -/

/-- C3 does not hold of `inode_t::read` on two kinds of input.  On the inode
left by `truncate(1024)` on the empty inode, 1024 bytes in one block, a read at
offset 1024, the size, passes both guards and `read_buffer` evaluates
`data[1]`, one past the last block, whatever the length: the read does not
return 0.  On the inode left by `truncate(10)`, ten bytes in one block, a read
of `2^64 - 1` bytes at offset 1 is not clamped, the 64-bit sum
`offset + length` being 0, and `read_buffer` goes on to a second block that
does not exist.  On every inode whose logical size is covered by its blocks,
when `offset + len < 2^64` and the offset is not the size of a file that fills
its blocks exactly, `read` returns the number of bytes it copied, which is 0
when the size is 0 or `offset ≥ size` and `min len (size - offset)` otherwise,
and the bytes copied are the logical bytes `offset, offset + 1, ...`. -/
theorem read_at_block_end_or_wrapped_sum_has_no_result (fresh : Nat → Block) :
    (inode_t.new.truncate fresh 1024).cur_data_size ≤
      (inode_t.new.truncate fresh 1024).data.length * BLOCK_SIZE ∧
    (∀ len, (inode_t.new.truncate fresh 1024).read len 1024 = none) ∧
    (inode_t.new.truncate fresh 10).cur_data_size ≤
      (inode_t.new.truncate fresh 10).data.length * BLOCK_SIZE ∧
    (inode_t.new.truncate fresh 10).read (2 ^ 64 - 1) 1 = none ∧
    (inode_t.new.truncate fresh 10).read 4 8 = some (2, [fresh 0 8, fresh 0 9]) ∧
    (∀ (inode : inode_t) (len offset : Nat),
      inode.cur_data_size ≤ inode.data.length * BLOCK_SIZE →
      offset + len < 2 ^ 64 →
      (inode.cur_data_size = 0 ∨ offset ≠ inode.cur_data_size ∨
        inode.cur_data_size < inode.data.length * BLOCK_SIZE) →
      ∃ out, inode.read len offset = some (out.length, out) ∧
        out.length = (if inode.cur_data_size = 0 ∨ inode.cur_data_size ≤ offset then 0
          else min len (inode.cur_data_size - offset)) ∧
        out.map some =
          (List.range out.length).map (fun k => logical_byte inode.data (offset + k))) := by
  refine ⟨truncate_covered _ _ _, ?_, truncate_covered _ _ _, ?_, ?_, ?_⟩
  · intro len
    exact read_head_none _ _ _ (by rw [truncate_cur_data_size]; decide)
      (by rw [truncate_cur_data_size]) (by rw [truncate_length]; decide)
  · exact read_wrap_none _ _ _ (by rw [truncate_cur_data_size]; decide)
      (by rw [truncate_cur_data_size]; decide) (by rw [truncate_cur_data_size]; decide)
      (by decide) (by rw [truncate_length]; decide)
  · have h := read_eq (inode_t.new.truncate fresh 10) 4 8 (truncate_covered _ _ _)
      (Or.inr (by decide)) (Or.inr (Or.inr (by rw [truncate_length]; decide)))
    rw [truncate_cur_data_size] at h
    rw [h]
    rfl
  · intro inode len offset hinv hsum hend
    exact read_logical_bytes_of inode len offset hinv hsum hend

/-- C2 does not hold of `do_read` on a file of exactly `BLOCK_SIZE` bytes.
When the parent of `f` resolves, after `do_create(f)` and a `do_write` of a
buffer of 1024 bytes at offset 0, which return 0 and 1024 and leave
`st_size == 1024`, the file has one block, and `do_read(f, out, 0, 1024)`, a
read with `off + k ≤ n`, evaluates `data[1]`: it does not return 0.  The run
on the empty root with the file `/f` is an instance.  For every other buffer
length, offset and size with `off + k ≤ n` the four calls return 0, `n`,
`st_size == n` and `k` with the bytes `off .. off+k-1` of the buffer; the spec
scenario, `"hello world"` written and five bytes read at offset 6, is an
instance. -/
theorem create_write_read_at_block_end_has_no_result (fresh : Nat → Block) :
    (∀ (root P : inode_t) (pp : List String) (name : String) (mode : Nat)
        (now1 now2 now3 : timespec) (buf : List Byte),
      pathname_to_inode pp root = some P → buf.length = BLOCK_SIZE →
      ∃ r1 r2 file,
        do_create (pp ++ [name]) mode now1 root = some (0, r1) ∧
        do_write fresh (pp ++ [name]) buf buf.length 0 now2 r1 =
          some ((buf.length : Int), r2) ∧
        (do_getattr (pp ++ [name]) {} r2).2.st_size = (buf.length : Int) ∧
        pathname_to_inode (pp ++ [name]) r2 = some file ∧
        file.data.length = 1 ∧ file.cur_data_size = BLOCK_SIZE ∧
        do_read (pp ++ [name]) 0 BLOCK_SIZE now3 r2 = none) ∧
    (∃ r1 r2,
      do_create ["f"] 0o100644 {} (empty_root {}) = some (0, r1) ∧
      do_write fresh ["f"] (List.replicate 1024 0) 1024 0 {} r1 = some (1024, r2) ∧
      (do_getattr ["f"] {} r2).2.st_size = 1024 ∧
      do_read ["f"] 0 1024 {} r2 = none) ∧
    (∀ (root P : inode_t) (pp : List String) (name : String) (mode : Nat)
        (now1 now2 now3 : timespec) (buf : List Byte) (k off : Nat),
      pathname_to_inode pp root = some P →
      1 ≤ buf.length → buf.length < 2 ^ 31 → off + k ≤ buf.length →
      ¬ (off = buf.length ∧ buf.length = BLOCK_SIZE) →
      ∃ r1 r2 r3,
        do_create (pp ++ [name]) mode now1 root = some (0, r1) ∧
        do_write fresh (pp ++ [name]) buf buf.length 0 now2 r1 =
          some ((buf.length : Int), r2) ∧
        (do_getattr (pp ++ [name]) {} r2).2.st_size = (buf.length : Int) ∧
        do_read (pp ++ [name]) k off now3 r2 =
          some ((k : Int), (buf.drop off).take k, r3)) ∧
    (∃ r1 r2 r3,
      do_create ["f"] 0o100644 {} (empty_root {}) = some (0, r1) ∧
      do_write fresh ["f"] (c_str "hello world") 11 0 {} r1 = some (11, r2) ∧
      (do_getattr ["f"] {} r2).2.st_size = 11 ∧
      do_read ["f"] 5 6 {} r2 = some (5, c_str "world", r3)) := by
  have hfail : ∀ (root P : inode_t) (pp : List String) (name : String) (mode : Nat)
      (now1 now2 now3 : timespec) (buf : List Byte),
      pathname_to_inode pp root = some P → buf.length = BLOCK_SIZE →
      ∃ r1 r2 file,
        do_create (pp ++ [name]) mode now1 root = some (0, r1) ∧
        do_write fresh (pp ++ [name]) buf buf.length 0 now2 r1 =
          some ((buf.length : Int), r2) ∧
        (do_getattr (pp ++ [name]) {} r2).2.st_size = (buf.length : Int) ∧
        pathname_to_inode (pp ++ [name]) r2 = some file ∧
        file.data.length = 1 ∧ file.cur_data_size = BLOCK_SIZE ∧
        do_read (pp ++ [name]) 0 BLOCK_SIZE now3 r2 = none := by
    intro root P pp name mode now1 now2 now3 buf hparent hlen
    obtain ⟨r1, r2, r3, h1, h2, _, h4, h5, h6⟩ :=
      create_write_getattr_read_of fresh root P pp name mode now1 now2 now3 buf 0 BLOCK_SIZE {}
        hparent (by rw [hlen]; decide) (by rw [hlen]; decide) (by rw [hlen]; decide)
    rw [if_pos ⟨hlen.symm, hlen⟩] at h6
    refine ⟨r1, r2, _, h1, h2, h4, h5, ?_, ?_, h6⟩
    · have hc0 : (set_ctim now2 (create_template mode now1)).cur_data_size = 0 := rfl
      have hl0 : (set_ctim now2 (create_template mode now1)).data.length = 0 := rfl
      rw [after_write_length, hlen, hc0, hl0]
      decide
    · have hc0 : (set_ctim now2 (create_template mode now1)).cur_data_size = 0 := rfl
      rw [after_write_size, hlen, hc0]
      decide
  have hok : ∀ (root P : inode_t) (pp : List String) (name : String) (mode : Nat)
      (now1 now2 now3 : timespec) (buf : List Byte) (k off : Nat),
      pathname_to_inode pp root = some P →
      1 ≤ buf.length → buf.length < 2 ^ 31 → off + k ≤ buf.length →
      ¬ (off = buf.length ∧ buf.length = BLOCK_SIZE) →
      ∃ r1 r2 r3,
        do_create (pp ++ [name]) mode now1 root = some (0, r1) ∧
        do_write fresh (pp ++ [name]) buf buf.length 0 now2 r1 =
          some ((buf.length : Int), r2) ∧
        (do_getattr (pp ++ [name]) {} r2).2.st_size = (buf.length : Int) ∧
        do_read (pp ++ [name]) k off now3 r2 =
          some ((k : Int), (buf.drop off).take k, r3) := by
    intro root P pp name mode now1 now2 now3 buf k off hparent hn hint hk hend
    obtain ⟨r1, r2, r3, h1, h2, _, h4, _, h6⟩ :=
      create_write_getattr_read_of fresh root P pp name mode now1 now2 now3 buf k off {}
        hparent hn hint hk
    rw [if_neg hend] at h6
    exact ⟨r1, r2, r3, h1, h2, h4, h6⟩
  refine ⟨hfail, ?_, hok, ?_⟩
  · have hl : (List.replicate 1024 (0 : Byte)).length = 1024 := List.length_replicate _ _
    obtain ⟨r1, r2, _, h1, h2, h3, _, _, _, h7⟩ :=
      hfail (empty_root {}) (empty_root {}) [] "f" 0o100644 {} {} {}
        (List.replicate 1024 (0 : Byte)) rfl hl
    rw [hl] at h2 h3
    exact ⟨r1, r2, h1, h2, h3, h7⟩
  · obtain ⟨r1, r2, r3, h1, h2, h3, h4⟩ :=
      hok (empty_root {}) (empty_root {}) [] "f" 0o100644 {} {} {} (c_str "hello world") 5 6
        rfl (by decide) (by decide) (by decide) (by decide)
    exact ⟨r1, r2, r3, h1, h2, h3, h4⟩

/-! ## A failing rename -/

/-- C38: `do_rename` on two non-root paths returns 0 or `-ENOENT`; it returns
`-ENOENT` when the source parent does not resolve, when the destination parent
does not resolve, and when the source name is absent from its parent, and 0 in
every other case; whenever the result is negative the tree afterwards is the
tree before the call. -/
theorem failing_rename_keeps_tree (root : inode_t) (sp dp : List String) (sn dn : String)
    (now : timespec) :
    (∃ r root', do_rename (sp ++ [sn]) (dp ++ [dn]) now root = some (r, root') ∧
      (r = 0 ∨ r = -ENOENT) ∧ (r < 0 → root' = root)) ∧
    (pathname_to_inode sp root = none →
      do_rename (sp ++ [sn]) (dp ++ [dn]) now root = some (-ENOENT, root)) ∧
    (pathname_to_inode dp root = none →
      do_rename (sp ++ [sn]) (dp ++ [dn]) now root = some (-ENOENT, root)) ∧
    (∀ P, pathname_to_inode sp root = some P → P.find_in_dentry sn = none →
      do_rename (sp ++ [sn]) (dp ++ [dn]) now root = some (-ENOENT, root)) ∧
    (∀ P D node, pathname_to_inode sp root = some P → pathname_to_inode dp root = some D →
      P.find_in_dentry sn = some node →
      (do_rename (sp ++ [sn]) (dp ++ [dn]) now root).map Prod.fst = some 0) := by
  have hneg : (-ENOENT : Int) < 0 := by decide
  have hzero : ¬ ((0 : Int) < 0) := by decide
  have hA : pathname_to_inode sp root = none →
      do_rename (sp ++ [sn]) (dp ++ [dn]) now root = some (-ENOENT, root) :=
    fun h => do_rename_enoent_parent root sp dp sn dn now h
  have hB : pathname_to_inode dp root = none →
      do_rename (sp ++ [sn]) (dp ++ [dn]) now root = some (-ENOENT, root) := by
    intro h
    unfold do_rename
    rw [getLast?_concat', getLast?_concat', dropLast_concat', dropLast_concat']
    simp only
    rw [h]
    cases pathname_to_inode sp root <;> rfl
  have hC : ∀ P, pathname_to_inode sp root = some P → P.find_in_dentry sn = none →
      do_rename (sp ++ [sn]) (dp ++ [dn]) now root = some (-ENOENT, root) := by
    intro P hP hfind
    unfold do_rename
    rw [getLast?_concat', getLast?_concat', dropLast_concat', dropLast_concat']
    simp only
    rw [hP]
    simp only
    rw [hfind]
    cases pathname_to_inode dp root <;> rfl
  have hD : ∀ P D node, pathname_to_inode sp root = some P →
      pathname_to_inode dp root = some D → P.find_in_dentry sn = some node →
      do_rename (sp ++ [sn]) (dp ++ [dn]) now root =
        some (0, after_rename sp dp sn dn now node root) :=
    fun P D node hP hD hnode => do_rename_eq root P D node sp dp sn dn now hP hnode hD
  refine ⟨?_, hA, hB, hC, fun P D node hP hDp hnode => by
    rw [hD P D node hP hDp hnode]; rfl⟩
  cases hP : pathname_to_inode sp root with
  | none => exact ⟨_, _, hA hP, Or.inr rfl, fun _ => rfl⟩
  | some P =>
    cases hDp : pathname_to_inode dp root with
    | none => exact ⟨_, _, hB hDp, Or.inr rfl, fun _ => rfl⟩
    | some D =>
      cases hnode : P.find_in_dentry sn with
      | none => exact ⟨_, _, hC P hP hnode, Or.inr rfl, fun _ => rfl⟩
      | some node =>
        exact ⟨_, _, hD P D node hP hDp hnode, Or.inl rfl, fun h => absurd h hzero⟩

/-! ## The child names in the states of the file system -/

theorem map_snd_eq_some {α β : Type} (o : Option (α × β)) (b : β)
    (h : o.map Prod.snd = some b) : ∃ a, o = some (a, b) := by
  cases o with
  | none => exact Option.noConfusion h
  | some p =>
    obtain ⟨a, b'⟩ := p
    exact ⟨a, by rw [← Option.some.inj h]⟩

theorem tree_sorted_at (root inode : inode_t) (path : List String) (h : tree_sorted root)
    (hres : pathname_to_inode path root = some inode) : tree_sorted inode := by
  intro q n hq
  apply h (path ++ q) n
  rw [pathname_to_inode_append, hres]
  exact hq

theorem tree_sorted_modify_at_own (f : inode_t → inode_t) (hd : ∀ n, (f n).dentry = n.dentry)
    (path : List String) (root : inode_t) (h : tree_sorted root) :
    tree_sorted (modify_at path f root) :=
  tree_sorted_modify_at f (fun n hn => tree_sorted_of_dentry_eq n (f n) (hd n) hn) path root h

theorem tree_sorted_modify_at_const (path : List String) (root inode inode1 : inode_t)
    (hres : pathname_to_inode path root = some inode) (h : tree_sorted root)
    (hd : inode1.dentry = inode.dentry) :
    tree_sorted (modify_at path (fun _ => inode1) root) :=
  tree_sorted_modify_at _
    (fun _ _ => tree_sorted_of_dentry_eq inode inode1 hd (tree_sorted_at root inode path h hres))
    path root h

/-- Every call of an entry point keeps the keys of every children map in
ascending order. -/
theorem tree_sorted_run_call (fresh : Nat → Block) (now : timespec) (call : fs_call)
    (root root' : inode_t) (h : tree_sorted root)
    (hrun : run_call fresh now call root = some root') : tree_sorted root' := by
  cases call with
  | mkdir vpath mode =>
    obtain ⟨r, hr⟩ := map_snd_eq_some _ _ hrun
    exact tree_sorted_do_mkdir vpath mode now root root' r h hr
  | chmod vpath mode =>
    simp only [run_call, do_chmod] at hrun
    rw [← Option.some.inj hrun]
    cases hp : pathname_to_inode vpath root with
    | none => exact h
    | some inode => exact tree_sorted_modify_at_own _ (fun n => by cases n; rfl) vpath root h
  | chown vpath uid gid =>
    simp only [run_call, do_chown] at hrun
    rw [← Option.some.inj hrun]
    cases hp : pathname_to_inode vpath root with
    | none => exact h
    | some inode => exact tree_sorted_modify_at_own _ (fun n => by cases n; rfl) vpath root h
  | create vpath mode =>
    obtain ⟨r, hr⟩ := map_snd_eq_some _ _ hrun
    exact tree_sorted_do_create vpath mode now root root' r h hr
  | open_ vpath =>
    simp only [run_call, do_open] at hrun
    rw [← Option.some.inj hrun]
    cases hp : pathname_to_inode vpath root with
    | none => exact h
    | some inode => exact tree_sorted_modify_at_own _ (set_atim_dentry now) vpath root h
  | read vpath size offset =>
    simp only [run_call, do_read] at hrun
    cases hp : pathname_to_inode vpath root with
    | none => rw [hp] at hrun; rw [← Option.some.inj hrun]; exact h
    | some inode =>
      rw [hp] at hrun
      simp only at hrun
      cases hr : (set_atim now inode).read size offset with
      | none => rw [hr] at hrun; exact Option.noConfusion hrun
      | some pr =>
        rw [hr] at hrun
        rw [← Option.some.inj hrun]
        exact tree_sorted_modify_at_own _ (set_atim_dentry now) vpath root h
  | write vpath buffer size offset =>
    simp only [run_call, do_write] at hrun
    cases hp : pathname_to_inode vpath root with
    | none => rw [hp] at hrun; rw [← Option.some.inj hrun]; exact h
    | some inode =>
      rw [hp] at hrun
      simp only at hrun
      cases hw : (set_ctim now inode).write fresh buffer size offset with
      | none => rw [hw] at hrun; exact Option.noConfusion hrun
      | some pr =>
        obtain ⟨k, inode1⟩ := pr
        rw [hw] at hrun
        rw [← Option.some.inj hrun]
        exact tree_sorted_modify_at_const vpath root inode inode1 hp h
          (by rw [write_dentry fresh _ inode1 buffer size offset k hw, set_ctim_dentry])
  | utimens vpath tv0 tv1 =>
    simp only [run_call, do_utimens] at hrun
    rw [← Option.some.inj hrun]
    cases hp : pathname_to_inode vpath root with
    | none => exact h
    | some inode => exact tree_sorted_modify_at_own _ (fun n => by cases n; rfl) vpath root h
  | unlink vpath =>
    simp only [run_call] at hrun
    rw [← Option.some.inj hrun]
    exact tree_sorted_do_unlink vpath root h
  | rmdir vpath =>
    simp only [run_call] at hrun
    rw [← Option.some.inj hrun]
    exact tree_sorted_do_rmdir vpath root h
  | mknod vpath mode device =>
    obtain ⟨r, hr⟩ := map_snd_eq_some _ _ hrun
    exact tree_sorted_do_mknod vpath mode device now root root' r h hr
  | rename vsrc vdst =>
    obtain ⟨r, hr⟩ := map_snd_eq_some _ _ hrun
    exact tree_sorted_do_rename vsrc vdst now root root' r h hr
  | symlink vpath linkname =>
    obtain ⟨r, hr⟩ := map_snd_eq_some _ _ hrun
    exact tree_sorted_do_symlink fresh vpath linkname now root root' r h hr
  | readlink vpath size =>
    simp only [run_call, do_readlink] at hrun
    cases hp : pathname_to_inode vpath root with
    | none => rw [hp] at hrun; rw [← Option.some.inj hrun]; exact h
    | some inode =>
      rw [hp] at hrun
      simp only at hrun
      cases hr : (set_atim now inode).read size 0 with
      | none => rw [hr] at hrun; exact Option.noConfusion hrun
      | some pr =>
        rw [hr] at hrun
        rw [← Option.some.inj hrun]
        exact tree_sorted_modify_at_own _ (set_atim_dentry now) vpath root h
  | truncate vpath size =>
    simp only [run_call, do_truncate] at hrun
    rw [← Option.some.inj hrun]
    cases hp : pathname_to_inode vpath root with
    | none => exact h
    | some inode =>
      exact tree_sorted_modify_at_own _ (fun n => (truncate_sizes fresh n _ size).2.2) vpath root h
  | fallocate vpath mode offset length =>
    simp only [run_call, do_fallocate] at hrun
    rw [← Option.some.inj hrun]
    cases hp : pathname_to_inode vpath root with
    | none => exact h
    | some inode =>
      exact tree_sorted_modify_at_own _
        (fun n => (truncate_sizes fresh n _ (offset + length)).2.2) vpath root h
  | setxattr vpath name value size flag =>
    simp only [run_call, do_setxattr] at hrun
    cases hp : pathname_to_inode vpath root with
    | none => rw [hp] at hrun; rw [← Option.some.inj hrun]; exact h
    | some inode =>
      rw [hp] at hrun
      simp only at hrun
      cases hs : inode_setxattr inode name value size with
      | none =>
        rw [hs] at hrun
        by_cases h1 : flag = XATTR_CREATE
        · rw [if_pos h1] at hrun
          cases hf : map_find name inode.xattr with
          | none => rw [hf] at hrun; exact Option.noConfusion hrun
          | some v => rw [hf] at hrun; rw [← Option.some.inj hrun]; exact h
        · rw [if_neg h1] at hrun
          by_cases h2 : flag = XATTR_REPLACE
          · rw [if_pos h2] at hrun
            cases hf : map_find name inode.xattr with
            | none => rw [hf] at hrun; rw [← Option.some.inj hrun]; exact h
            | some v => rw [hf] at hrun; exact Option.noConfusion hrun
          · rw [if_neg h2] at hrun
            exact Option.noConfusion hrun
      | some inode1 =>
        rw [hs] at hrun
        have hd : inode1.dentry = inode.dentry := by
          unfold inode_setxattr at hs
          by_cases hsz : size ≤ value.length
          · rw [if_pos hsz] at hs
            rw [← Option.some.inj hs]
            cases inode; rfl
          · rw [if_neg hsz] at hs
            exact Option.noConfusion hs
        have hstore := tree_sorted_modify_at_const vpath root inode inode1 hp h hd
        by_cases h1 : flag = XATTR_CREATE
        · rw [if_pos h1] at hrun
          cases hf : map_find name inode.xattr with
          | none => rw [hf] at hrun; rw [← Option.some.inj hrun]; exact hstore
          | some v => rw [hf] at hrun; rw [← Option.some.inj hrun]; exact h
        · rw [if_neg h1] at hrun
          by_cases h2 : flag = XATTR_REPLACE
          · rw [if_pos h2] at hrun
            cases hf : map_find name inode.xattr with
            | none => rw [hf] at hrun; rw [← Option.some.inj hrun]; exact h
            | some v => rw [hf] at hrun; rw [← Option.some.inj hrun]; exact hstore
          · rw [if_neg h2] at hrun
            rw [← Option.some.inj hrun]
            exact hstore
  | removexattr vpath name =>
    simp only [run_call, do_removexattr] at hrun
    rw [← Option.some.inj hrun]
    cases hp : pathname_to_inode vpath root with
    | none => exact h
    | some inode =>
      simp only
      cases hf : map_find name inode.xattr with
      | none => exact h
      | some v => exact tree_sorted_modify_at_own _ (fun n => by cases n; rfl) vpath root h
  | readdir vpath =>
    simp only [run_call, do_readdir] at hrun
    rw [← Option.some.inj hrun]
    cases hp : pathname_to_inode vpath root with
    | none => exact h
    | some inode => exact tree_sorted_modify_at_own _ (set_atim_dentry now) vpath root h

/-- In every state of the file system the keys of every children map are in
ascending order. -/
theorem reachable_tree_sorted (root : inode_t) (h : Reachable root) : tree_sorted root := by
  induction h with
  | start now => exact tree_sorted_empty_root now
  | step fresh now call root root' _ hrun ih =>
    exact tree_sorted_run_call fresh now call root root' ih hrun

/-- C32, as stated, fails: `/.` is parsed to the one component `.`, and
`do_mkdir` on it, on the empty file system, returns 0 and leaves a state in
which the root has a child named `.`; `readdir` on the root then passes `.`,
`..` and `.` to `filler`. -/
theorem mkdir_dot_makes_child_named_dot :
    stmpfs_pathname_t "/." = ["."] ∧ pathname_t "/." = ["."] ∧
    (do_mkdir ["."] 0o755 {} (empty_root {})).map Prod.fst = some 0 ∧
    Reachable tree_dot ∧
    tree_dot.dentry.map Prod.fst = ["."] ∧
    (do_readdir [] {} tree_dot).1 = 0 ∧
    (do_readdir [] {} tree_dot).2.1 = [".", "..", "."] :=
  ⟨by decide, by decide, by decide,
    Reachable.step (fun _ _ => 0) {} (fs_call.mkdir ["."] 0o755) (empty_root {}) tree_dot
      (Reachable.start {}) rfl,
    by decide, by decide, by decide⟩

/-- C32, amended: in every state of the file system, the child names of every
inode are in strictly ascending order, hence pairwise distinct, and `readdir`
on a resolving path returns 0 and passes `.`, `..` and these names to
`filler`. -/
theorem reachable_names_distinct (root inode : inode_t) (vpath : List String) (now : timespec)
    (hreach : Reachable root) (hres : pathname_to_inode vpath root = some inode) :
    (inode.dentry.map Prod.fst).Pairwise (fun a b => str_lt a.toList b.toList = true) ∧
    (inode.dentry.map Prod.fst).Nodup ∧
    (do_readdir vpath now root).1 = 0 ∧
    (do_readdir vpath now root).2.1 = [".", ".."] ++ inode.dentry.map Prod.fst := by
  have hs : map_sorted inode.dentry := reachable_tree_sorted root hreach vpath inode hres
  refine ⟨hs, map_sorted_nodup _ hs, ?_, ?_⟩
  · unfold do_readdir
    rw [hres]
  · unfold do_readdir
    rw [hres]
    simp only
    rw [set_atim_dentry]

/-! ## Instances of the theorems on block indices, truncate and child names -/

/-- Witness for the amended C32: the state after `mkdir /b` and `mkdir /a`. -/
theorem reachable_names_distinct_witness :
    Reachable tree_mkdir_b_a ∧
    pathname_to_inode [] tree_mkdir_b_a = some tree_mkdir_b_a ∧
    tree_mkdir_b_a.dentry.map Prod.fst = ["a", "b"] ∧
    (tree_mkdir_b_a.dentry.map Prod.fst).Nodup ∧
    (do_readdir [] {} tree_mkdir_b_a).2.1 = [".", ".."] ++ tree_mkdir_b_a.dentry.map Prod.fst :=
  ⟨Reachable.step (fun _ _ => 0) {} (fs_call.mkdir ["a"] 0o755)
      (inode_t.emplace_new_dentry "b" (mkdir_template 0o755 {}) (empty_root {})) tree_mkdir_b_a
      (Reachable.step (fun _ _ => 0) {} (fs_call.mkdir ["b"] 0o755) (empty_root {}) _
        (Reachable.start {}) rfl) rfl,
    rfl, by decide,
    (reachable_names_distinct tree_mkdir_b_a tree_mkdir_b_a [] {}
      (Reachable.step (fun _ _ => 0) {} (fs_call.mkdir ["a"] 0o755)
        (inode_t.emplace_new_dentry "b" (mkdir_template 0o755 {}) (empty_root {}))
        tree_mkdir_b_a
        (Reachable.step (fun _ _ => 0) {} (fs_call.mkdir ["b"] 0o755) (empty_root {}) _
          (Reachable.start {}) rfl) rfl) rfl).2.1,
    (reachable_names_distinct tree_mkdir_b_a tree_mkdir_b_a [] {}
      (Reachable.step (fun _ _ => 0) {} (fs_call.mkdir ["a"] 0o755)
        (inode_t.emplace_new_dentry "b" (mkdir_template 0o755 {}) (empty_root {}))
        tree_mkdir_b_a
        (Reachable.step (fun _ _ => 0) {} (fs_call.mkdir ["b"] 0o755) (empty_root {}) _
          (Reachable.start {}) rfl) rfl) rfl).2.2.2⟩

/-- Witness for C34: two bytes written at offset 1023 of a ten-byte file, one
into block 0 of two and one into block 1 of three. -/
theorem write_stores_inside_blocks_witness :
    (inode_t.mk [fun _ => 7] 10 [] {} []).cur_data_size ≤
        (inode_t.mk [fun _ => 7] 10 [] {} []).data.length * BLOCK_SIZE ∧
    1 ≤ [(1 : Byte), 2].length ∧
    inode_t.write_stores (fun _ _ => 0) (inode_t.mk [fun _ => 7] 10 [] {} [])
      [(1 : Byte), 2].length 1023 = [(0, 2), (1, 3)] ∧
    ∀ p ∈ inode_t.write_stores (fun _ _ => 0) (inode_t.mk [fun _ => 7] 10 [] {} [])
      [(1 : Byte), 2].length 1023, p.1 < p.2 :=
  ⟨by decide, by decide, by decide,
    (write_stores_inside_blocks (fun _ _ => 0) (inode_t.mk [fun _ => 7] 10 [] {} []) [1, 2] 1023
      (by decide) (by decide)).2⟩

/-- Witness for C37: a ten-byte file truncated to four bytes. -/
theorem truncate_keeps_old_bytes_witness :
    (inode_t.mk [fun _ => 7] 10 [] {} []).cur_data_size ≤
        (inode_t.mk [fun _ => 7] 10 [] {} []).data.length * BLOCK_SIZE ∧
    ((inode_t.mk [fun _ => 7] 10 [] {} []).truncate (fun _ _ => 0) 4).read
        (min (inode_t.mk [fun _ => 7] 10 [] {} []).cur_data_size 4) 0 =
      some (min (inode_t.mk [fun _ => 7] 10 [] {} []).cur_data_size 4,
        (List.range (min (inode_t.mk [fun _ => 7] 10 [] {} []).cur_data_size 4)).map
          (fun k => byteD (inode_t.mk [fun _ => 7] 10 [] {} []).data k)) ∧
    (List.range (min (inode_t.mk [fun _ => 7] 10 [] {} []).cur_data_size 4)).map
      (fun k => byteD (inode_t.mk [fun _ => 7] 10 [] {} []).data k) = [7, 7, 7, 7] :=
  ⟨by decide,
    (truncate_keeps_old_bytes (fun _ _ => 0) (inode_t.mk [fun _ => 7] 10 [] {} []) 4
      (by decide)).2.1,
    by decide⟩

end Stmpfs
